import Mathlib

/-!
# idsp delay-network core: ring buffer and allpass family

A shallow embedding of `idsp/ringbuffer.hpp`, `idsp/functions.hpp`,
`idsp/buffer_interface.hpp`, `idsp/buffer_types.hpp`, `idsp/wrapper.hpp`,
`idsp/reverb_toolkit.hpp`, and of `OnepoleFilter` (`idsp/filter.hpp`) and `FDN_4`
(`idsp/reverb.hpp`).

Conventions of the embedding.

* A `BufferInterface` is a non-owning `{pointer, size}` view.  It is modelled by
  the list of the cells the view addresses; `size()` is the length of that list.
* `operator[]` on a view performs no bounds check.  An access outside the view is
  undefined behaviour in the source; here such an access makes the operation
  return `none`.
* `size_t` values are natural numbers.  `write_index++` in `write`/`increment`
  is only reached with `write_index` below the size of an existing view, so the
  increment cannot wrap.  Where the source converts between `size_t` and `int`
  (`read_offset`) the conversions are explicit, for a 32-bit `int` and `size_t`.
* `Sample` (`float` by default, a preprocessor parameter of the library) and the
  `float` gain are modelled by one type `S` carrying the arithmetic operations
  that the code uses.  Step-level statements hold for every interpretation of
  these operations; statements about transfer functions are made in exact
  arithmetic (a commutative ring).
* Interpolated reads, the modulated processors and the feedback delay network
  compute with fractional positions; they are modelled in exact arithmetic over
  a linearly ordered field, and the conversion of a position to `int` is
  truncation toward zero.
-/

namespace idsp

/-! ## functions.hpp -/

/-- The library's own `min`: `a < b ? a : b`. -/
def min {T : Type} [LT T] [DecidableRel (fun (a b : T) => a < b)] (a b : T) : T :=
  if a < b then a else b

/-- The library's own `max`: `a > b ? a : b`. -/
def max {T : Type} [LT T] [DecidableRel (fun (a b : T) => a < b)] (a b : T) : T :=
  if a > b then a else b

/-- Function `clamp(x, lo, hi)`: `return idsp::max(idsp::min(x, hi), lo);` -/
def clamp {T : Type} [LT T] [DecidableRel (fun (a b : T) => a < b)] (x lo hi : T) : T :=
  idsp.max (idsp.min x hi) lo

/-! ## Integer conversions -/

/-- Conversion `static_cast<int>(z)` to a 32-bit `int`: the representative of `z`
modulo `2^32` in `[-2^31, 2^31)`. -/
def to_int (z : Int) : Int := (z + 2147483648) % 4294967296 - 2147483648

/-- Conversion `static_cast<size_t>(z)` to a 32-bit `size_t`: the representative of
`z` modulo `2^32` in `[0, 2^32)`. -/
def to_size_t (z : Int) : Nat := (z % 4294967296).toNat

/-! ## buffer_interface.hpp : BufferInterface -/

namespace BufferInterface

variable {S : Type}

/-- Member `fill(v)`: `for (auto& x : (*this)) x = v;`, over the cells from
`begin()` to `end() = data() + size()`. -/
def fill (buf : List S) (v : S) : List S :=
  buf.map (fun _ => v)

/-- Member `erase()`: `this->fill(Sample(0));` -/
def erase [Zero S] (buf : List S) : List S :=
  fill buf 0

/-- Element access `buf[i]` with a signed index `i` (a `long int` in the
interpolation helpers), which `operator[]` takes as a `size_t` without a bounds
check: an index below `0` or not below `size()` designates no cell of the view. -/
def index (buf : List S) (i : Int) : Option S :=
  if i < 0 then none else buf[i.toNat]?

end BufferInterface

/-! ## ringbuffer.hpp : AudioRingBuffer -/

/-- State of an `AudioRingBuffer`: the cells of the borrowed view, the write
index and the logical length (the loop point of the write index). -/
structure AudioRingBuffer (S : Type) where
  buffer : List S
  write_index : Nat
  length : Nat
deriving DecidableEq, Repr

namespace AudioRingBuffer

variable {S : Type}

/-- Constructor `AudioRingBuffer(buff)`: `write_index {0}`, `length {buffer.size()}`. -/
def new (buff : List S) : AudioRingBuffer S :=
  { buffer := buff, write_index := 0, length := buff.length }

/-- Member `get_size()`: the size of the underlying view. -/
def get_size (rb : AudioRingBuffer S) : Nat := rb.buffer.length

/-- Member `get_index()`. -/
def get_index (rb : AudioRingBuffer S) : Nat := rb.write_index

/-- Member `get_length()`. -/
def get_length (rb : AudioRingBuffer S) : Nat := rb.length

/-- Member `write(input)`:
`buffer[write_index] = input; write_index++; if (write_index >= length) write_index = 0;` -/
def write (rb : AudioRingBuffer S) (input : S) : Option (AudioRingBuffer S) :=
  if rb.write_index < rb.buffer.length then
    let buffer := rb.buffer.set rb.write_index input
    let write_index := rb.write_index + 1
    some { buffer := buffer
           write_index := if write_index ≥ rb.length then 0 else write_index
           length := rb.length }
  else none

/-- Member `read()`: `return buffer[write_index];` -/
def read (rb : AudioRingBuffer S) : Option S :=
  rb.buffer[rb.write_index]?

/-- Member `increment()`: `write_index++; if (write_index >= length) write_index = 0;` -/
def increment (rb : AudioRingBuffer S) : AudioRingBuffer S :=
  let write_index := rb.write_index + 1
  { rb with write_index := if write_index ≥ rb.length then 0 else write_index }

/-- Member `set_length(new_length)`:
`length = min(new_length, buffer.size()); write_index = 0;` -/
def set_length (rb : AudioRingBuffer S) (new_length : Nat) : AudioRingBuffer S :=
  { buffer := rb.buffer
    write_index := 0
    length := idsp.min new_length rb.buffer.length }

/-- Member `write_at(input, index)`: `idsp::min(index, (length-1)); buffer[index] = input;`
The value of the call to `min` is discarded, so `index` is used as passed. -/
def write_at (rb : AudioRingBuffer S) (input : S) (index : Nat) : Option (AudioRingBuffer S) :=
  if index < rb.buffer.length then
    some { rb with buffer := rb.buffer.set index input }
  else none

/-- Member `read_at(index)`: `min(index, (length-1)); return buffer[index];`
The value of the call to `min` is discarded, so `index` is used as passed. -/
def read_at (rb : AudioRingBuffer S) (index : Nat) : Option S :=
  rb.buffer[index]?

/-- The position computed by `read_offset(offset)`:
`min<size_t>(offset, (length -1));` (value discarded)
`int pos = static_cast<int>(write_index) - static_cast<int>(offset);`
`pos = pos < 0 ? (pos + length) : pos >= static_cast<int>(length) ? (pos - length) : pos;`
The sums `pos + length` and `pos - length` mix `int` and `size_t`: they are
evaluated in `size_t` and converted back on assignment to `pos`. -/
def read_offset_pos (rb : AudioRingBuffer S) (offset : Nat) : Int :=
  let pos : Int := to_int (to_int (rb.write_index : Int) - to_int (offset : Int))
  if pos < 0 then to_int ((to_size_t pos : Int) + (rb.length : Int))
  else if pos ≥ to_int (rb.length : Int) then to_int ((to_size_t pos : Int) - (rb.length : Int))
  else pos

/-- Member `read_offset(offset)`: `return buffer[static_cast<size_t>(pos)];` for the
position computed above. -/
def read_offset (rb : AudioRingBuffer S) (offset : Nat) : Option S :=
  rb.buffer[to_size_t (rb.read_offset_pos offset)]?

/-- Member `set_write_index(index)`: `min<size_t>(index, (length -1)); write_index = index;`
The value of the call to `min` is discarded, so `index` is used as passed. -/
def set_write_index (rb : AudioRingBuffer S) (index : Nat) : AudioRingBuffer S :=
  { rb with write_index := index }

/-- Member `erase()`: `buffer.erase()`, which fills every cell of the view with `Sample(0)`. -/
def erase [Zero S] (rb : AudioRingBuffer S) : AudioRingBuffer S :=
  { rb with buffer := BufferInterface.erase rb.buffer }

/-- Private member `_process_sample(input)`:
`Sample output = read(); write(input); return output;` -/
def _process_sample (rb : AudioRingBuffer S) (input : S) : Option (S × AudioRingBuffer S) :=
  match rb.read with
  | none => none
  | some output =>
    match rb.write input with
    | none => none
    | some rb1 => some (output, rb1)

/-- Member `process(input)` for one sample: `return this->_process_sample(input);` -/
def process (rb : AudioRingBuffer S) (input : S) : Option (S × AudioRingBuffer S) :=
  rb._process_sample input

/-- Consecutive calls `process(x)` for the samples of `xs`, in order; the outputs
are collected in call order. -/
def processSeq : AudioRingBuffer S → List S → Option (List S × AudioRingBuffer S)
  | rb, [] => some ([], rb)
  | rb, x :: xs =>
    match rb.process x with
    | none => none
    | some (y, rb1) =>
      match processSeq rb1 xs with
      | none => none
      | some (ys, rb2) => some (y :: ys, rb2)

/-- Consecutive calls `write(v)` for the samples of `vs`, in order. -/
def writeSeq : AudioRingBuffer S → List S → Option (AudioRingBuffer S)
  | rb, [] => some rb
  | rb, v :: vs =>
    match rb.write v with
    | none => none
    | some rb1 => writeSeq rb1 vs

/-- The operations of the ring buffer that move the write index or the loop point. -/
inductive Op (S : Type) where
  | write (input : S)
  | increment
  | process (input : S)
  | set_length (new_length : Nat)
deriving Repr

/-- One operation applied to a ring buffer (the output of `process` is dropped). -/
def applyOp (rb : AudioRingBuffer S) : Op S → Option (AudioRingBuffer S)
  | Op.write input => rb.write input
  | Op.increment => some rb.increment
  | Op.process input =>
    match rb.process input with
    | none => none
    | some (_, rb1) => some rb1
  | Op.set_length new_length => some (rb.set_length new_length)

/-- A sequence of operations applied in order. -/
def applyOps : AudioRingBuffer S → List (Op S) → Option (AudioRingBuffer S)
  | rb, [] => some rb
  | rb, op :: ops =>
    match rb.applyOp op with
    | none => none
    | some rb1 => applyOps rb1 ops

/-- The argument of every `set_length` in the sequence is at least `1`. -/
def lengthsPositive : List (Op S) → Prop
  | [] => True
  | Op.set_length n :: ops => 1 ≤ n ∧ lengthsPositive ops
  | _ :: ops => lengthsPositive ops

/-- The data-model invariant of a ring buffer:
`write_index < logical_length ≤ capacity`. -/
def WellFormed (rb : AudioRingBuffer S) : Prop :=
  rb.write_index < rb.length ∧ rb.length ≤ rb.buffer.length

instance (rb : AudioRingBuffer S) : Decidable rb.WellFormed := by
  unfold WellFormed; infer_instance

end AudioRingBuffer

/-! ## reverb_toolkit.hpp : allpass family -/

/-- State of an `AllpassProcessor`: the feedback delay line and the gain. -/
structure AllpassProcessor (S : Type) where
  delay : AudioRingBuffer S
  gain : S
deriving DecidableEq, Repr

namespace AllpassProcessor

variable {S : Type}

/-- Constructor `AllpassProcessor(buff)`: `delay{AudioRingBuffer(buff)}`, `gain{0.5}`.
The argument `half` is the value of the literal `0.5` in the sample type. -/
def new (buff : List S) (half : S) : AllpassProcessor S :=
  { delay := AudioRingBuffer.new buff, gain := half }

/-- Member `set_gain(g)`: `gain = g`. -/
def set_gain (ap : AllpassProcessor S) (g : S) : AllpassProcessor S :=
  { ap with gain := g }

/-- Private member `_process_sample(input)`:
`Sample wnD = delay.read();`
`Sample wn = input + gain * wnD;`
`Sample yn = -gain*wn + wnD;`
`delay.write(wn);`
`return yn;` -/
def _process_sample [Add S] [Mul S] [Neg S] (ap : AllpassProcessor S) (input : S) :
    Option (S × AllpassProcessor S) :=
  match ap.delay.read with
  | none => none
  | some wnD =>
    let wn := input + ap.gain * wnD
    let yn := (-ap.gain) * wn + wnD
    match ap.delay.write wn with
    | none => none
    | some delay1 => some (yn, { delay := delay1, gain := ap.gain })

/-- Member `process(input)` for one sample: `return this->_process_sample(input);` -/
def process [Add S] [Mul S] [Neg S] (ap : AllpassProcessor S) (input : S) :
    Option (S × AllpassProcessor S) :=
  ap._process_sample input

/-- Consecutive calls `process(x)` for the samples of `xs`, in order. -/
def processSeq [Add S] [Mul S] [Neg S] :
    AllpassProcessor S → List S → Option (List S × AllpassProcessor S)
  | ap, [] => some ([], ap)
  | ap, x :: xs =>
    match ap.process x with
    | none => none
    | some (y, ap1) =>
      match processSeq ap1 xs with
      | none => none
      | some (ys, ap2) => some (y :: ys, ap2)

/-- The variant named by the specification's write-order property: the plain
allpass step with step 4 replaced by a write of `yn` instead of `wn`.  It is not
part of the library; it is the comparison object of that property. -/
def process_writing_yn [Add S] [Mul S] [Neg S] (ap : AllpassProcessor S) (input : S) :
    Option (S × AllpassProcessor S) :=
  match ap.delay.read with
  | none => none
  | some wnD =>
    let wn := input + ap.gain * wnD
    let yn := (-ap.gain) * wn + wnD
    match ap.delay.write yn with
    | none => none
    | some delay1 => some (yn, { delay := delay1, gain := ap.gain })

/-- Consecutive steps of the `yn`-writing variant for the samples of `xs`. -/
def processSeq_writing_yn [Add S] [Mul S] [Neg S] :
    AllpassProcessor S → List S → Option (List S × AllpassProcessor S)
  | ap, [] => some ([], ap)
  | ap, x :: xs =>
    match ap.process_writing_yn x with
    | none => none
    | some (y, ap1) =>
      match processSeq_writing_yn ap1 xs with
      | none => none
      | some (ys, ap2) => some (y :: ys, ap2)

end AllpassProcessor

/-- State of a `NestedAllpassProcessor`: the outer delay line, the inner allpass
and the outer gain. -/
structure NestedAllpassProcessor (S : Type) where
  delay : AudioRingBuffer S
  allpass : AllpassProcessor S
  gain : S
deriving DecidableEq, Repr

namespace NestedAllpassProcessor

variable {S : Type}

/-- Constructor `NestedAllpassProcessor(buffer, buffer1)`:
`delay{AudioRingBuffer(buffer)}`, `allpass{AllpassProcessor(buffer1)}`, `gain{0.5}`.
The argument `half` is the value of the literal `0.5` in the sample type. -/
def new (buffer buffer1 : List S) (half : S) : NestedAllpassProcessor S :=
  { delay := AudioRingBuffer.new buffer
    allpass := AllpassProcessor.new buffer1 half
    gain := half }

/-- Member `set_gain(g0, g1)`: `gain = g0; allpass.set_gain(g1);` -/
def set_gain (np : NestedAllpassProcessor S) (g0 g1 : S) : NestedAllpassProcessor S :=
  { np with gain := g0, allpass := np.allpass.set_gain g1 }

/-- Private member `_process_sample(input)`:
`Sample wnD = delay.read();`
`Sample wn = input + gain * wnD;`
`Sample y_inner = allpass.process(wn);`
`Sample yn = -gain*wn + wnD;`
`delay.write(y_inner);`
`return yn;` -/
def _process_sample [Add S] [Mul S] [Neg S] (np : NestedAllpassProcessor S) (input : S) :
    Option (S × NestedAllpassProcessor S) :=
  match np.delay.read with
  | none => none
  | some wnD =>
    let wn := input + np.gain * wnD
    match np.allpass.process wn with
    | none => none
    | some (y_inner, allpass1) =>
      let yn := (-np.gain) * wn + wnD
      match np.delay.write y_inner with
      | none => none
      | some delay1 => some (yn, { delay := delay1, allpass := allpass1, gain := np.gain })

/-- Member `process(input)` for one sample: `return this->_process_sample(input);` -/
def process [Add S] [Mul S] [Neg S] (np : NestedAllpassProcessor S) (input : S) :
    Option (S × NestedAllpassProcessor S) :=
  np._process_sample input

/-- Consecutive calls `process(x)` for the samples of `xs`, in order. -/
def processSeq [Add S] [Mul S] [Neg S] :
    NestedAllpassProcessor S → List S → Option (List S × NestedAllpassProcessor S)
  | np, [] => some ([], np)
  | np, x :: xs =>
    match np.process x with
    | none => none
    | some (y, np1) =>
      match processSeq np1 xs with
      | none => none
      | some (ys, np2) => some (y :: ys, np2)

end NestedAllpassProcessor

/-- State of a `DoubleNestedAllpassProcessor`: the outer delay line, the two
inner allpasses and the outer gain. -/
structure DoubleNestedAllpassProcessor (S : Type) where
  delay : AudioRingBuffer S
  allpass1 : AllpassProcessor S
  allpass2 : AllpassProcessor S
  gain : S
deriving DecidableEq, Repr

namespace DoubleNestedAllpassProcessor

variable {S : Type}

/-- Constructor `DoubleNestedAllpassProcessor(buffer, buffer1, buffer2)`:
`delay{AudioRingBuffer(buffer)}`, `allpass1{AllpassProcessor(buffer1)}`,
`allpass2{AllpassProcessor(buffer2)}`, `gain{0.5}`.
The argument `half` is the value of the literal `0.5` in the sample type. -/
def new (buffer buffer1 buffer2 : List S) (half : S) : DoubleNestedAllpassProcessor S :=
  { delay := AudioRingBuffer.new buffer
    allpass1 := AllpassProcessor.new buffer1 half
    allpass2 := AllpassProcessor.new buffer2 half
    gain := half }

/-- Member `set_gain(g0, g1, g2)`:
`gain = g0; allpass1.set_gain(g1); allpass2.set_gain(g2);` -/
def set_gain (dp : DoubleNestedAllpassProcessor S) (g0 g1 g2 : S) :
    DoubleNestedAllpassProcessor S :=
  { dp with gain := g0, allpass1 := dp.allpass1.set_gain g1,
            allpass2 := dp.allpass2.set_gain g2 }

/-- Private member `_process_sample(input)`:
`Sample wnD = delay.read();`
`Sample wn = input + gain * wnD;`
`Sample y_inner = allpass1.process(wn);`
`Sample y_outer = allpass2.process(y_inner);`
`Sample yn = -gain*wn + wnD;`
`delay.write(y_outer);`
`return yn;` -/
def _process_sample [Add S] [Mul S] [Neg S] (dp : DoubleNestedAllpassProcessor S)
    (input : S) : Option (S × DoubleNestedAllpassProcessor S) :=
  match dp.delay.read with
  | none => none
  | some wnD =>
    let wn := input + dp.gain * wnD
    match dp.allpass1.process wn with
    | none => none
    | some (y_inner, a1) =>
      match dp.allpass2.process y_inner with
      | none => none
      | some (y_outer, a2) =>
        let yn := (-dp.gain) * wn + wnD
        match dp.delay.write y_outer with
        | none => none
        | some delay1 =>
          some (yn, { delay := delay1, allpass1 := a1, allpass2 := a2, gain := dp.gain })

/-- Member `process(input)` for one sample: `return this->_process_sample(input);` -/
def process [Add S] [Mul S] [Neg S] (dp : DoubleNestedAllpassProcessor S) (input : S) :
    Option (S × DoubleNestedAllpassProcessor S) :=
  dp._process_sample input

end DoubleNestedAllpassProcessor

/-! ## functions.hpp : wrapping and interpolation

The interpolated reads compute with `float` positions.  They are modelled in
exact arithmetic over a linearly ordered field `K` with a floor function (the
rationals, for evaluation); `Sample` and `float` are both `K` there. -/

/-- Integral `wrap(x, lo, hi)`:
`const auto r {hi - lo}; return x >= lo ? (x < hi ? x : x - r) : x + r;` -/
def wrap (x lo hi : Int) : Int :=
  let r := hi - lo
  if x ≥ lo then (if x < hi then x else x - r) else x + r

/-- Signed integral `wrap_safe(x, lo, hi)`:
`const auto r {hi - lo}; if (x < lo) x += r * ((lo - x) / r + 1); return lo + (x - lo) % r;`
with the truncating `/` and `%` of C++ (a zero `r` is undefined in the source). -/
def wrap_safe (x lo hi : Int) : Int :=
  let r := hi - lo
  let x1 := if x < lo then x + r * ((lo - x).tdiv r + 1) else x
  lo + (x1 - lo).tmod r

/-- Conversion `static_cast<int>(x)` of a floating value: truncation toward zero. -/
def float_to_int {K : Type} [LinearOrderedField K] [FloorRing K] (x : K) : Int :=
  if 0 ≤ x then ⌊x⌋ else ⌈x⌉

/-- Scalar `interpolate_4(frac, a, b, c, d)`:
`b + frac * ((c - b) - T(0.1666667) * (T(1) - frac) *`
`((d - a - T(3)*(c - b)) * frac + (d + T(2)*a - T(3)*b)))`. -/
def interpolate_4 {K : Type} [Field K] (frac a b c d : K) : K :=
  b + frac * ((c - b) - (1666667 / 10000000 : K) * (1 - frac) *
    ((d - a - 3 * (c - b)) * frac + (d + 2 * a - 3 * b)))

/-- Buffer overload `interpolate_4(buf, index, frac)`:
`interpolate_4(frac, buf[index-1], buf[index], buf[index+1], buf[index+2])`. -/
def interpolate_4_buffer {K : Type} [Field K] (buf : List K) (index : Int) (frac : K) :
    Option K :=
  match BufferInterface.index buf (index - 1), BufferInterface.index buf index,
      BufferInterface.index buf (index + 1), BufferInterface.index buf (index + 2) with
  | some a, some b, some c, some d => some (interpolate_4 frac a b c d)
  | _, _, _, _ => none

/-- Function `interpolate_4_wrap(buf, index, frac)`: the four cells are
`buf[wrap<long int>(index + k, 0, buf.size())]` for `k = -1, 0, 1, 2`. -/
def interpolate_4_wrap {K : Type} [Field K] (buf : List K) (index : Int) (frac : K) :
    Option K :=
  match BufferInterface.index buf (wrap (index - 1) 0 buf.length),
      BufferInterface.index buf (wrap index 0 buf.length),
      BufferInterface.index buf (wrap (index + 1) 0 buf.length),
      BufferInterface.index buf (wrap (index + 2) 0 buf.length) with
  | some a, some b, some c, some d => some (interpolate_4 frac a b c d)
  | _, _, _, _ => none

/-- Function `interpolate_4_safe(buf, index, frac)`: the four cells are
`buf[wrap_safe<long int>(index + k, 0, buf.size())]` for `k = -1, 0, 1, 2`. -/
def interpolate_4_safe {K : Type} [Field K] (buf : List K) (index : Int) (frac : K) :
    Option K :=
  match BufferInterface.index buf (wrap_safe (index - 1) 0 buf.length),
      BufferInterface.index buf (wrap_safe index 0 buf.length),
      BufferInterface.index buf (wrap_safe (index + 1) 0 buf.length),
      BufferInterface.index buf (wrap_safe (index + 2) 0 buf.length) with
  | some a, some b, some c, some d => some (interpolate_4 frac a b c d)
  | _, _, _, _ => none

/-! ## ringbuffer.hpp : interpolated reads -/

namespace AudioRingBuffer

variable {K : Type} [LinearOrderedField K] [FloorRing K]

/-- Member `read_at_smooth_safe(read_pos)`:
`clamp<float>(read_pos, 0.f, (length -1.f));` (value discarded)
`int read_index = static_cast<int>(read_pos);`
`float fraction = (read_pos - static_cast<float>(read_index));`
`return interpolate_4_safe(buffer, read_index, fraction);` -/
def read_at_smooth_safe (rb : AudioRingBuffer K) (read_pos : K) : Option K :=
  let read_index := float_to_int read_pos
  let fraction := read_pos - (read_index : K)
  interpolate_4_safe rb.buffer read_index fraction

/-- Member `read_at_smooth_wrap(read_pos)`: as `read_at_smooth_safe`, ending in
`return interpolate_4_wrap(buffer, read_index, fraction);` -/
def read_at_smooth_wrap (rb : AudioRingBuffer K) (read_pos : K) : Option K :=
  let read_index := float_to_int read_pos
  let fraction := read_pos - (read_index : K)
  interpolate_4_wrap rb.buffer read_index fraction

/-- Member `read_at_smooth_raw(read_pos)`: as `read_at_smooth_safe`, ending in
`return interpolate_4(buffer, read_index, fraction);` -/
def read_at_smooth_raw (rb : AudioRingBuffer K) (read_pos : K) : Option K :=
  let read_index := float_to_int read_pos
  let fraction := read_pos - (read_index : K)
  interpolate_4_buffer rb.buffer read_index fraction

/-- Member `read_offset_smooth_safe(offset)`:
`clamp<float>(offset, 2.f, (length -1.f));` (value discarded)
`float read_pos = static_cast<float>(write_index) - offset;`
`int read_index = static_cast<int>(read_pos);`
`float fraction = (read_pos - static_cast<float>(read_index));`
`return interpolate_4_safe(buffer, read_index, fraction);` -/
def read_offset_smooth_safe (rb : AudioRingBuffer K) (offset : K) : Option K :=
  let read_pos := (rb.write_index : K) - offset
  let read_index := float_to_int read_pos
  let fraction := read_pos - (read_index : K)
  interpolate_4_safe rb.buffer read_index fraction

/-- Member `read_offset_smooth_wrap(offset)`: as `read_offset_smooth_safe`, ending
in `return interpolate_4_wrap(buffer, read_index, fraction);` -/
def read_offset_smooth_wrap (rb : AudioRingBuffer K) (offset : K) : Option K :=
  let read_pos := (rb.write_index : K) - offset
  let read_index := float_to_int read_pos
  let fraction := read_pos - (read_index : K)
  interpolate_4_wrap rb.buffer read_index fraction

/-- Member `read_offset_smooth_raw(offset)`: as `read_offset_smooth_safe`, ending
in `return interpolate_4(buffer, read_index, fraction);` -/
def read_offset_smooth_raw (rb : AudioRingBuffer K) (offset : K) : Option K :=
  let read_pos := (rb.write_index : K) - offset
  let read_index := float_to_int read_pos
  let fraction := read_pos - (read_index : K)
  interpolate_4_buffer rb.buffer read_index fraction

end AudioRingBuffer

/-! ## reverb_toolkit.hpp : block processing -/

namespace AllpassProcessor

variable {S : Type}

/-- The loop of `process(input, output)`,
`for (size_t i = 0; i < input.size(); i++) output[i] = this->_process_sample(input[i]);`
from index `i` on: `xs` holds the samples `input[i], input[i+1], ...` and `output`
the current cells of the output view (taken to be disjoint from the input view).
A store to `output[i]` with `i` not below `output.size()` leaves the view. -/
def process_loop [Add S] [Mul S] [Neg S] :
    AllpassProcessor S → List S → Nat → List S → Option (List S × AllpassProcessor S)
  | ap, [], _, output => some (output, ap)
  | ap, x :: xs, i, output =>
    match ap._process_sample x with
    | none => none
    | some (y, ap1) =>
      if i < output.length then process_loop ap1 xs (i + 1) (output.set i y) else none

/-- Member `process(input, output)`: the loop above from `i = 0`; the result is the
content of the output view and the state of the filter after the call. -/
def process_block [Add S] [Mul S] [Neg S] (ap : AllpassProcessor S) (input output : List S) :
    Option (List S × AllpassProcessor S) :=
  process_loop ap input 0 output

end AllpassProcessor

/-! ## reverb_toolkit.hpp : modulated processors

The low-frequency oscillator is an external collaborator.  The value returned by
`lfo.process()` in a call is the argument `lfo_out` of the step functions, and
the oscillator's own state is not part of the modelled state. -/

/-- State of a `ModulatedAllpassProcessor` (without its oscillator and the unused
member `delay_samples`). -/
structure ModulatedAllpassProcessor (K : Type) where
  delay : AudioRingBuffer K
  gain : K
  sample_depth : K

namespace ModulatedAllpassProcessor

variable {K : Type} [LinearOrderedField K] [FloorRing K]

/-- Constructor `ModulatedAllpassProcessor(buff)`: `delay{AudioRingBuffer(buff)}`,
`gain{0.5}`, `sample_depth{0}`. -/
def new (buff : List K) : ModulatedAllpassProcessor K :=
  { delay := AudioRingBuffer.new buff, gain := 1 / 2, sample_depth := 0 }

/-- Member `set_gain(g)`: `gain = g`. -/
def set_gain (mp : ModulatedAllpassProcessor K) (g : K) : ModulatedAllpassProcessor K :=
  { mp with gain := g }

/-- Member `set_modulation_depth(f)`: `sample_depth *= f`. -/
def set_modulation_depth (mp : ModulatedAllpassProcessor K) (f : K) :
    ModulatedAllpassProcessor K :=
  { mp with sample_depth := mp.sample_depth * f }

/-- Member `set_sample_depth(f)`: `sample_depth = f`. -/
def set_sample_depth (mp : ModulatedAllpassProcessor K) (f : K) :
    ModulatedAllpassProcessor K :=
  { mp with sample_depth := f }

/-- The first two statements of `_process_sample`:
`Sample modulation = lfo.process() * sample_depth;`
`if(modulation > static_cast<float>(delay.get_size()-1)) modulation -= (delay.get_size()-1);`
The value is `modulation` after them.  (For an empty view the unsigned
`get_size()-1` of the source wraps around; the statements about this function
are made for views with at least one cell.) -/
def modulation (mp : ModulatedAllpassProcessor K) (lfo_out : K) : K :=
  let modulation := lfo_out * mp.sample_depth
  if modulation > ((mp.delay.get_size - 1 : Nat) : K) then
    modulation - ((mp.delay.get_size - 1 : Nat) : K)
  else modulation

/-- Private member `_process_sample(input)`, after the two statements above:
`Sample wnD = delay.read_offset_smooth_wrap(static_cast<float>(delay.get_size()) - modulation);`
`Sample wn = input + gain * wnD;`
`Sample yn = -gain*wn + wnD;`
`delay.write(wn);`
`return yn;` -/
def _process_sample (mp : ModulatedAllpassProcessor K) (lfo_out input : K) :
    Option (K × ModulatedAllpassProcessor K) :=
  let modulation := mp.modulation lfo_out
  match mp.delay.read_offset_smooth_wrap ((mp.delay.get_size : K) - modulation) with
  | none => none
  | some wnD =>
    let wn := input + mp.gain * wnD
    let yn := (-mp.gain) * wn + wnD
    match mp.delay.write wn with
    | none => none
    | some delay1 => some (yn, { mp with delay := delay1 })

/-- Member `process(input)` for one sample: `return this->_process_sample(input);` -/
def process (mp : ModulatedAllpassProcessor K) (lfo_out input : K) :
    Option (K × ModulatedAllpassProcessor K) :=
  mp._process_sample lfo_out input

end ModulatedAllpassProcessor

/-- State of a `ModDelayProcessor` (without its oscillator and the unused member
`delay_samples`). -/
structure ModDelayProcessor (K : Type) where
  delay : AudioRingBuffer K
  modulation_depth : K
  sample_depth : K

namespace ModDelayProcessor

variable {K : Type} [LinearOrderedField K] [FloorRing K]

/-- Constructor `ModDelayProcessor(buff)`: `delay{AudioRingBuffer(buff)}`.  The
members `modulation_depth` and `sample_depth` are not initialised by the source;
their indeterminate values are the arguments `md` and `sd`. -/
def new (buff : List K) (md sd : K) : ModDelayProcessor K :=
  { delay := AudioRingBuffer.new buff, modulation_depth := md, sample_depth := sd }

/-- Member `set_modulation_depth(f)`: `modulation_depth = clamp(f, 0.f, 1.f)`. -/
def set_modulation_depth (mp : ModDelayProcessor K) (f : K) : ModDelayProcessor K :=
  { mp with modulation_depth := idsp.clamp f 0 1 }

/-- Member `set_sample_depth(f)`:
`sample_depth = clamp(f, 1.f, static_cast<float>(delay.get_size()) -1.f)`. -/
def set_sample_depth (mp : ModDelayProcessor K) (f : K) : ModDelayProcessor K :=
  { mp with sample_depth := idsp.clamp f 1 ((mp.delay.get_size : K) - 1) }

/-- Member `get_size()`: `return delay.get_size();` -/
def get_size (mp : ModDelayProcessor K) : Nat := mp.delay.get_size

/-- The first two statements of `_process_sample`:
`Sample modulation = lfo.process() * (sample_depth * modulation_depth);`
`if(modulation > static_cast<float>(delay.get_size()-1)) modulation -= (delay.get_size()-1);`
The value is `modulation` after them. -/
def modulation (mp : ModDelayProcessor K) (lfo_out : K) : K :=
  let modulation := lfo_out * (mp.sample_depth * mp.modulation_depth)
  if modulation > ((mp.delay.get_size - 1 : Nat) : K) then
    modulation - ((mp.delay.get_size - 1 : Nat) : K)
  else modulation

/-- Private member `_process_sample(input)`, after the two statements above:
`Sample output = delay.read_offset_smooth_wrap(static_cast<float>(delay.get_size()) - modulation);`
`delay.write(input);`
`return output;` -/
def _process_sample (mp : ModDelayProcessor K) (lfo_out input : K) :
    Option (K × ModDelayProcessor K) :=
  let modulation := mp.modulation lfo_out
  match mp.delay.read_offset_smooth_wrap ((mp.delay.get_size : K) - modulation) with
  | none => none
  | some output =>
    match mp.delay.write input with
    | none => none
    | some delay1 => some (output, { mp with delay := delay1 })

/-- Member `process(input)` for one sample: `return this->_process_sample(input);` -/
def process (mp : ModDelayProcessor K) (lfo_out input : K) :
    Option (K × ModDelayProcessor K) :=
  mp._process_sample lfo_out input

end ModDelayProcessor

/-! ## filter.hpp : OnepoleFilter -/

/-- The enumeration `OnepoleFilter::Type` (named `FilterType` in `FDN_4`). -/
inductive FilterType where
  | Lowpass
  | Highpass
  | Allpass
deriving DecidableEq, Repr

/-- State of a `OnepoleFilter`. -/
structure OnepoleFilter (K : Type) where
  type : FilterType
  coef : K
  xState : K
  yState : K

namespace OnepoleFilter

variable {K : Type} [Field K]

/-- Constructor `OnepoleFilter(filter_type, cutoff)`:
`coef{Sample(1) / (Sample(M_PI) * cutoff)}`, `xState{Sample{}}`, `yState{Sample{}}`.
The argument `pi` is the value of the constant `M_PI` in the sample type. -/
def new (pi : K) (filter_type : FilterType) (cutoff : K) : OnepoleFilter K :=
  { type := filter_type, coef := 1 / (pi * cutoff), xState := 0, yState := 0 }

/-- Member `set_cutoff(f)`: `this->coef = Sample(1) / (pi * f);` -/
def set_cutoff (pi : K) (flt : OnepoleFilter K) (f : K) : OnepoleFilter K :=
  { flt with coef := 1 / (pi * f) }

/-- The state update shared by the three modes:
`yState = (x + xState - yState * (Sample(1) - coef)) / (Sample(1) + coef); xState = x;` -/
def advance (flt : OnepoleFilter K) (x : K) : OnepoleFilter K :=
  { flt with
    yState := (x + flt.xState - flt.yState * (1 - flt.coef)) / (1 + flt.coef)
    xState := x }

/-- Private member `_process_lowpass(x)`: the update, then `return this->yState;` -/
def _process_lowpass (flt : OnepoleFilter K) (x : K) : K × OnepoleFilter K :=
  ((flt.advance x).yState, flt.advance x)

/-- Private member `_process_highpass(x)`: the update, then `return x - this->yState;` -/
def _process_highpass (flt : OnepoleFilter K) (x : K) : K × OnepoleFilter K :=
  (x - (flt.advance x).yState, flt.advance x)

/-- Private member `_process_allpass(x)`: the update, then
`return this->yState - (x - this->yState);` -/
def _process_allpass (flt : OnepoleFilter K) (x : K) : K × OnepoleFilter K :=
  ((flt.advance x).yState - (x - (flt.advance x).yState), flt.advance x)

/-- Private member `_process_sample(input)`: the `switch` on `type`. -/
def _process_sample (flt : OnepoleFilter K) (input : K) : K × OnepoleFilter K :=
  match flt.type with
  | FilterType.Lowpass => flt._process_lowpass input
  | FilterType.Highpass => flt._process_highpass input
  | FilterType.Allpass => flt._process_allpass input

/-- Member `process(input)` for one sample: `return this->_process_sample(input);` -/
def process (flt : OnepoleFilter K) (input : K) : K × OnepoleFilter K :=
  flt._process_sample input

end OnepoleFilter

/-! ## reverb.hpp : FDN_4 -/

/-- An `std::array<Sample, 4>`. -/
structure Array4 (K : Type) where
  a0 : K
  a1 : K
  a2 : K
  a3 : K

/-- Element access of an `std::array<Sample, 4>`. -/
def Array4.get {K : Type} (v : Array4 K) (i : Fin 4) : K :=
  match i with
  | 0 => v.a0
  | 1 => v.a1
  | 2 => v.a2
  | 3 => v.a3

/-- State of an `FDN_4`. -/
structure FDN_4 (K : Type) where
  dampening1 : OnepoleFilter K
  dampening2 : OnepoleFilter K
  dampening3 : OnepoleFilter K
  dampening4 : OnepoleFilter K
  decay : K
  delay1 : AudioRingBuffer K
  delay2 : AudioRingBuffer K
  delay3 : AudioRingBuffer K
  delay4 : AudioRingBuffer K
  matrix_in : Array4 K
  matrix_out : Array4 K

namespace FDN_4

variable {K : Type} [Field K]

/-- Member `process(in_l, in_r, out_l, out_r)` for one sample; the result is
`(out_l, out_r)` and the state after the call.
Delay lines: `matrix_in[k] = delayK->read();` for the four lines, then
`delayK->write(matrix_out[k]);`.
Dampening: `matrix_in[k] = dampeningK.process(matrix_in[k]);`.
Input: `matrix_in[0] += in_l; matrix_in[1] += in_l;`.
Mixing: `M1 = (matrix_in[0] * decay) + (matrix_in[1] * decay);`
`M2 = (matrix_in[0] * decay) - (matrix_in[1] * decay);`
`M3 = (matrix_in[2] * decay) + (matrix_in[3] * decay);`
`M4 = (matrix_in[2] * decay) - (matrix_in[3] * decay);`
`matrix_out[0] = M1 + M3; matrix_out[1] = M2 + M4;`
`matrix_out[2] = M1 - M3; matrix_out[3] = M2 - M4;`.
Output: `out_l = matrix_in[0] * decay; out_r = matrix_in[1] * decay;`. -/
def process (fdn : FDN_4 K) (in_l _in_r : K) : Option ((K × K) × FDN_4 K) :=
  match fdn.delay1.read, fdn.delay2.read, fdn.delay3.read, fdn.delay4.read with
  | some r0, some r1, some r2, some r3 =>
    match fdn.delay1.write fdn.matrix_out.a0, fdn.delay2.write fdn.matrix_out.a1,
        fdn.delay3.write fdn.matrix_out.a2, fdn.delay4.write fdn.matrix_out.a3 with
    | some d1, some d2, some d3, some d4 =>
      let p0 := fdn.dampening1.process r0
      let p1 := fdn.dampening2.process r1
      let p2 := fdn.dampening3.process r2
      let p3 := fdn.dampening4.process r3
      let m0 := p0.1 + in_l
      let m1 := p1.1 + in_l
      let m2 := p2.1
      let m3 := p3.1
      let M1 := (m0 * fdn.decay) + (m1 * fdn.decay)
      let M2 := (m0 * fdn.decay) - (m1 * fdn.decay)
      let M3 := (m2 * fdn.decay) + (m3 * fdn.decay)
      let M4 := (m2 * fdn.decay) - (m3 * fdn.decay)
      some ((m0 * fdn.decay, m1 * fdn.decay),
        { dampening1 := p0.2, dampening2 := p1.2, dampening3 := p2.2, dampening4 := p3.2
          decay := fdn.decay
          delay1 := d1, delay2 := d2, delay3 := d3, delay4 := d4
          matrix_in := { a0 := m0, a1 := m1, a2 := m2, a3 := m3 }
          matrix_out := { a0 := M1 + M3, a1 := M2 + M4, a2 := M1 - M3, a3 := M2 - M4 } })
    | _, _, _, _ => none
  | _, _, _, _ => none

/-- A small state on which `process` is evaluated: lowpass dampening filters with
coefficient `1/2`, decay `1/4`, delay lines of two to five cells. -/
def sample_state : FDN_4 ℚ :=
  { dampening1 := { type := FilterType.Lowpass, coef := 1 / 2, xState := 0, yState := 0 }
    dampening2 := { type := FilterType.Lowpass, coef := 1 / 2, xState := 1, yState := 0 }
    dampening3 := { type := FilterType.Lowpass, coef := 1 / 2, xState := 0, yState := 1 }
    dampening4 := { type := FilterType.Lowpass, coef := 1 / 2, xState := 2, yState := 1 }
    decay := 1 / 4
    delay1 := { buffer := [1, 2], write_index := 0, length := 2 }
    delay2 := { buffer := [3, 4, 5], write_index := 1, length := 3 }
    delay3 := { buffer := [6, 7, 8, 9], write_index := 3, length := 4 }
    delay4 := { buffer := [1, 0, 2, 0, 3], write_index := 2, length := 5 }
    matrix_in := { a0 := 0, a1 := 0, a2 := 0, a3 := 0 }
    matrix_out := { a0 := 1, a1 := 2, a2 := 3, a3 := 4 } }

end FDN_4

/-! ## buffer_types.hpp, wrapper.hpp : storage and binding -/

namespace SampleBufferStatic

variable {S : Type}

/-- Constructor `SampleBufferStatic<Sz>()`: `_data{}` (value-initialised array of
`Sz` samples), `_ref` a view over all of `_data`, then `this->erase()`.  The value
is the content of the storage seen through the view. -/
def new [Zero S] (Sz : Nat) : List S :=
  BufferInterface.erase (List.replicate Sz (0 : S))

end SampleBufferStatic

namespace Delay

variable {S : Type}

/-- Constructor of `Delay<SampleBufferStatic<N>>`, which is
`ProcessWrapper<AudioRingBuffer, SampleBufferStatic<N>>`: the member `buffer` is
constructed first, then `processor{ProcessorT(buffer)}` over its view. -/
def new [Zero S] (N : Nat) : AudioRingBuffer S :=
  AudioRingBuffer.new (SampleBufferStatic.new N)

end Delay

/-! ## functions.hpp : rescale and 2-point interpolation -/

/-- Function `rescale(x, xMin, xMax, yMin, yMax)` at a floating type:
`return yMin + (((x - xMin) * (yMax - yMin)) / (xMax - xMin));` -/
def rescale {K : Type} [Field K] (x xMin xMax yMin yMax : K) : K :=
  yMin + (((x - xMin) * (yMax - yMin)) / (xMax - xMin))

/-- Function `rescale(x, xMin, xMax, yMin, yMax)` at an integral type: the same
expression, with the truncating `/` of C++ (integers are unbounded here). -/
def rescale_int (x xMin xMax yMin yMax : Int) : Int :=
  yMin + (((x - xMin) * (yMax - yMin)).tdiv (xMax - xMin))

/-- Function `interpolate_2(frac, n, n1)`: `return n + ((n1 - n) * frac);` -/
def interpolate_2 {K : Type} [Add K] [Sub K] [Mul K] (frac n n1 : K) : K :=
  n + ((n1 - n) * frac)

/-! ## controls.hpp : Flag -/

/-- The enumeration `Flag::Behaviour`. -/
inductive Flag.Behaviour where
  | Momentary
  | Latching
deriving DecidableEq, Repr

/-- State of a `Flag`. -/
structure Flag where
  behaviour : Flag.Behaviour
  state : Bool
  prev_state : Bool
  prev_input : Bool
deriving DecidableEq, Repr

namespace Flag

/-- Constructor `Flag(behaviour)`: `state{false}`, `prev_state{false}`,
`prev_input{false}`. -/
def new (behaviour : Flag.Behaviour) : Flag :=
  { behaviour := behaviour, state := false, prev_state := false, prev_input := false }

/-- The default-constructed flag: the default argument of the constructor is
`Flag::Behaviour::Momentary`. -/
def default : Flag := Flag.new Flag.Behaviour.Momentary

/-- Private member `_process_momentary(input)`:
`prev_state = state; state = input; prev_input = input;` -/
def _process_momentary (f : Flag) (input : Bool) : Flag :=
  { f with prev_state := f.state, state := input, prev_input := input }

/-- Private member `_process_latching(input)`:
`prev_state = state; if (input && !prev_input) state = !state; prev_input = input;` -/
def _process_latching (f : Flag) (input : Bool) : Flag :=
  { f with
    prev_state := f.state
    state := if input && !f.prev_input then !f.state else f.state
    prev_input := input }

/-- Member `process(input)`: the `switch` on `behaviour`. -/
def process (f : Flag) (input : Bool) : Flag :=
  match f.behaviour with
  | Flag.Behaviour.Momentary => f._process_momentary input
  | Flag.Behaviour.Latching => f._process_latching input

/-- Member `set_behaviour(behaviour)`. -/
def set_behaviour (f : Flag) (behaviour : Flag.Behaviour) : Flag :=
  { f with behaviour := behaviour }

/-- Member `is_high()`: `return this->state;` -/
def is_high (f : Flag) : Bool := f.state

/-- Member `is_rising()`: `return this->state && !this->prev_state;` -/
def is_rising (f : Flag) : Bool := f.state && !f.prev_state

/-- Member `is_falling()`: `return !this->state && this->prev_state;` -/
def is_falling (f : Flag) : Bool := !f.state && f.prev_state

/-- Member `has_changed()`: `return this->state != this->prev_state;` -/
def has_changed (f : Flag) : Bool := f.state != f.prev_state

/-- Consecutive calls `process(b)` for the inputs of `ins`, in order. -/
def processSeq (f : Flag) (ins : List Bool) : Flag :=
  ins.foldl Flag.process f

end Flag

/-! ## controls.hpp : Parameter with ChangeThreshold -/

/-- State of a `paramproc::hysterisis::ChangeThreshold<int>`.  The values are the
`int`s of the source; the differences formed from `uint16_t` inputs stay far
inside the range of `int`, so they are unbounded integers here. -/
structure ChangeThreshold where
  value : Int
  threshold : Int
deriving DecidableEq, Repr

namespace ChangeThreshold

/-- Constructor `ChangeThreshold(threshold)`: `value{T{}}`, `threshold{threshold}`. -/
def new (threshold : Int) : ChangeThreshold :=
  { value := 0, threshold := threshold }

/-- Member `process(input)`:
`if (std::abs(input - this->value) >= this->threshold) this->value = input;`
`return this->value;` -/
def process (c : ChangeThreshold) (input : Int) : Int × ChangeThreshold :=
  if |input - c.value| ≥ c.threshold then (input, { c with value := input })
  else (c.value, c)

end ChangeThreshold

/-- State of a `Parameter<int, uint16_t, ChangeThreshold<int>>`: the output, the
previous output and the one processor of the tuple. -/
structure Parameter where
  output : Int
  prev_output : Int
  processors : ChangeThreshold
deriving DecidableEq, Repr

namespace Parameter

/-- Constructor `Parameter(processors...)`: `output{T{}}`, `prev_output{T{}}`. -/
def new (processor : ChangeThreshold) : Parameter :=
  { output := 0, prev_output := 0, processors := processor }

/-- Member `process(input)`:
`prev_output = output; output = this->_process<0>(static_cast<T>(input)); return output;`
where `_process<0>` passes the value through the processor and `_process<1>`
returns it.  The argument is a `uint16_t`: a value taken modulo `2^16`. -/
def process (p : Parameter) (input : Nat) : Int × Parameter :=
  let r := p.processors.process ((input % 65536 : Nat) : Int)
  (r.1, { prev_output := p.output, output := r.1, processors := r.2 })

/-- Member `has_changed()` for the integral `T`: `return output != prev_output;` -/
def has_changed (p : Parameter) : Bool := p.output != p.prev_output

/-- Member `get_output()`: `return this->output;` -/
def get_output (p : Parameter) : Int := p.output

/-- Consecutive calls `process(v)` for the inputs of `vs`, in order; the outputs
are collected in call order. -/
def processSeq : Parameter → List Nat → List Int × Parameter
  | p, [] => ([], p)
  | p, v :: vs =>
    let r := p.process v
    let rest := processSeq r.2 vs
    (r.1 :: rest.1, rest.2)

end Parameter

/-! ## lookup.hpp : LookupTable -/

namespace LookupTable

variable {K A : Type}

/-- The loop of the constructor `LookupTable(generator, data)` from index `i` on,
with `n` iterations to go:
`const T arg = static_cast<T>(i) / static_cast<T>(S - 1);`
`const T value = generator(arg, data);`
`this->_table[i] = value;`
A generator with side effects on `*data` is a function that returns the new
content of `*data` with its value. -/
def generate_loop [Field K] (S : Nat) (generator : K → A → K × A) :
    Nat → Nat → A → List K → List K × A
  | 0, _, data, table => (table, data)
  | n + 1, i, data, table =>
    let arg := (i : K) / ((S - 1 : Nat) : K)
    let r := generator arg data
    generate_loop S generator n (i + 1) r.2 (table.set i r.1)

/-- Constructor `LookupTable<T, S>(generator, data)`: the loop
`for (size_t i = 0; i < S; i++)` over the member `_table`, whose `S` entries are
not initialised before the loop (`raw` is their indeterminate content).  The
result is the table and the final content of `*data`. -/
def new [Field K] (S : Nat) (raw : List K) (generator : K → A → K × A) (data : A) :
    List K × A :=
  generate_loop S generator S 0 data raw

/-- Static member `_generator_wrapper(v, gen)`: `return gen(v);` (the data pointer
is the generator itself, which the call leaves as it is). -/
def _generator_wrapper (v : K) (gen : K → K) : K × (K → K) :=
  (gen v, gen)

/-- Constructor `LookupTable<T, S>(generator)`:
`LookupTable(_generator_wrapper, generator)`. -/
def new_pure [Field K] (S : Nat) (raw : List K) (generator : K → K) : List K :=
  (new S raw _generator_wrapper generator).1

/-- The content of `*data` after the first `i` calls of the generator made by the
constructor. -/
def data_after [Field K] (S : Nat) (generator : K → A → K × A) (data : A) : Nat → A
  | 0 => data
  | i + 1 => (generator ((i : K) / ((S - 1 : Nat) : K)) (data_after S generator data i)).2

/-- Element access `_table[i]` of the `std::array`, without a bounds check: an
index below `0` or not below `S` designates no entry of the table. -/
def entry (table : List K) (i : Int) : Option K :=
  if i < 0 then none else table[i.toNat]?

/-- Member `read(index, fraction)`:
`return interpolate_2(fraction, _table[index], _table[index + 1]);` -/
def read_parts [Field K] (table : List K) (index : Int) (fraction : K) : Option K :=
  match entry table index, entry table (index + 1) with
  | some a, some b => some (interpolate_2 fraction a b)
  | _, _ => none

/-- Member `read(index)` for a normalised index:
`const F scaled = index * static_cast<F>(S - 1);`
`const size_t ind = static_cast<size_t>(scaled);`
`const F frac = scaled - static_cast<F>(ind);`
`return this->read(ind, frac);` -/
def read [LinearOrderedField K] [FloorRing K] (table : List K) (index : K) : Option K :=
  let scaled := index * ((table.length - 1 : Nat) : K)
  let ind := float_to_int scaled
  let frac := scaled - (ind : K)
  read_parts table ind frac

/-- Member `read_clamp(index, fraction)`:
`interpolate_2(fraction, _table[clamp<I>(index, 0, S - 1)], _table[clamp<I>(index + 1, 0, S - 1)])`. -/
def read_clamp_parts [Field K] (table : List K) (index : Int) (fraction : K) : Option K :=
  match entry table (idsp.clamp index 0 ((table.length : Int) - 1)),
      entry table (idsp.clamp (index + 1) 0 ((table.length : Int) - 1)) with
  | some a, some b => some (interpolate_2 fraction a b)
  | _, _ => none

/-- Member `read_clamp(index)` for a normalised index:
`index = idsp::clamp(index, F(0), F(1)); return this->read(index);` -/
def read_clamp [LinearOrderedField K] [FloorRing K] (table : List K) (index : K) :
    Option K :=
  read table (idsp.clamp index 0 1)

end LookupTable

/-! ## reverb.hpp : buffer capacities of the room topologies -/

namespace SmallRoom

/-- Capacity of `delay_l`, the template argument `(24*(SAMPLE_RATE/1000))` of its
`SampleBufferStatic`, in `size_t` arithmetic. -/
def delay_l_capacity (SAMPLE_RATE : Nat) : Nat :=
  24 * (SAMPLE_RATE / 1000)

/-- Capacity of `delay_r`, the template argument `(25*(SAMPLE_RATE/1000))`. -/
def delay_r_capacity (SAMPLE_RATE : Nat) : Nat :=
  25 * (SAMPLE_RATE / 1000)

end SmallRoom

/-! ## Stored energy -/

/-- The sum of the squares of the samples stored in the delay line of an allpass
(all cells of its view). -/
def AllpassProcessor.stored_energy {R : Type} [CommRing R] (ap : AllpassProcessor R) : R :=
  (ap.delay.buffer.map (fun v => v ^ 2)).sum

/-! ## Signals and their energy -/

/-- The first `N` samples `x 0, ..., x (N - 1)` of a signal. -/
def samples {R : Type} (x : Nat → R) (N : Nat) : List R :=
  (List.range N).map x

/-- The energy of a list of samples: the sum of their squares. -/
def energy {R : Type} [CommRing R] (xs : List R) : R :=
  (xs.map (fun v => v ^ 2)).sum

/-- The samples returned by consecutive calls `process(x)` for the samples of `xs`
(no samples if a call leaves the view of the delay line). -/
def AllpassProcessor.outputs {S : Type} [Add S] [Mul S] [Neg S] (ap : AllpassProcessor S)
    (xs : List S) : List S :=
  match ap.processSeq xs with
  | some (ys, _) => ys
  | none => []

/-! ## ringbuffer.hpp : RingBuffer

The generic `RingBuffer<T, S>` owns an `std::array<T, S>`; its `_data_size` is the
length of `_data`.  The positions are `size_t` values far below the range of the
type, so they are natural numbers here. -/

/-- State of a `RingBuffer<T, S>`. -/
structure RingBuffer (T : Type) where
  _data : List T
  _write_pos : Nat
  _read_pos : Nat
deriving DecidableEq, Repr

namespace RingBuffer

variable {T : Type}

/-- Constructor `RingBuffer()`: `_data{}`, `_write_pos{0}`, `_read_pos{0}`, then
`this->_data.fill(T{})`.  The argument `dflt` is the value `T{}`. -/
def new (S : Nat) (dflt : T) : RingBuffer T :=
  { _data := List.replicate S dflt, _write_pos := 0, _read_pos := 0 }

/-- Member `write(data)`:
`this->_data[this->_write_pos] = data; this->_write_pos++;`
`this->_write_pos %= this->_data_size;` -/
def write (rb : RingBuffer T) (data : T) : Option (RingBuffer T) :=
  if rb._write_pos < rb._data.length then
    some { _data := rb._data.set rb._write_pos data
           _write_pos := (rb._write_pos + 1) % rb._data.length
           _read_pos := rb._read_pos }
  else none

/-- Member `read()`:
`const T value = this->_data[this->_read_pos]; this->_read_pos++;`
`this->_read_pos %= this->_data_size; return value;` -/
def read (rb : RingBuffer T) : Option (T × RingBuffer T) :=
  match rb._data[rb._read_pos]? with
  | none => none
  | some value =>
    some (value, { _data := rb._data
                   _write_pos := rb._write_pos
                   _read_pos := (rb._read_pos + 1) % rb._data.length })

/-- Member `peek()`: `return this->_data[this->_read_pos];` (a `const` member: the
state is not changed). -/
def peek (rb : RingBuffer T) : Option T :=
  rb._data[rb._read_pos]?

/-- Member `peek(offset)`:
`const size_t index = (this->_read_pos + offset) % this->_data_size;`
`return this->_data[index];` (a `const` member). -/
def peek_offset (rb : RingBuffer T) (offset : Nat) : Option T :=
  rb._data[(rb._read_pos + offset) % rb._data.length]?

/-- Member `data_available()`:
`if (_write_pos == _read_pos) return 0;`
`else if (_write_pos > _read_pos) return _write_pos - _read_pos;`
`else return _write_pos + (_data_size - _read_pos);` -/
def data_available (rb : RingBuffer T) : Nat :=
  if rb._write_pos = rb._read_pos then 0
  else if rb._write_pos > rb._read_pos then rb._write_pos - rb._read_pos
  else rb._write_pos + (rb._data.length - rb._read_pos)

/-- The two state-changing calls of a `RingBuffer`. -/
inductive Op (T : Type) where
  | write (data : T)
  | read
deriving Repr

/-- An interleaving of writes and reads applied in order; the values returned by
the reads are collected in call order. -/
def run : RingBuffer T → List (Op T) → Option (List T × RingBuffer T)
  | rb, [] => some ([], rb)
  | rb, Op.write data :: ops =>
    match rb.write data with
    | none => none
    | some rb1 => run rb1 ops
  | rb, Op.read :: ops =>
    match rb.read with
    | none => none
    | some (value, rb1) =>
      match run rb1 ops with
      | none => none
      | some (values, rb2) => some (value :: values, rb2)

/-- The values written by an interleaving, in order. -/
def written : List (Op T) → List T
  | [] => []
  | Op.write data :: ops => data :: written ops
  | Op.read :: ops => written ops

/-- The number of reads of an interleaving. -/
def reads : List (Op T) → Nat
  | [] => 0
  | Op.write _ :: ops => reads ops
  | Op.read :: ops => reads ops + 1

/-- The interleavings of the FIFO property, for a buffer that holds `unread`
elements not yet read: a read finds at least one unread element, and after a
write the number of unread elements is at most `S - 1`. -/
def Admissible (S : Nat) : Nat → List (Op T) → Prop
  | _, [] => True
  | unread, Op.write _ :: ops => unread + 1 ≤ S - 1 ∧ Admissible S (unread + 1) ops
  | unread, Op.read :: ops => 1 ≤ unread ∧ Admissible S (unread - 1) ops

/-- The buffer `rb` of size `S` has taken the writes `ws` and `m` reads: its
positions are the two counts modulo `S`, and the cells of the elements not yet
read hold them. -/
def Holds (S : Nat) (ws : List T) (m : Nat) (rb : RingBuffer T) : Prop :=
  rb._data.length = S ∧ rb._write_pos = ws.length % S ∧ rb._read_pos = m % S ∧
    m ≤ ws.length ∧ ws.length - m ≤ S - 1 ∧
    ∀ k, m ≤ k → k < ws.length → rb._data[k % S]? = ws[k]?

end RingBuffer

/-! ## reverb.hpp : DattorroPlate delay lines and output taps

The capacities and the tap offsets are compile-time constants computed from
decimal literals.  A literal such as `141.51f` is the ratio `14151 / 100`; the
products are taken exactly and truncated by `static_cast<size_t>`.  (At the sample
rates `44100` and `48000` no exact product of a capacity is within `0.004` of an
integer and no exact product of a tap offset within `0.008`, which is more than
the rounding of the `float`, resp. `double`, product.) -/

namespace DattorroPlate

/-- Template argument `static_cast<size_t>(ms * (static_cast<float>(SAMPLE_RATE)/1000.f))`
of a delay line, for the literal `ms = num / den`: the sample rate is divided by
`1000` as a fraction. -/
def capacity (num den SAMPLE_RATE : Nat) : Nat :=
  (num * SAMPLE_RATE) / (den * 1000)

/-- Argument `static_cast<size_t>(ms*(SAMPLE_RATE/1000))` of a `read_offset` in
`_process`, for the literal `ms = num / den`: here `SAMPLE_RATE/1000` is a
quotient of two `size_t`. -/
def tap_offset (num den SAMPLE_RATE : Nat) : Nat :=
  (num * (SAMPLE_RATE / 1000)) / den

/-- Capacity of `delay1_A`: `141.51f` ms. -/
def delay1_A_capacity (SAMPLE_RATE : Nat) : Nat := capacity 14151 100 SAMPLE_RATE

/-- Capacity of the delay of `allpass_A`: `60.40f` ms. -/
def allpass_A_capacity (SAMPLE_RATE : Nat) : Nat := capacity 6040 100 SAMPLE_RATE

/-- Capacity of `delay2_A`: `105.238f` ms. -/
def delay2_A_capacity (SAMPLE_RATE : Nat) : Nat := capacity 105238 1000 SAMPLE_RATE

/-- Capacity of `delay1_B`: `149.433f` ms. -/
def delay1_B_capacity (SAMPLE_RATE : Nat) : Nat := capacity 149433 1000 SAMPLE_RATE

/-- Capacity of the delay of `allpass_B`: `89.32f` ms. -/
def allpass_B_capacity (SAMPLE_RATE : Nat) : Nat := capacity 8932 100 SAMPLE_RATE

/-- Capacity of `delay2_B`: `124.829f` ms. -/
def delay2_B_capacity (SAMPLE_RATE : Nat) : Nat := capacity 124829 1000 SAMPLE_RATE

/-- The fourteen output taps `tap1 .. tap14` of `_process`, in this order: the
offset passed to `read_offset` and the capacity of the delay line it reads. -/
def taps (SAMPLE_RATE : Nat) : List (Nat × Nat) :=
  [ (tap_offset 8932 1000 SAMPLE_RATE, delay1_A_capacity SAMPLE_RATE),
    (tap_offset 99795 1000 SAMPLE_RATE, delay1_A_capacity SAMPLE_RATE),
    (tap_offset 54195 1000 SAMPLE_RATE, allpass_A_capacity SAMPLE_RATE),
    (tap_offset 66984 1000 SAMPLE_RATE, delay2_A_capacity SAMPLE_RATE),
    (tap_offset 66780 1000 SAMPLE_RATE, delay1_B_capacity SAMPLE_RATE),
    (tap_offset 62811 10000 SAMPLE_RATE, allpass_B_capacity SAMPLE_RATE),
    (tap_offset 35782 1000 SAMPLE_RATE, delay2_B_capacity SAMPLE_RATE),
    (tap_offset 11836 1000 SAMPLE_RATE, delay1_B_capacity SAMPLE_RATE),
    (tap_offset 121723 1000 SAMPLE_RATE, delay1_B_capacity SAMPLE_RATE),
    (tap_offset 41201 1000 SAMPLE_RATE, allpass_B_capacity SAMPLE_RATE),
    (tap_offset 89705 1000 SAMPLE_RATE, delay2_B_capacity SAMPLE_RATE),
    (tap_offset 70839 1000 SAMPLE_RATE, delay1_A_capacity SAMPLE_RATE),
    (tap_offset 112471 10000 SAMPLE_RATE, allpass_A_capacity SAMPLE_RATE),
    (tap_offset 4058 1000 SAMPLE_RATE, delay2_A_capacity SAMPLE_RATE) ]

end DattorroPlate

/-- Member `AllpassProcessor::read_offset(offset)`: `return delay.read_offset(offset);` -/
def AllpassProcessor.read_offset {S : Type} (ap : AllpassProcessor S) (offset : Nat) :
    Option S :=
  ap.delay.read_offset offset

/-! ## Write histories

The content of a ring buffer is described by the sequence of the samples written
to it: `w k` is the sample of the `k`-th write.  The state reached after `n`
writes holds the last `L` of them, the `k`-th in cell `k % L`. -/

namespace AudioRingBuffer

variable {S : Type}

/-- The ring buffer `rb` of logical length `L` holds the last `L` of the first
`n` samples of the write history `w`, and its write index is `n % L`. -/
def Tracks (L : Nat) (w : Nat → S) (n : Nat) (rb : AudioRingBuffer S) : Prop :=
  rb.length = L ∧ L ≤ rb.buffer.length ∧ rb.write_index = n % L ∧
    ∀ k, k < n → n ≤ k + L → rb.buffer[k % L]? = some (w k)

end AudioRingBuffer

/-! ## Index arithmetic -/

theorem succ_mod_wrap (n L : Nat) (hL : 0 < L) :
    (n + 1) % L = if n % L + 1 ≥ L then 0 else n % L + 1 := by
  have hlt : n % L < L := Nat.mod_lt n hL
  have hdm : L * (n / L) + n % L = n := Nat.div_add_mod n L
  split
  · next h =>
    have h1 : n % L + 1 = L := by omega
    have h2 : n + 1 = L * (n / L + 1) := by
      rw [Nat.mul_add, Nat.mul_one]; omega
    rw [h2]; exact Nat.mul_mod_right L _
  · next h =>
    have h1 : n % L + 1 < L := by omega
    have h2 : n + 1 = n % L + 1 + L * (n / L) := by omega
    rw [h2, Nat.add_mul_mod_self_left]
    exact Nat.mod_eq_of_lt h1

theorem mod_ne_of_close (k n L : Nat) (h1 : k < n) (h2 : n < k + L) : k % L ≠ n % L := by
  intro h
  have hd : L ∣ n - k := (Nat.modEq_iff_dvd' (Nat.le_of_lt h1)).mp h
  have hz : n - k = 0 := Nat.eq_zero_of_dvd_of_lt hd (by omega)
  omega

namespace AudioRingBuffer

variable {S : Type}

theorem write_eq (rb : AudioRingBuffer S) (v : S) (h : rb.write_index < rb.buffer.length) :
    rb.write v = some
      { buffer := rb.buffer.set rb.write_index v
        write_index := if rb.write_index + 1 ≥ rb.length then 0 else rb.write_index + 1
        length := rb.length } := by
  simp only [AudioRingBuffer.write, h, if_true]

theorem Tracks.congr {L n : Nat} {w w' : Nat → S} {rb : AudioRingBuffer S}
    (h : Tracks L w n rb) (hw : ∀ k, k < n → w' k = w k) : Tracks L w' n rb := by
  obtain ⟨h1, h2, h3, h4⟩ := h
  refine ⟨h1, h2, h3, ?_⟩
  intro k hk hk'
  rw [hw k hk]
  exact h4 k hk hk'

theorem Tracks.read {L n : Nat} {w : Nat → S} {rb : AudioRingBuffer S}
    (h : Tracks L w n rb) (hn : L ≤ n) (hL : 0 < L) : rb.read = some (w (n - L)) := by
  obtain ⟨_, _, h3, h4⟩ := h
  have := h4 (n - L) (by omega) (by omega)
  rw [← Nat.mod_eq_sub_mod hn] at this
  simpa [AudioRingBuffer.read, h3] using this

theorem Tracks.write {L n : Nat} {w : Nat → S} {rb : AudioRingBuffer S}
    (h : Tracks L w n rb) (hL : 0 < L) (v : S) :
    ∃ rb1, rb.write v = some rb1 ∧ Tracks L (Function.update w n v) (n + 1) rb1 := by
  obtain ⟨h1, h2, h3, h4⟩ := h
  have hlt : n % L < L := Nat.mod_lt n hL
  have hin : rb.write_index < rb.buffer.length := by omega
  refine ⟨_, write_eq rb v hin, ?_⟩
  refine ⟨h1, by simpa using h2, ?_, ?_⟩
  · simp only [h1, h3]
    exact (succ_mod_wrap n L hL).symm
  · intro k hk hk'
    by_cases hkn : k = n
    · subst hkn
      simp only [Function.update_same, h3]
      exact List.getElem?_set_self (by omega)
    · have hne : n % L ≠ k % L := fun e => mod_ne_of_close k n L (by omega) (by omega) e.symm
      simp only [Function.update_noteq hkn, h3]
      rw [List.getElem?_set_ne hne]
      exact h4 k (by omega) (by omega)

theorem tracks_of_wellFormed (rb : AudioRingBuffer S) (h : rb.WellFormed) :
    ∃ w, Tracks rb.length w (rb.length + rb.write_index) rb := by
  obtain ⟨h1, h2⟩ := h
  have hd : rb.write_index < rb.buffer.length := by omega
  refine ⟨fun k => rb.buffer.getD (k % rb.length) (rb.buffer.get ⟨rb.write_index, hd⟩),
    rfl, h2, ?_, ?_⟩
  · rw [Nat.add_mod_left]; exact (Nat.mod_eq_of_lt h1).symm
  · intro k _ _
    have : k % rb.length < rb.buffer.length :=
      Nat.lt_of_lt_of_le (Nat.mod_lt k (by omega)) h2
    simp [List.getD, List.getElem?_eq_getElem this]

theorem Tracks.wellFormed {L n : Nat} {w : Nat → S} {rb : AudioRingBuffer S}
    (h : Tracks L w n rb) (hL : 0 < L) : rb.WellFormed := by
  obtain ⟨h1, h2, h3, _⟩ := h
  have hlt : n % L < L := Nat.mod_lt n hL
  exact ⟨by omega, by omega⟩

theorem tracks_new_zero [Zero S] (L : Nat) :
    Tracks L (fun _ => (0 : S)) L (AudioRingBuffer.new (List.replicate L 0)) := by
  refine ⟨by simp [AudioRingBuffer.new], by simp [AudioRingBuffer.new], ?_, ?_⟩
  · simp [AudioRingBuffer.new]
  · intro k hk _
    have : k % L < L := Nat.mod_lt k (by omega)
    simp [AudioRingBuffer.new, List.getElem?_replicate, this]

theorem writeSeq_tracks (vs : List S) :
    ∀ (L n : Nat) (w : Nat → S) (rb : AudioRingBuffer S), 0 < L → Tracks L w n rb →
      ∃ rb2 w2, rb.writeSeq vs = some rb2 ∧ Tracks L w2 (n + vs.length) rb2 ∧
        (∀ k, k < n → w2 k = w k) ∧ ∀ j, j < vs.length → vs[j]? = some (w2 (n + j)) := by
  induction vs with
  | nil =>
    intro L n w rb _ h
    exact ⟨rb, w, rfl, by simpa using h, fun _ _ => rfl, fun j hj => by simp at hj⟩
  | cons v vs ih =>
    intro L n w rb hL h
    obtain ⟨rb1, hw, ht⟩ := h.write hL v
    obtain ⟨rb2, w2, hs, ht2, hag, hvs⟩ := ih L (n + 1) _ rb1 hL ht
    refine ⟨rb2, w2, by simp only [writeSeq, hw, hs], ?_, ?_, ?_⟩
    · have e : n + (v :: vs).length = n + 1 + vs.length := by simp; omega
      rw [e]; exact ht2
    · intro k hk
      rw [hag k (by omega), Function.update_noteq (by omega)]
    · intro j hj
      cases j with
      | zero =>
        have := hag n (by omega)
        simp only [Function.update_same] at this
        simp [this]
      | succ j =>
        have := hvs j (by simpa using hj)
        have e : n + (j + 1) = n + 1 + j := by omega
        rw [e]; simpa using this

theorem applyOp_wellFormed (rb : AudioRingBuffer S) (op : Op S) (h : rb.WellFormed)
    (hop : lengthsPositive [op]) :
    ∃ rb1, rb.applyOp op = some rb1 ∧ rb1.WellFormed ∧
      rb1.buffer.length = rb.buffer.length := by
  obtain ⟨h1, h2⟩ := h
  have hin : rb.write_index < rb.buffer.length := by omega
  have hwr : ∀ v, ∃ rb1, rb.write v = some rb1 ∧ rb1.WellFormed ∧
      rb1.buffer.length = rb.buffer.length := by
    intro v
    refine ⟨_, write_eq rb v hin, ⟨?_, ?_⟩, by simp⟩
    · show (if rb.write_index + 1 ≥ rb.length then 0 else rb.write_index + 1) < rb.length
      split <;> omega
    · simpa using h2
  cases op with
  | write v => exact hwr v
  | increment =>
    refine ⟨_, rfl, ⟨?_, h2⟩, rfl⟩
    show (if rb.write_index + 1 ≥ rb.length then 0 else rb.write_index + 1) < rb.length
    split <;> omega
  | process v =>
    obtain ⟨rb1, e, hwf⟩ := hwr v
    have hr : rb.read = some (rb.buffer.get ⟨rb.write_index, hin⟩) := by
      simp [AudioRingBuffer.read, List.getElem?_eq_getElem hin]
    exact ⟨rb1, by simp [applyOp, process, _process_sample, hr, e], hwf⟩
  | set_length n =>
    have hn : 1 ≤ n := hop.1
    refine ⟨_, rfl, ⟨?_, ?_⟩, rfl⟩
    · show 0 < idsp.min n rb.buffer.length
      unfold idsp.min; split <;> omega
    · show idsp.min n rb.buffer.length ≤ rb.buffer.length
      unfold idsp.min; split <;> omega

theorem applyOps_wellFormed (ops : List (Op S)) :
    ∀ rb : AudioRingBuffer S, rb.WellFormed → lengthsPositive ops →
      ∃ rb1, rb.applyOps ops = some rb1 ∧ rb1.WellFormed ∧
        rb1.buffer.length = rb.buffer.length := by
  induction ops with
  | nil => intro rb h _; exact ⟨rb, rfl, h, rfl⟩
  | cons op ops ih =>
    intro rb h hp
    have hop : lengthsPositive [op] ∧ lengthsPositive ops := by
      cases op <;> simp_all [lengthsPositive]
    obtain ⟨rb1, e1, h1, c1⟩ := applyOp_wellFormed rb op h hop.1
    obtain ⟨rb2, e2, h2, c2⟩ := ih rb1 h1 hop.2
    exact ⟨rb2, by simp only [applyOps, e1, e2], h2, c2.trans c1⟩

theorem process_tracks {L n : Nat} {w : Nat → S} {rb : AudioRingBuffer S}
    (h : Tracks L w n rb) (hn : L ≤ n) (hL : 0 < L) (x : S) :
    ∃ rb1, rb.process x = some (w (n - L), rb1) ∧
      Tracks L (Function.update w n x) (n + 1) rb1 := by
  obtain ⟨rb1, hw, ht⟩ := h.write hL x
  exact ⟨rb1, by simp only [process, _process_sample, h.read hn hL, hw], ht⟩

theorem processSeq_tracks (xs : List S) :
    ∀ (L n : Nat) (w : Nat → S) (rb : AudioRingBuffer S), 0 < L → L ≤ n → Tracks L w n rb →
      ∃ ys rb2 w2, rb.processSeq xs = some (ys, rb2) ∧ Tracks L w2 (n + xs.length) rb2 ∧
        (∀ k, k < n → w2 k = w k) ∧ ys.length = xs.length ∧
        ∀ j, j < xs.length → xs[j]? = some (w2 (n + j)) ∧ ys[j]? = some (w2 (n + j - L)) := by
  induction xs with
  | nil =>
    intro L n w rb _ _ h
    exact ⟨[], rb, w, rfl, by simpa using h, fun _ _ => rfl, rfl, fun j hj => by simp at hj⟩
  | cons x xs ih =>
    intro L n w rb hL hn h
    obtain ⟨rb1, hp, ht⟩ := process_tracks h hn hL x
    obtain ⟨ys, rb2, w2, hs, ht2, hag, hlen, hval⟩ := ih L (n + 1) _ rb1 hL (by omega) ht
    refine ⟨w (n - L) :: ys, rb2, w2, by simp only [processSeq, hp, hs], ?_, ?_, ?_, ?_⟩
    · have e : n + (x :: xs).length = n + 1 + xs.length := by simp; omega
      rw [e]; exact ht2
    · intro k hk
      rw [hag k (by omega), Function.update_noteq (by omega)]
    · simp [hlen]
    · intro j hj
      cases j with
      | zero =>
        have e1 := hag n (by omega)
        have e2 := hag (n - L) (by omega)
        rw [Function.update_same] at e1
        rw [Function.update_noteq (by omega)] at e2
        simp [e1, e2]
      | succ j =>
        obtain ⟨a, b⟩ := hval j (by simpa using hj)
        have e : n + (j + 1) = n + 1 + j := by omega
        rw [e]
        exact ⟨by simpa using a, by simpa using b⟩

/-! ## Ring buffer contracts -/

theorem write_cells (rb : AudioRingBuffer S) (s : S)
    (hwi : rb.write_index < rb.length) (hcap : rb.length ≤ rb.buffer.length) :
    ∃ rb1, rb.write s = some rb1 ∧
      rb1.buffer[rb.write_index]? = some s ∧
      rb1.buffer.length = rb.buffer.length ∧
      (∀ i, i ≠ rb.write_index → rb1.buffer[i]? = rb.buffer[i]?) ∧
      rb1.length = rb.length ∧
      rb1.write_index = (rb.write_index + 1) % rb.length := by
  have hin : rb.write_index < rb.buffer.length := by omega
  refine ⟨_, write_eq rb s hin, ?_, ?_, ?_, rfl, ?_⟩
  · exact List.getElem?_set_self hin
  · simp
  · intro i hi
    exact List.getElem?_set_ne (Ne.symm hi)
  · show (if rb.write_index + 1 ≥ rb.length then 0 else rb.write_index + 1) = _
    have := succ_mod_wrap rb.write_index rb.length (by omega)
    rw [Nat.mod_eq_of_lt hwi] at this
    exact this.symm

/-- C7. `write(s)` on a state with `write_index < logical_length` (within the view)
stores `s` at the old write index, changes no other cell and not the logical
length, and sets the write index to `(write_index + 1) mod logical_length`;
consequently, after any run of at least `logical_length` writes, `read()` before
the next write returns the sample written exactly `logical_length` writes earlier. -/
theorem write_frame_and_delay (rb : AudioRingBuffer S) (s : S)
    (hwi : rb.write_index < rb.length) (hcap : rb.length ≤ rb.buffer.length) :
    (∃ rb1, rb.write s = some rb1 ∧
        rb1.buffer[rb.write_index]? = some s ∧
        rb1.buffer.length = rb.buffer.length ∧
        (∀ i, i ≠ rb.write_index → rb1.buffer[i]? = rb.buffer[i]?) ∧
        rb1.length = rb.length ∧
        rb1.write_index = (rb.write_index + 1) % rb.length) ∧
    (∀ vs : List S, rb.length ≤ vs.length →
        ∃ rb2, rb.writeSeq vs = some rb2 ∧ rb2.length = rb.length ∧
          rb2.read = vs[vs.length - rb.length]?) := by
  refine ⟨write_cells rb s hwi hcap, ?_⟩
  intro vs hvs
  obtain ⟨w, hw⟩ := tracks_of_wellFormed rb ⟨hwi, hcap⟩
  obtain ⟨rb2, w2, hs, ht, _, hval⟩ := writeSeq_tracks vs _ _ w rb (by omega) hw
  refine ⟨rb2, hs, ht.1, ?_⟩
  rw [ht.read (by omega) (by omega), hval (vs.length - rb.length) (by omega)]
  congr 2
  omega

/-- C7, at an instance: a ring of logical length 3 with the write index on its
last cell. -/
theorem write_frame_and_delay_witness :
    (∃ rb1, (AudioRingBuffer.mk [(5 : Int), 6, 7, 8] 2 3).write 9 = some rb1 ∧
        rb1.buffer[2]? = some 9 ∧
        rb1.buffer.length = 4 ∧
        (∀ i, i ≠ 2 → rb1.buffer[i]? = [(5 : Int), 6, 7, 8][i]?) ∧
        rb1.length = 3 ∧
        rb1.write_index = (2 + 1) % 3) ∧
    (∀ vs : List Int, 3 ≤ vs.length →
        ∃ rb2, (AudioRingBuffer.mk [(5 : Int), 6, 7, 8] 2 3).writeSeq vs = some rb2 ∧
          rb2.length = 3 ∧ rb2.read = vs[vs.length - 3]?) :=
  write_frame_and_delay (AudioRingBuffer.mk [(5 : Int), 6, 7, 8] 2 3) 9
    (by decide) (by decide)

/-- C8. Starting from construction over a non-empty buffer, every sequence of
`write`, `increment`, `process` and `set_length(n)` with `n ≥ 1` runs to a state
with `write_index < logical_length ≤ capacity`. -/
theorem invariant_preserved (buff : List S) (ops : List (Op S))
    (hne : buff ≠ []) (hops : lengthsPositive ops) :
    ∃ rb, (AudioRingBuffer.new buff).applyOps ops = some rb ∧
      rb.write_index < rb.length ∧ rb.length ≤ rb.buffer.length ∧
      rb.buffer.length = buff.length := by
  have hpos : 0 < buff.length := List.length_pos.mpr hne
  have h0 : (AudioRingBuffer.new buff).WellFormed := ⟨hpos, Nat.le_refl _⟩
  obtain ⟨rb, e, h, c⟩ := applyOps_wellFormed ops _ h0 hops
  exact ⟨rb, e, h.1, h.2, c⟩

/-- C8, at an instance: a view of three cells driven through all four operations,
including a `set_length` above the capacity. -/
theorem invariant_preserved_witness :
    ∃ rb, (AudioRingBuffer.new [(0 : Int), 0, 0]).applyOps
        [Op.write 4, Op.increment, Op.process 5, Op.set_length 7, Op.write 6,
          Op.set_length 2, Op.process 1, Op.increment] = some rb ∧
      rb.write_index < rb.length ∧ rb.length ≤ rb.buffer.length ∧
      rb.buffer.length = [(0 : Int), 0, 0].length :=
  invariant_preserved [(0 : Int), 0, 0]
    [Op.write 4, Op.increment, Op.process 5, Op.set_length 7, Op.write 6,
      Op.set_length 2, Op.process 1, Op.increment]
    (by decide) (by simp [lengthsPositive])

/-- C9. After `set_length(n)` the logical length is `min(n, capacity)`, the write
index is `0` and the stored samples are unchanged; every `n > capacity` yields a
logical length equal to the capacity. -/
theorem set_length_spec (rb : AudioRingBuffer S) (n : Nat) :
    (rb.set_length n).length = Nat.min n rb.buffer.length ∧
    (rb.set_length n).write_index = 0 ∧
    (rb.set_length n).buffer = rb.buffer ∧
    (rb.buffer.length < n → (rb.set_length n).length = rb.buffer.length) := by
  refine ⟨?_, rfl, rfl, ?_⟩
  · show idsp.min n rb.buffer.length = _
    unfold idsp.min
    split
    · exact (Nat.min_eq_left (by omega)).symm
    · exact (Nat.min_eq_right (by omega)).symm
  · intro h
    show idsp.min n rb.buffer.length = _
    unfold idsp.min
    split <;> omega

/-- C1. Delay identity: over all-zero storage of capacity `L ≥ 1`, the `n`-th call
`process(x_n)` returns `0` for `n < L` and `x_(n-L)` for `n ≥ L`; in particular a
unit impulse at sample `0` comes out as exactly `1` at sample `L` and `0` at every
other sample. -/
theorem delay_identity [Zero S] [One S] (L : Nat) (hL : 1 ≤ L) (xs : List S) :
    (∃ ys rb, (AudioRingBuffer.new (List.replicate L (0 : S))).processSeq xs = some (ys, rb) ∧
      ys.length = xs.length ∧
      ∀ n, n < xs.length → ys[n]? = if n < L then some 0 else xs[n - L]?) ∧
    (∀ m : Nat, ∃ ys rb,
      (AudioRingBuffer.new (List.replicate L (0 : S))).processSeq
        ((1 : S) :: List.replicate m 0) = some (ys, rb) ∧
      ys.length = m + 1 ∧
      ∀ n, n ≤ m → ys[n]? = some (if n = L then 1 else 0)) := by
  have key : ∀ xs : List S, ∃ ys rb,
      (AudioRingBuffer.new (List.replicate L (0 : S))).processSeq xs = some (ys, rb) ∧
      ys.length = xs.length ∧
      ∀ n, n < xs.length → ys[n]? = if n < L then some 0 else xs[n - L]? := by
    intro xs
    obtain ⟨ys, rb, w2, hs, _, hag, hlen, hval⟩ :=
      processSeq_tracks xs L L _ _ (by omega) (Nat.le_refl L) (tracks_new_zero (S := S) L)
    refine ⟨ys, rb, hs, hlen, ?_⟩
    intro n hn
    have e : L + n - L = n := by omega
    rw [(hval n hn).2, e]
    split
    · next h => rw [hag n h]
    · next h =>
      have := (hval (n - L) (by omega)).1
      have e2 : L + (n - L) = n := by omega
      rw [e2] at this
      exact this.symm
  refine ⟨key xs, ?_⟩
  intro m
  obtain ⟨ys, rb, hs, hlen, hval⟩ := key ((1 : S) :: List.replicate m 0)
  refine ⟨ys, rb, hs, by simpa using hlen, ?_⟩
  intro n hn
  rw [hval n (by simp; omega)]
  by_cases h1 : n < L
  · have : n ≠ L := by omega
    simp [h1, this]
  · by_cases h2 : n = L
    · simp [h2]
    · obtain ⟨d, hd⟩ : ∃ d, n - L = d + 1 := ⟨n - L - 1, by omega⟩
      have hdm : d < m := by omega
      simp [h1, h2, hd, List.getElem?_replicate, hdm]

/-- C1, at the scenario of the specification: a delay of capacity 100 fed a unit
impulse followed by 199 zeros. -/
theorem delay_identity_witness :
    1 ≤ 100 ∧
    ((∃ ys rb, (AudioRingBuffer.new (List.replicate 100 (0 : Int))).processSeq
        ((1 : Int) :: List.replicate 199 0) = some (ys, rb) ∧
      ys.length = ((1 : Int) :: List.replicate 199 0).length ∧
      ∀ n, n < ((1 : Int) :: List.replicate 199 0).length →
        ys[n]? = if n < 100 then some 0 else ((1 : Int) :: List.replicate 199 0)[n - 100]?) ∧
    (∀ m : Nat, ∃ ys rb,
      (AudioRingBuffer.new (List.replicate 100 (0 : Int))).processSeq
        ((1 : Int) :: List.replicate m 0) = some (ys, rb) ∧
      ys.length = m + 1 ∧
      ∀ n, n ≤ m → ys[n]? = some (if n = 100 then 1 else 0))) :=
  ⟨by decide, delay_identity 100 (by decide) ((1 : Int) :: List.replicate 199 0)⟩

end AudioRingBuffer

/-! ## Plain allpass -/

namespace AllpassProcessor

open AudioRingBuffer

variable {S : Type}

theorem allpass_process_tracks [Add S] [Mul S] [Neg S] {D n : Nat} {w : Nat → S}
    {ap : AllpassProcessor S} (h : Tracks D w n ap.delay) (hn : D ≤ n) (hD : 0 < D) (x : S) :
    ∃ ap1, ap.process x =
        some ((-ap.gain) * (x + ap.gain * w (n - D)) + w (n - D), ap1) ∧
      ap1.gain = ap.gain ∧
      Tracks D (Function.update w n (x + ap.gain * w (n - D))) (n + 1) ap1.delay := by
  obtain ⟨d1, hw, ht⟩ := h.write hD (x + ap.gain * w (n - D))
  exact ⟨{ delay := d1, gain := ap.gain },
    by simp only [process, _process_sample, h.read hn hD, hw], rfl, ht⟩

theorem allpass_processSeq_tracks [Add S] [Mul S] [Neg S] (xs : List S) :
    ∀ (D n : Nat) (w : Nat → S) (ap : AllpassProcessor S), 0 < D → D ≤ n →
      Tracks D w n ap.delay →
      ∃ ys ap2 w2, ap.processSeq xs = some (ys, ap2) ∧
        Tracks D w2 (n + xs.length) ap2.delay ∧ ap2.gain = ap.gain ∧
        (∀ k, k < n → w2 k = w k) ∧ ys.length = xs.length ∧
        ∀ j, j < xs.length → ∃ x, xs[j]? = some x ∧
          w2 (n + j) = x + ap.gain * w2 (n + j - D) ∧
          ys[j]? = some ((-ap.gain) * w2 (n + j) + w2 (n + j - D)) := by
  induction xs with
  | nil =>
    intro D n w ap _ _ h
    exact ⟨[], ap, w, rfl, by simpa using h, rfl, fun _ _ => rfl, rfl,
      fun j hj => by simp at hj⟩
  | cons x xs ih =>
    intro D n w ap hD hn h
    obtain ⟨ap1, hp, hg, ht⟩ := allpass_process_tracks h hn hD x
    obtain ⟨ys, ap2, w2, hs, ht2, hg2, hag, hlen, hval⟩ :=
      ih D (n + 1) _ ap1 hD (by omega) ht
    refine ⟨((-ap.gain) * (x + ap.gain * w (n - D)) + w (n - D)) :: ys, ap2, w2,
      by simp only [processSeq, hp, hs], ?_, hg2.trans hg, ?_, ?_, ?_⟩
    · have e : n + (x :: xs).length = n + 1 + xs.length := by simp; omega
      rw [e]; exact ht2
    · intro k hk
      rw [hag k (by omega), Function.update_noteq (by omega)]
    · simp [hlen]
    · intro j hj
      cases j with
      | zero =>
        have e1 := hag n (by omega)
        have e2 := hag (n - D) (by omega)
        rw [Function.update_same] at e1
        rw [Function.update_noteq (by omega)] at e2
        refine ⟨x, by simp, ?_, ?_⟩
        · simp only [Nat.add_zero, e1, e2]
        · simp only [Nat.add_zero, e1, e2, List.getElem?_cons_zero]
      | succ j =>
        obtain ⟨x1, a, b, c⟩ := hval j (by simpa using hj)
        have e : n + (j + 1) = n + 1 + j := by omega
        rw [e, ← hg]
        exact ⟨x1, by simpa using a, b, by simpa using c⟩

theorem allpass_tracks_new_zero [Zero S] (D : Nat) (half g : S) :
    Tracks D (fun _ => (0 : S)) D
      ((AllpassProcessor.new (List.replicate D (0 : S)) half).set_gain g).delay :=
  AudioRingBuffer.tracks_new_zero D

theorem variant_process_tracks [Add S] [Mul S] [Neg S] {D n : Nat} {w : Nat → S}
    {ap : AllpassProcessor S} (h : Tracks D w n ap.delay) (hn : D ≤ n) (hD : 0 < D) (x : S) :
    ∃ ap1, ap.process_writing_yn x =
        some ((-ap.gain) * (x + ap.gain * w (n - D)) + w (n - D), ap1) ∧
      ap1.gain = ap.gain ∧
      Tracks D (Function.update w n ((-ap.gain) * (x + ap.gain * w (n - D)) + w (n - D)))
        (n + 1) ap1.delay := by
  obtain ⟨d1, hw, ht⟩ := h.write hD ((-ap.gain) * (x + ap.gain * w (n - D)) + w (n - D))
  exact ⟨{ delay := d1, gain := ap.gain },
    by simp only [process_writing_yn, h.read hn hD, hw], rfl, ht⟩

theorem variant_processSeq_tracks [Add S] [Mul S] [Neg S] (xs : List S) :
    ∀ (D n : Nat) (w : Nat → S) (ap : AllpassProcessor S), 0 < D → D ≤ n →
      Tracks D w n ap.delay →
      ∃ ys ap2 w2, ap.processSeq_writing_yn xs = some (ys, ap2) ∧
        Tracks D w2 (n + xs.length) ap2.delay ∧ ap2.gain = ap.gain ∧
        (∀ k, k < n → w2 k = w k) ∧ ys.length = xs.length ∧
        ∀ j, j < xs.length → ∃ x, xs[j]? = some x ∧
          w2 (n + j) = (-ap.gain) * (x + ap.gain * w2 (n + j - D)) + w2 (n + j - D) ∧
          ys[j]? = some (w2 (n + j)) := by
  induction xs with
  | nil =>
    intro D n w ap _ _ h
    exact ⟨[], ap, w, rfl, by simpa using h, rfl, fun _ _ => rfl, rfl,
      fun j hj => by simp at hj⟩
  | cons x xs ih =>
    intro D n w ap hD hn h
    obtain ⟨ap1, hp, hg, ht⟩ := variant_process_tracks h hn hD x
    obtain ⟨ys, ap2, w2, hs, ht2, hg2, hag, hlen, hval⟩ :=
      ih D (n + 1) _ ap1 hD (by omega) ht
    refine ⟨((-ap.gain) * (x + ap.gain * w (n - D)) + w (n - D)) :: ys, ap2, w2,
      by simp only [processSeq_writing_yn, hp, hs], ?_, hg2.trans hg, ?_, ?_, ?_⟩
    · have e : n + (x :: xs).length = n + 1 + xs.length := by simp; omega
      rw [e]; exact ht2
    · intro k hk
      rw [hag k (by omega), Function.update_noteq (by omega)]
    · simp [hlen]
    · intro j hj
      cases j with
      | zero =>
        have e1 := hag n (by omega)
        have e2 := hag (n - D) (by omega)
        rw [Function.update_same] at e1
        rw [Function.update_noteq (by omega)] at e2
        refine ⟨x, by simp, ?_, ?_⟩
        · simp only [Nat.add_zero, e1, e2]
        · simp only [Nat.add_zero, e1, List.getElem?_cons_zero]
      | succ j =>
        obtain ⟨x1, a, b, c⟩ := hval j (by simpa using hj)
        have e : n + (j + 1) = n + 1 + j := by omega
        rw [e, ← hg]
        exact ⟨x1, by simpa using a, b, by simpa using c⟩

theorem impulse_getElem [Zero S] [One S] (m j : Nat) (hj : j ≤ m) :
    ((1 : S) :: List.replicate m 0)[j]? = some (if j = 0 then 1 else 0) := by
  cases j with
  | zero => simp
  | succ j =>
    have : j < m := by omega
    simp [List.getElem?_replicate, this]

/-- C2. Schroeder allpass recurrence: from an all-zero delay line of length
`D ≥ 1`, the outputs of `process` satisfy
`y[n] = -g*x[n] + x[n-D] + g*y[n-D]` for every `n`, terms with a negative index
being `0`; this is the difference equation of `(-g + z^-D) / (1 - g*z^-D)`. -/
theorem schroeder_recurrence {R : Type} [CommRing R] (g half : R) (D : Nat) (hD : 1 ≤ D)
    (xs : List R) :
    ∃ ys ap,
      ((AllpassProcessor.new (List.replicate D (0 : R)) half).set_gain g).processSeq xs
        = some (ys, ap) ∧
      ys.length = xs.length ∧
      ∀ n, n < xs.length →
        ys.getD n 0 = -g * xs.getD n 0 +
          (if n < D then 0 else xs.getD (n - D) 0 + g * ys.getD (n - D) 0) := by
  obtain ⟨ys, ap, w, hs, _, _, hag, hlen, hval⟩ :=
    allpass_processSeq_tracks xs D D _ _ (by omega) (Nat.le_refl D)
      (allpass_tracks_new_zero D half g)
  have hg : ((AllpassProcessor.new (List.replicate D (0 : R)) half).set_gain g).gain = g := rfl
  rw [hg] at hval
  refine ⟨ys, ap, hs, hlen, ?_⟩
  intro n hn
  obtain ⟨x, hx, h1, h2⟩ := hval n hn
  have e : D + n - D = n := by omega
  rw [e] at h1 h2
  have hxn : xs.getD n 0 = x := by simp [List.getD, hx]
  have hyn : ys.getD n 0 = -g * w (D + n) + w n := by simp [List.getD, h2]
  rw [hxn, hyn]
  split
  · next hlt =>
    rw [h1, hag n hlt]; ring
  · next hge =>
    obtain ⟨x1, hx1, h3, h4⟩ := hval (n - D) (by omega)
    have e1 : D + (n - D) = n := by omega
    rw [e1] at h3 h4
    have hxm : xs.getD (n - D) 0 = x1 := by simp [List.getD, hx1]
    have hym : ys.getD (n - D) 0 = -g * w n + w (n - D) := by simp [List.getD, h4]
    rw [hxm, hym]
    linear_combination (-g) * h1 + h3

/-- C2, at an instance: gain `2`, delay length `3`, a five-sample input. -/
theorem schroeder_recurrence_witness :
    1 ≤ 3 ∧
    ∃ ys ap,
      ((AllpassProcessor.new (List.replicate 3 (0 : Int)) 1).set_gain 2).processSeq
        [1, 4, -2, 3, 5] = some (ys, ap) ∧
      ys.length = [(1 : Int), 4, -2, 3, 5].length ∧
      ∀ n, n < [(1 : Int), 4, -2, 3, 5].length →
        ys.getD n 0 = -2 * [(1 : Int), 4, -2, 3, 5].getD n 0 +
          (if n < 3 then 0
            else [(1 : Int), 4, -2, 3, 5].getD (n - 3) 0 + 2 * ys.getD (n - 3) 0) :=
  ⟨by decide, schroeder_recurrence 2 1 3 (by decide) [1, 4, -2, 3, 5]⟩

/-- C3. One call of `AllpassProcessor::process` on a well-formed state returns
`yn = -g*wn + wnD` with `wnD = delay.read()` taken before the write and
`wn = x + g*wnD`; it stores `wn` (not `yn`) at the previous write position,
advances the write index by one with wraparound, and leaves every other cell,
the logical length and the gain unchanged. -/
theorem plain_allpass_step [Add S] [Mul S] [Neg S] (ap : AllpassProcessor S) (x : S)
    (hwi : ap.delay.write_index < ap.delay.length)
    (hcap : ap.delay.length ≤ ap.delay.buffer.length) :
    ∃ wnD ap1,
      ap.delay.read = some wnD ∧
      ap.process x = some ((-ap.gain) * (x + ap.gain * wnD) + wnD, ap1) ∧
      ap1.delay.buffer[ap.delay.write_index]? = some (x + ap.gain * wnD) ∧
      ap1.delay.write_index = (ap.delay.write_index + 1) % ap.delay.length ∧
      (∀ i, i ≠ ap.delay.write_index → ap1.delay.buffer[i]? = ap.delay.buffer[i]?) ∧
      ap1.delay.buffer.length = ap.delay.buffer.length ∧
      ap1.delay.length = ap.delay.length ∧
      ap1.gain = ap.gain := by
  have hin : ap.delay.write_index < ap.delay.buffer.length := by omega
  have hr : ap.delay.read = some (ap.delay.buffer.get ⟨ap.delay.write_index, hin⟩) := by
    simp [AudioRingBuffer.read, List.getElem?_eq_getElem hin]
  obtain ⟨d1, hw, a, b, c, d, e⟩ :=
    AudioRingBuffer.write_cells ap.delay
      (x + ap.gain * ap.delay.buffer.get ⟨ap.delay.write_index, hin⟩) hwi hcap
  exact ⟨_, { delay := d1, gain := ap.gain }, hr,
    by simp only [process, _process_sample, hr, hw], a, e, c, b, d, rfl⟩

/-- C3, at an instance: gain `2`, the write index on the last cell of the ring. -/
theorem plain_allpass_step_witness :
    ∃ wnD ap1,
      (AllpassProcessor.mk (AudioRingBuffer.mk [(5 : Int), 6, 7] 2 3) 2).delay.read
        = some wnD ∧
      (AllpassProcessor.mk (AudioRingBuffer.mk [(5 : Int), 6, 7] 2 3) 2).process 1
        = some ((-2) * (1 + 2 * wnD) + wnD, ap1) ∧
      ap1.delay.buffer[2]? = some (1 + 2 * wnD) ∧
      ap1.delay.write_index = (2 + 1) % 3 ∧
      (∀ i, i ≠ 2 → ap1.delay.buffer[i]? = [(5 : Int), 6, 7][i]?) ∧
      ap1.delay.buffer.length = 3 ∧
      ap1.delay.length = 3 ∧
      ap1.gain = 2 :=
  plain_allpass_step (AllpassProcessor.mk (AudioRingBuffer.mk [(5 : Int), 6, 7] 2 3) 2) 1
    (by decide) (by decide)

/-- C4. Allpass write-order property: for every `D ≥ 1` and every gain with
`|g| < 1`, the unit-impulse responses of the plain allpass and of the variant that
writes `yn` instead of `wn`, both from zero state, agree before sample `D` and
differ at sample `D`, where they are `1 - g^2` and `g^3 - g`; so they are
different sequences. -/
theorem write_order_matters {R : Type} [LinearOrderedCommRing R] (g half : R) (D m : Nat)
    (hD : 1 ≤ D) (hg : |g| < 1) (hm : D ≤ m) :
    ∃ ys zs ap1 ap2,
      ((AllpassProcessor.new (List.replicate D (0 : R)) half).set_gain g).processSeq
        ((1 : R) :: List.replicate m 0) = some (ys, ap1) ∧
      ((AllpassProcessor.new (List.replicate D (0 : R)) half).set_gain g).processSeq_writing_yn
        ((1 : R) :: List.replicate m 0) = some (zs, ap2) ∧
      (∀ n, n < D → ys[n]? = zs[n]?) ∧
      ys[D]? = some (1 - g ^ 2) ∧
      zs[D]? = some (g ^ 3 - g) ∧
      ys ≠ zs := by
  obtain ⟨ys, ap1, w, hs, _, _, hag, _, hval⟩ :=
    allpass_processSeq_tracks ((1 : R) :: List.replicate m 0) D D _ _ (by omega)
      (Nat.le_refl D) (allpass_tracks_new_zero D half g)
  obtain ⟨zs, ap2, v, hs2, _, _, hag2, _, hval2⟩ :=
    variant_processSeq_tracks ((1 : R) :: List.replicate m 0) D D _ _ (by omega)
      (Nat.le_refl D) (allpass_tracks_new_zero D half g)
  have hgain :
      ((AllpassProcessor.new (List.replicate D (0 : R)) half).set_gain g).gain = g := rfl
  rw [hgain] at hval hval2
  have hlen : ((1 : R) :: List.replicate m 0).length = m + 1 := by simp
  rw [hlen] at hval hval2
  have sub : ∀ j, D + j - D = j := fun j => by omega
  -- the first write of either filter
  obtain ⟨x0, hx0, hw0, _⟩ := hval 0 (by omega)
  obtain ⟨x0', hx0', hv0, _⟩ := hval2 0 (by omega)
  rw [impulse_getElem m 0 (by omega)] at hx0 hx0'
  simp only [if_true, Option.some.injEq] at hx0 hx0'
  rw [sub, ← hx0, hag 0 (by omega)] at hw0
  rw [sub, ← hx0', hag2 0 (by omega)] at hv0
  simp only [Nat.add_zero] at hw0 hv0
  -- sample D
  obtain ⟨xD, hxD, hwD, hyD⟩ := hval D (by omega)
  obtain ⟨xD', hxD', hvD, hzD⟩ := hval2 D (by omega)
  rw [impulse_getElem m D hm] at hxD hxD'
  have hD0 : D ≠ 0 := by omega
  simp only [hD0, if_false, Option.some.injEq] at hxD hxD'
  rw [sub, ← hxD, hw0] at hwD
  rw [sub, hwD, hw0] at hyD
  rw [sub, ← hxD', hv0] at hvD
  rw [hvD] at hzD
  have eY : ys[D]? = some (1 - g ^ 2) := by rw [hyD]; congr 1; ring
  have eZ : zs[D]? = some (g ^ 3 - g) := by rw [hzD]; congr 1; ring
  refine ⟨ys, zs, ap1, ap2, hs, hs2, ?_, eY, eZ, ?_⟩
  · intro n hn
    obtain ⟨x, hx, hw1, hy⟩ := hval n (by omega)
    obtain ⟨x', hx', hv1, hz⟩ := hval2 n (by omega)
    have hxx : x' = x := by
      rw [hx] at hx'; exact (Option.some.inj hx').symm
    rw [sub, hag n hn] at hw1 hy
    rw [sub, hag2 n hn, hxx] at hv1
    rw [hy, hz, hw1, hv1]
  · intro hyz
    rw [hyz, eZ] at eY
    have h1 := Option.some.inj eY
    obtain ⟨hlo, hhi⟩ := abs_lt.mp hg
    have hp : 0 < (1 - g) * ((1 + g) * (1 + g)) :=
      mul_pos (by linarith) (mul_pos (by linarith) (by linarith))
    have : (1 - g) * ((1 + g) * (1 + g)) = (1 - g ^ 2) - (g ^ 3 - g) := by ring
    rw [this, ← h1] at hp
    simp at hp

/-- C4, at an instance: gain `1/2`, delay length `2`, an impulse followed by four
zeros. -/
theorem write_order_matters_witness :
    1 ≤ 2 ∧ |(1 / 2 : ℚ)| < 1 ∧ 2 ≤ 4 ∧
    ∃ ys zs ap1 ap2,
      ((AllpassProcessor.new (List.replicate 2 (0 : ℚ)) (1 / 2)).set_gain (1 / 2)).processSeq
        ((1 : ℚ) :: List.replicate 4 0) = some (ys, ap1) ∧
      ((AllpassProcessor.new (List.replicate 2 (0 : ℚ)) (1 / 2)).set_gain
          (1 / 2)).processSeq_writing_yn
        ((1 : ℚ) :: List.replicate 4 0) = some (zs, ap2) ∧
      (∀ n, n < 2 → ys[n]? = zs[n]?) ∧
      ys[2]? = some (1 - (1 / 2 : ℚ) ^ 2) ∧
      zs[2]? = some ((1 / 2 : ℚ) ^ 3 - 1 / 2) ∧
      ys ≠ zs :=
  ⟨by decide, by rw [abs_lt]; constructor <;> norm_num, by decide,
    write_order_matters (1 / 2 : ℚ) (1 / 2) 2 4 (by decide)
      (by rw [abs_lt]; constructor <;> norm_num) (by decide)⟩

end AllpassProcessor

/-! ## Nested allpass -/

namespace NestedAllpassProcessor

open AudioRingBuffer AllpassProcessor

variable {S : Type}

theorem nested_process_tracks [Add S] [Mul S] [Neg S] {D Di n ni : Nat} {u v : Nat → S}
    {np : NestedAllpassProcessor S} (hu : Tracks D u n np.delay)
    (hv : Tracks Di v ni np.allpass.delay) (hn : D ≤ n) (hni : Di ≤ ni)
    (hD : 0 < D) (hDi : 0 < Di) (x : S) :
    ∃ np1, np.process x =
        some ((-np.gain) * (x + np.gain * u (n - D)) + u (n - D), np1) ∧
      np1.gain = np.gain ∧ np1.allpass.gain = np.allpass.gain ∧
      Tracks D (Function.update u n
        ((-np.allpass.gain) * (x + np.gain * u (n - D) + np.allpass.gain * v (ni - Di))
          + v (ni - Di))) (n + 1) np1.delay ∧
      Tracks Di (Function.update v ni
        (x + np.gain * u (n - D) + np.allpass.gain * v (ni - Di))) (ni + 1)
        np1.allpass.delay := by
  obtain ⟨a1, hp, hg, ht⟩ := allpass_process_tracks hv hni hDi (x + np.gain * u (n - D))
  obtain ⟨d1, hw, htd⟩ := hu.write hD
    ((-np.allpass.gain) * (x + np.gain * u (n - D) + np.allpass.gain * v (ni - Di))
      + v (ni - Di))
  exact ⟨{ delay := d1, allpass := a1, gain := np.gain },
    by simp only [process, _process_sample, hu.read hn hD, hp, hw], rfl, hg, htd, ht⟩

theorem nested_processSeq_tracks [Add S] [Mul S] [Neg S] (xs : List S) :
    ∀ (D Di n ni : Nat) (u v : Nat → S) (np : NestedAllpassProcessor S),
      0 < D → 0 < Di → D ≤ n → Di ≤ ni →
      Tracks D u n np.delay → Tracks Di v ni np.allpass.delay →
      ∃ ys np2 u2 v2, np.processSeq xs = some (ys, np2) ∧
        Tracks D u2 (n + xs.length) np2.delay ∧
        Tracks Di v2 (ni + xs.length) np2.allpass.delay ∧
        np2.gain = np.gain ∧ np2.allpass.gain = np.allpass.gain ∧
        (∀ k, k < n → u2 k = u k) ∧ (∀ k, k < ni → v2 k = v k) ∧
        ys.length = xs.length ∧
        ∀ j, j < xs.length → ∃ x, xs[j]? = some x ∧
          v2 (ni + j) = x + np.gain * u2 (n + j - D) + np.allpass.gain * v2 (ni + j - Di) ∧
          u2 (n + j) = (-np.allpass.gain) * v2 (ni + j) + v2 (ni + j - Di) ∧
          ys[j]? = some ((-np.gain) * (x + np.gain * u2 (n + j - D)) + u2 (n + j - D)) := by
  induction xs with
  | nil =>
    intro D Di n ni u v np _ _ _ _ hu hv
    exact ⟨[], np, u, v, rfl, by simpa using hu, by simpa using hv, rfl, rfl,
      fun _ _ => rfl, fun _ _ => rfl, rfl, fun j hj => by simp at hj⟩
  | cons x xs ih =>
    intro D Di n ni u v np hD hDi hn hni hu hv
    obtain ⟨np1, hp, hg, hgi, htu, htv⟩ := nested_process_tracks hu hv hn hni hD hDi x
    obtain ⟨ys, np2, u2, v2, hs, htu2, htv2, hg2, hgi2, hagu, hagv, hlen, hval⟩ :=
      ih D Di (n + 1) (ni + 1) _ _ np1 hD hDi (by omega) (by omega) htu htv
    refine ⟨((-np.gain) * (x + np.gain * u (n - D)) + u (n - D)) :: ys, np2, u2, v2,
      by simp only [processSeq, hp, hs], ?_, ?_, hg2.trans hg, hgi2.trans hgi, ?_, ?_, ?_, ?_⟩
    · have e : n + (x :: xs).length = n + 1 + xs.length := by simp; omega
      rw [e]; exact htu2
    · have e : ni + (x :: xs).length = ni + 1 + xs.length := by simp; omega
      rw [e]; exact htv2
    · intro k hk
      rw [hagu k (by omega), Function.update_noteq (by omega)]
    · intro k hk
      rw [hagv k (by omega), Function.update_noteq (by omega)]
    · simp [hlen]
    · intro j hj
      cases j with
      | zero =>
        have e1 := hagu n (by omega)
        have e2 := hagu (n - D) (by omega)
        have e3 := hagv ni (by omega)
        have e4 := hagv (ni - Di) (by omega)
        rw [Function.update_same] at e1 e3
        rw [Function.update_noteq (by omega)] at e2 e4
        refine ⟨x, by simp, ?_, ?_, ?_⟩
        · simp only [Nat.add_zero, e2, e3, e4]
        · simp only [Nat.add_zero, e1, e3, e4]
        · simp only [Nat.add_zero, e2, List.getElem?_cons_zero]
      | succ j =>
        obtain ⟨x1, a, b, c, d⟩ := hval j (by simpa using hj)
        have e : n + (j + 1) = n + 1 + j := by omega
        have e' : ni + (j + 1) = ni + 1 + j := by omega
        rw [e, e', ← hg, ← hgi]
        exact ⟨x1, by simpa using a, b, c, by simpa using d⟩

theorem nested_tracks_new_zero [Zero S] (D Di : Nat) (half g gi : S) :
    Tracks D (fun _ => (0 : S)) D
      ((NestedAllpassProcessor.new (List.replicate D (0 : S)) (List.replicate Di 0)
        half).set_gain g gi).delay ∧
    Tracks Di (fun _ => (0 : S)) Di
      ((NestedAllpassProcessor.new (List.replicate D (0 : S)) (List.replicate Di 0)
        half).set_gain g gi).allpass.delay :=
  ⟨AudioRingBuffer.tracks_new_zero D, AudioRingBuffer.tracks_new_zero Di⟩

/-- C5, refuted as stated: with outer gain `1/2`, outer length `2`, inner length `1`
and inner gain `0`, the impulse response of the nested allpass is
`-1/2, 0, 0, 3/4`, while the plain allpass of length `2` and gain `1/2` answers
`-1/2, 0, 3/4, 0`. -/
theorem inner_gain_zero_is_not_identity :
    (((NestedAllpassProcessor.new [(0 : ℚ), 0] [0] (1 / 2)).set_gain (1 / 2) 0).processSeq
        [1, 0, 0, 0]).map Prod.fst = some [-1 / 2, 0, 0, 3 / 4] ∧
    (((AllpassProcessor.new [(0 : ℚ), 0] (1 / 2)).set_gain (1 / 2)).processSeq
        [1, 0, 0, 0]).map Prod.fst = some [-1 / 2, 0, 3 / 4, 0] ∧
    (((NestedAllpassProcessor.new [(0 : ℚ), 0] [0] (1 / 2)).set_gain (1 / 2) 0).processSeq
        [1, 0, 0, 0]).map Prod.fst ≠
      (((AllpassProcessor.new [(0 : ℚ), 0] (1 / 2)).set_gain (1 / 2)).processSeq
        [1, 0, 0, 0]).map Prod.fst := by
  norm_num [NestedAllpassProcessor.processSeq, NestedAllpassProcessor.process,
    NestedAllpassProcessor._process_sample, NestedAllpassProcessor.new,
    NestedAllpassProcessor.set_gain, AllpassProcessor.processSeq, AllpassProcessor.process,
    AllpassProcessor._process_sample, AllpassProcessor.new, AllpassProcessor.set_gain,
    AudioRingBuffer.new, AudioRingBuffer.read, AudioRingBuffer.write]

theorem zero_inner_stage_run {R : Type} [CommRing R] (g half : R) (D Di : Nat)
    (hD : 1 ≤ D) (hDi : 1 ≤ Di) (xs : List R) :
    ∃ ys np ap,
      ((NestedAllpassProcessor.new (List.replicate D (0 : R)) (List.replicate Di 0)
        half).set_gain g 0).processSeq xs = some (ys, np) ∧
      ((AllpassProcessor.new (List.replicate (D + Di) (0 : R)) half).set_gain g).processSeq xs
        = some (ys, ap) := by
  obtain ⟨hu0, hv0⟩ := nested_tracks_new_zero D Di half g (0 : R)
  obtain ⟨ys, np, u, v, hs, _, _, _, _, hagu, hagv, hlen, hval⟩ :=
    nested_processSeq_tracks xs D Di D Di _ _ _ (by omega) (by omega) (Nat.le_refl D)
      (Nat.le_refl Di) hu0 hv0
  obtain ⟨zs, ap, w, hs2, _, _, hagw, hlen2, hval2⟩ :=
    allpass_processSeq_tracks xs (D + Di) (D + Di) _ _ (by omega) (Nat.le_refl _)
      (allpass_tracks_new_zero (D + Di) half g)
  have hg1 : ((NestedAllpassProcessor.new (List.replicate D (0 : R)) (List.replicate Di 0)
      half).set_gain g 0).gain = g := rfl
  have hg2 : ((NestedAllpassProcessor.new (List.replicate D (0 : R)) (List.replicate Di 0)
      half).set_gain g 0).allpass.gain = 0 := rfl
  have hg3 : ((AllpassProcessor.new (List.replicate (D + Di) (0 : R)) half).set_gain g).gain
      = g := rfl
  rw [hg1, hg2] at hval
  rw [hg3] at hval2
  have subD : ∀ j, D + j - D = j := fun j => by omega
  have subDi : ∀ j, Di + j - Di = j := fun j => by omega
  have subS : ∀ j, D + Di + j - (D + Di) = j := fun j => by omega
  -- the run facts with the index arithmetic and the zero inner gain resolved
  have hvalN : ∀ j, j < xs.length → ∃ x, xs[j]? = some x ∧
      v (Di + j) = x + g * u j ∧ u (D + j) = v j ∧
      ys[j]? = some (-g * (x + g * u j) + u j) := by
    intro j hj
    obtain ⟨x, hx, a, b, c⟩ := hval j hj
    rw [subD, subDi] at a
    rw [subDi] at b
    rw [subD] at c
    exact ⟨x, hx, by rw [a]; ring, by rw [b]; ring, c⟩
  have hval2N : ∀ j, j < xs.length → ∃ x, xs[j]? = some x ∧
      w (D + Di + j) = x + g * w j ∧
      zs[j]? = some (-g * (x + g * w j) + w j) := by
    intro j hj
    obtain ⟨x, hx, a, b⟩ := hval2 j hj
    rw [subS] at a b
    rw [a] at b
    exact ⟨x, hx, a, b⟩
  -- the samples read from the two delay lines agree
  have hread : ∀ j, j < xs.length → u j = w j := by
    intro j
    induction j using Nat.strong_induction_on with
    | _ j ih =>
      intro hj
      by_cases h1 : j < D
      · rw [hagu j h1, hagw j (by omega)]
      · obtain ⟨x1, _, _, hu1, _⟩ := hvalN (j - D) (by omega)
        have e1 : D + (j - D) = j := by omega
        rw [e1] at hu1
        by_cases h2 : j < D + Di
        · rw [hu1, hagv (j - D) (by omega), hagw j h2]
        · obtain ⟨k, hk⟩ : ∃ k, k = j - D - Di := ⟨_, rfl⟩
          obtain ⟨x2, hx2, hv2, _, _⟩ := hvalN k (by omega)
          obtain ⟨x3, hx3, hw3, _⟩ := hval2N k (by omega)
          have e2 : Di + k = j - D := by omega
          have e3 : D + Di + k = j := by omega
          have hx : x3 = x2 := by
            rw [hx2] at hx3; exact (Option.some.inj hx3).symm
          rw [e2] at hv2
          rw [e3, hx] at hw3
          rw [hu1, hv2, hw3, ih k (by omega) (by omega)]
  have hyz : ys = zs := by
    apply List.ext_getElem?
    intro j
    by_cases hj : j < xs.length
    · obtain ⟨x1, hx1, _, _, hy⟩ := hvalN j hj
      obtain ⟨x2, hx2, _, hz⟩ := hval2N j hj
      have hx : x2 = x1 := by
        rw [hx1] at hx2; exact (Option.some.inj hx2).symm
      rw [hy, hz, hx, hread j hj]
    · rw [List.getElem?_eq_none (by omega), List.getElem?_eq_none (by omega)]
  exact ⟨ys, np, ap, hs, by rw [hyz]; exact hs2⟩

/-- C5, amended. A nested allpass with inner gain `0`, outer gain `g`, outer length
`D` and inner length `Di` produces, from zero state and for every input sequence,
exactly the output sequence of a plain allpass with gain `g` and length `D + Di`:
the inner stage with gain `0` is a delay of `Di` samples. -/
theorem nested_inner_gain_zero {R : Type} [CommRing R] (g half : R) (D Di : Nat)
    (hD : 1 ≤ D) (hDi : 1 ≤ Di) (xs : List R) :
    ∃ ys np ap,
      ((NestedAllpassProcessor.new (List.replicate D (0 : R)) (List.replicate Di 0)
        half).set_gain g 0).processSeq xs = some (ys, np) ∧
      ((AllpassProcessor.new (List.replicate (D + Di) (0 : R)) half).set_gain g).processSeq xs
        = some (ys, ap) :=
  zero_inner_stage_run g half D Di hD hDi xs

/-- C5 amended, at an instance: outer length `2`, inner length `1`, gain `3`. -/
theorem nested_inner_gain_zero_witness :
    1 ≤ 2 ∧ 1 ≤ 1 ∧
    ∃ ys np ap,
      ((NestedAllpassProcessor.new (List.replicate 2 (0 : Int)) (List.replicate 1 0)
        1).set_gain 3 0).processSeq [1, 0, 2, 0, 0, 1, 4] = some (ys, np) ∧
      ((AllpassProcessor.new (List.replicate (2 + 1) (0 : Int)) 1).set_gain 3).processSeq
        [1, 0, 2, 0, 0, 1, 4] = some (ys, ap) :=
  ⟨by decide, by decide,
    nested_inner_gain_zero 3 1 2 1 (by decide) (by decide) [1, 0, 2, 0, 0, 1, 4]⟩

/-- C6. One call of `NestedAllpassProcessor::process` on a state whose rings are
well formed returns `yn = -g*wn + wnD` with `wnD = outer_delay.read()` and
`wn = x + g*wnD`, advances the inner allpass by exactly one `process` call on
input `wn`, and writes the inner output `y_inner` into the outer delay; the
doubly-nested processor writes `allpass2.process(allpass1.process(wn))`, each
inner allpass advanced by exactly one call. -/
theorem nested_allpass_step [Add S] [Mul S] [Neg S] (np : NestedAllpassProcessor S)
    (dp : DoubleNestedAllpassProcessor S) (x : S)
    (h1 : np.delay.WellFormed) (h2 : np.allpass.delay.WellFormed)
    (h3 : dp.delay.WellFormed) (h4 : dp.allpass1.delay.WellFormed)
    (h5 : dp.allpass2.delay.WellFormed) :
    (∃ wnD y_inner inner1 delay1,
      np.delay.read = some wnD ∧
      np.allpass.process (x + np.gain * wnD) = some (y_inner, inner1) ∧
      np.delay.write y_inner = some delay1 ∧
      delay1.buffer[np.delay.write_index]? = some y_inner ∧
      np.process x = some ((-np.gain) * (x + np.gain * wnD) + wnD,
        { delay := delay1, allpass := inner1, gain := np.gain })) ∧
    (∃ wnD y_inner y_outer a1 a2 delay1,
      dp.delay.read = some wnD ∧
      dp.allpass1.process (x + dp.gain * wnD) = some (y_inner, a1) ∧
      dp.allpass2.process y_inner = some (y_outer, a2) ∧
      dp.delay.write y_outer = some delay1 ∧
      delay1.buffer[dp.delay.write_index]? = some y_outer ∧
      dp.process x = some ((-dp.gain) * (x + dp.gain * wnD) + wnD,
        { delay := delay1, allpass1 := a1, allpass2 := a2, gain := dp.gain })) := by
  have rd : ∀ rb : AudioRingBuffer S, rb.WellFormed → ∃ v, rb.read = some v := by
    intro rb h
    have hin : rb.write_index < rb.buffer.length := Nat.lt_of_lt_of_le h.1 h.2
    exact ⟨rb.buffer.get ⟨rb.write_index, hin⟩,
      by simp [AudioRingBuffer.read, List.getElem?_eq_getElem hin]⟩
  have ap : ∀ (a : AllpassProcessor S) (v : S), a.delay.WellFormed →
      ∃ y a1, a.process v = some (y, a1) := by
    intro a v h
    obtain ⟨r, hr⟩ := rd a.delay h
    obtain ⟨d1, hw, _⟩ := AudioRingBuffer.write_cells a.delay (v + a.gain * r) h.1 h.2
    exact ⟨(-a.gain) * (v + a.gain * r) + r, { delay := d1, gain := a.gain },
      by simp only [AllpassProcessor.process, AllpassProcessor._process_sample, hr, hw]⟩
  constructor
  · obtain ⟨wnD, hr⟩ := rd np.delay h1
    obtain ⟨y, a1, hp⟩ := ap np.allpass (x + np.gain * wnD) h2
    obtain ⟨d1, hw, hcell, _⟩ := AudioRingBuffer.write_cells np.delay y h1.1 h1.2
    exact ⟨wnD, y, a1, d1, hr, hp, hw, hcell,
      by simp only [process, _process_sample, hr, hp, hw]⟩
  · obtain ⟨wnD, hr⟩ := rd dp.delay h3
    obtain ⟨y, a1, hp⟩ := ap dp.allpass1 (x + dp.gain * wnD) h4
    obtain ⟨z, a2, hq⟩ := ap dp.allpass2 y h5
    obtain ⟨d1, hw, hcell, _⟩ := AudioRingBuffer.write_cells dp.delay z h3.1 h3.2
    exact ⟨wnD, y, z, a1, a2, d1, hr, hp, hq, hw, hcell,
      by simp only [DoubleNestedAllpassProcessor.process,
        DoubleNestedAllpassProcessor._process_sample, hr, hp, hq, hw]⟩

/-- C6, at an instance: an outer ring of two cells with gain `2` around inner
allpasses of gains `3` and `5`. -/
theorem nested_allpass_step_witness :
    (∃ wnD y_inner inner1 delay1,
      (AudioRingBuffer.mk [(4 : Int), 7] 1 2).read = some wnD ∧
      (AllpassProcessor.mk (AudioRingBuffer.mk [(1 : Int), 6, 2] 2 3) 3).process
        (1 + 2 * wnD) = some (y_inner, inner1) ∧
      (AudioRingBuffer.mk [(4 : Int), 7] 1 2).write y_inner = some delay1 ∧
      delay1.buffer[1]? = some y_inner ∧
      (NestedAllpassProcessor.mk (AudioRingBuffer.mk [(4 : Int), 7] 1 2)
        (AllpassProcessor.mk (AudioRingBuffer.mk [(1 : Int), 6, 2] 2 3) 3) 2).process 1 =
        some ((-2) * (1 + 2 * wnD) + wnD,
          { delay := delay1, allpass := inner1, gain := 2 })) ∧
    (∃ wnD y_inner y_outer a1 a2 delay1,
      (AudioRingBuffer.mk [(4 : Int), 7] 1 2).read = some wnD ∧
      (AllpassProcessor.mk (AudioRingBuffer.mk [(1 : Int), 6, 2] 2 3) 3).process
        (1 + 2 * wnD) = some (y_inner, a1) ∧
      (AllpassProcessor.mk (AudioRingBuffer.mk [(8 : Int)] 0 1) 5).process y_inner
        = some (y_outer, a2) ∧
      (AudioRingBuffer.mk [(4 : Int), 7] 1 2).write y_outer = some delay1 ∧
      delay1.buffer[1]? = some y_outer ∧
      (DoubleNestedAllpassProcessor.mk (AudioRingBuffer.mk [(4 : Int), 7] 1 2)
        (AllpassProcessor.mk (AudioRingBuffer.mk [(1 : Int), 6, 2] 2 3) 3)
        (AllpassProcessor.mk (AudioRingBuffer.mk [(8 : Int)] 0 1) 5) 2).process 1 =
        some ((-2) * (1 + 2 * wnD) + wnD,
          { delay := delay1, allpass1 := a1, allpass2 := a2, gain := 2 })) :=
  nested_allpass_step
    (NestedAllpassProcessor.mk (AudioRingBuffer.mk [(4 : Int), 7] 1 2)
      (AllpassProcessor.mk (AudioRingBuffer.mk [(1 : Int), 6, 2] 2 3) 3) 2)
    (DoubleNestedAllpassProcessor.mk (AudioRingBuffer.mk [(4 : Int), 7] 1 2)
      (AllpassProcessor.mk (AudioRingBuffer.mk [(1 : Int), 6, 2] 2 3) 3)
      (AllpassProcessor.mk (AudioRingBuffer.mk [(8 : Int)] 0 1) 5) 2)
    1 (by decide) (by decide) (by decide) (by decide) (by decide)

end NestedAllpassProcessor

/-! ## Offset reads -/

namespace AudioRingBuffer

/-- C10, evaluated on the code: in a ring of logical length `4` with write index
`0`, `read_offset(4)` reads cell `0`, although the offset clamped to
`logical_length - 1 = 3` designates cell `(0 - 3) mod 4 = 1`; and
`read_offset(9)` computes the position `-5`, which is outside `[0, 4)` and
outside the view. -/
theorem read_offset_not_clamped :
    (AudioRingBuffer.mk [(10 : Int), 11, 12, 13] 0 4).read_offset 4 = some 10 ∧
    (AudioRingBuffer.mk [(10 : Int), 11, 12, 13] 0 4).read_offset_pos 4 = 0 ∧
    ((0 : Int) - Nat.min 4 (4 - 1)) % 4 = 1 ∧
    [(10 : Int), 11, 12, 13][1]? = some 11 ∧
    (AudioRingBuffer.mk [(10 : Int), 11, 12, 13] 0 4).read_offset_pos 9 = -5 ∧
    (AudioRingBuffer.mk [(10 : Int), 11, 12, 13] 0 4).read_offset 9 = none := by
  decide

/-! ## Direct reads, erase and construction -/

theorem new_zero_eq [Zero S] (N : Nat) :
    (Delay.new N : AudioRingBuffer S) = AudioRingBuffer.new (List.replicate N (0 : S)) := by
  simp [Delay.new, SampleBufferStatic.new, BufferInterface.erase, BufferInterface.fill]

/-- C11, evaluated on the code: in a ring of capacity `4` whose logical length was
set to `2`, `read_at(3)` returns cell `3`, although the index clamped to
`logical_length - 1 = 1` designates cell `1`; and `read_at(7)` designates no cell
of the view. -/
theorem read_at_not_clamped :
    ((AudioRingBuffer.new [(10 : Int), 11, 12, 13]).set_length 2).length = 2 ∧
    ((AudioRingBuffer.new [(10 : Int), 11, 12, 13]).set_length 2).read_at 3 = some 13 ∧
    [(10 : Int), 11, 12, 13][Nat.min 3 (2 - 1)]? = some 11 ∧
    ((AudioRingBuffer.new [(10 : Int), 11, 12, 13]).set_length 2).read_at 7 = none := by
  decide

/-- C14. `erase()` sets every cell of the underlying storage, all `capacity` of
them, to `0` and leaves the capacity, the write index and the logical length
unchanged. -/
theorem erase_spec [Zero S] (rb : AudioRingBuffer S) :
    rb.erase.buffer.length = rb.buffer.length ∧
    (∀ i, i < rb.buffer.length → rb.erase.buffer[i]? = some 0) ∧
    rb.erase.write_index = rb.write_index ∧
    rb.erase.length = rb.length := by
  refine ⟨by simp [erase, BufferInterface.erase, BufferInterface.fill], ?_, rfl, rfl⟩
  intro i hi
  simp [erase, BufferInterface.erase, BufferInterface.fill, List.getElem?_replicate, hi]

/-- C16. A freshly constructed `Delay<SampleBufferStatic<N>>` has all `N` storage
cells equal to `0`, write index `0` and logical length and capacity `N`; hence
for any input the first `N` outputs of `process` are `0`. -/
theorem delay_binding_construction [Zero S] (N : Nat) :
    (Delay.new N : AudioRingBuffer S).buffer.length = N ∧
    (∀ i, i < N → (Delay.new N : AudioRingBuffer S).buffer[i]? = some 0) ∧
    (Delay.new N : AudioRingBuffer S).write_index = 0 ∧
    (Delay.new N : AudioRingBuffer S).length = N ∧
    (Delay.new N : AudioRingBuffer S).get_size = N ∧
    (∀ xs : List S, 1 ≤ N →
      ∃ ys rb, (Delay.new N : AudioRingBuffer S).processSeq xs = some (ys, rb) ∧
        ys.length = xs.length ∧ ∀ n, n < N → n < xs.length → ys[n]? = some 0) := by
  rw [new_zero_eq]
  refine ⟨by simp [AudioRingBuffer.new], ?_, rfl, by simp [AudioRingBuffer.new],
    by simp [AudioRingBuffer.new, get_size], ?_⟩
  · intro i hi
    simp [AudioRingBuffer.new, List.getElem?_replicate, hi]
  · intro xs hN
    obtain ⟨ys, rb, w2, hs, _, hag, hlen, hval⟩ :=
      processSeq_tracks xs N N _ _ (by omega) (Nat.le_refl N) (tracks_new_zero (S := S) N)
    refine ⟨ys, rb, hs, hlen, ?_⟩
    intro n hn hx
    have e : N + n - N = n := by omega
    rw [(hval n hx).2, e, hag n hn]

/-- C16, at an instance: a delay of three cells fed five samples. -/
theorem delay_binding_construction_witness :
    (Delay.new 3 : AudioRingBuffer Int).buffer.length = 3 ∧
    (∀ i, i < 3 → (Delay.new 3 : AudioRingBuffer Int).buffer[i]? = some 0) ∧
    (Delay.new 3 : AudioRingBuffer Int).write_index = 0 ∧
    (Delay.new 3 : AudioRingBuffer Int).length = 3 ∧
    (Delay.new 3 : AudioRingBuffer Int).get_size = 3 ∧
    (∃ ys rb, (Delay.new 3 : AudioRingBuffer Int).processSeq [4, 5, 6, 7, 8] = some (ys, rb) ∧
        ys.length = [(4 : Int), 5, 6, 7, 8].length ∧
        ∀ n, n < 3 → n < [(4 : Int), 5, 6, 7, 8].length → ys[n]? = some 0) :=
  have h := delay_binding_construction (S := Int) 3
  ⟨h.1, h.2.1, h.2.2.1, h.2.2.2.1, h.2.2.2.2.1, h.2.2.2.2.2 [4, 5, 6, 7, 8] (by decide)⟩

end AudioRingBuffer

/-! ## Interpolated reads -/

section Interpolation

theorem float_to_int_eq {K : Type} [LinearOrderedField K] [FloorRing K] (x : K) (z : Int) (h0 : 0 ≤ x) (h1 : (z : K) ≤ x) (h2 : x < z + 1) :
    float_to_int x = z := by
  simp only [float_to_int, h0, if_true]
  exact Int.floor_eq_iff.mpr ⟨h1, h2⟩

theorem float_to_int_eq_neg {K : Type} [LinearOrderedField K] [FloorRing K] (x : K)
    (z : Int) (h0 : x < 0) (h1 : (z : K) - 1 < x) (h2 : x ≤ z) : float_to_int x = z := by
  have : ¬ 0 ≤ x := not_le.mpr h0
  simp only [float_to_int, this, if_false]
  exact Int.ceil_eq_iff.mpr ⟨h1, h2⟩

theorem float_to_int_intCast {K : Type} [LinearOrderedField K] [FloorRing K] (z : Int) :
    float_to_int (z : K) = z := by
  unfold float_to_int
  split
  · exact Int.floor_intCast z
  · exact Int.ceil_intCast z

theorem float_to_int_bounds {K : Type} [LinearOrderedField K] [FloorRing K] (x : K)
    (lo hi : Int) (h1 : (lo : K) ≤ x) (h2 : x ≤ (hi : K)) :
    lo ≤ float_to_int x ∧ float_to_int x ≤ hi := by
  unfold float_to_int
  split
  · refine ⟨Int.le_floor.mpr h1, ?_⟩
    have h3 : ((⌊x⌋ : Int) : K) ≤ (hi : K) := le_trans (Int.floor_le x) h2
    exact_mod_cast h3
  · refine ⟨?_, Int.ceil_le.mpr h2⟩
    have h3 : (lo : K) ≤ ((⌈x⌉ : Int) : K) := le_trans h1 (Int.le_ceil x)
    exact_mod_cast h3

theorem wrap_cases (i : Int) (n : Nat) :
    wrap i 0 n = if i < 0 then i + n else if i < n then i else i - n := by
  unfold wrap
  by_cases h : i < 0
  · have : ¬ i ≥ 0 := by omega
    simp [h, this]
  · have : i ≥ 0 := by omega
    simp [h, this]

theorem wrap_eq_emod (i : Int) (n : Nat) (hlo : -(n : Int) ≤ i) (hhi : i < 2 * (n : Int)) :
    wrap i 0 n = i % (n : Int) := by
  rw [wrap_cases]
  have hn : 0 < (n : Int) := by omega
  split
  · next h =>
    rw [← Int.add_emod_self, Int.emod_eq_of_lt (by omega) (by omega)]
  · split
    · next h1 h2 => rw [Int.emod_eq_of_lt (by omega) h2]
    · next h1 h2 =>
      have e : i % (n : Int) = (i - n + 1 * n) % (n : Int) := by
        congr 1; omega
      rw [e, Int.add_mul_emod_self, Int.emod_eq_of_lt (by omega) (by omega)]

theorem wrap_safe_inside (i : Int) (n : Nat) (h0 : 0 ≤ i) (h1 : i < n) :
    wrap_safe i 0 n = i := by
  unfold wrap_safe
  have : ¬ i < 0 := by omega
  simp only [this, if_false, Int.sub_zero, Int.zero_add]
  exact Int.tmod_eq_of_lt h0 h1

theorem index_inside {S : Type} (buf : List S) (i : Int) (h0 : 0 ≤ i) (h1 : i < buf.length) :
    ∃ a, buf[i.toNat]? = some a ∧ BufferInterface.index buf i = some a := by
  have hlt : i.toNat < buf.length := by omega
  have : ¬ i < 0 := by omega
  exact ⟨buf.get ⟨i.toNat, hlt⟩, by simp [List.getElem?_eq_getElem hlt],
    by simp [BufferInterface.index, this, List.getElem?_eq_getElem hlt]⟩

theorem index_outside {S : Type} (buf : List S) (i : Int) (h : i < 0 ∨ (buf.length : Int) ≤ i) :
    BufferInterface.index buf i = none := by
  unfold BufferInterface.index
  split
  · rfl
  · next h0 =>
    have : buf.length ≤ i.toNat := by omega
    exact List.getElem?_eq_none this

theorem interpolate_4_wrap_cells {K : Type} [Field K] (buf : List K) (i : Int) (f : K)
    (hlo : -(buf.length : Int) ≤ i - 1) (hhi : i + 2 < 2 * (buf.length : Int)) :
    ∃ a b c d,
      buf[((i - 1) % (buf.length : Int)).toNat]? = some a ∧
      buf[(i % (buf.length : Int)).toNat]? = some b ∧
      buf[((i + 1) % (buf.length : Int)).toNat]? = some c ∧
      buf[((i + 2) % (buf.length : Int)).toNat]? = some d ∧
      interpolate_4_wrap buf i f = some (interpolate_4 f a b c d) := by
  have hn : 0 < (buf.length : Int) := by omega
  have cell : ∀ j : Int, -(buf.length : Int) ≤ j → j < 2 * (buf.length : Int) →
      ∃ a, buf[(j % (buf.length : Int)).toNat]? = some a ∧
        BufferInterface.index buf (wrap j 0 buf.length) = some a := by
    intro j h1 h2
    rw [wrap_eq_emod j buf.length h1 h2]
    exact index_inside buf _ (Int.emod_nonneg j (by omega)) (Int.emod_lt_of_pos j hn)
  obtain ⟨a, ha, ea⟩ := cell (i - 1) hlo (by omega)
  obtain ⟨b, hb, eb⟩ := cell i (by omega) (by omega)
  obtain ⟨c, hc, ec⟩ := cell (i + 1) (by omega) (by omega)
  obtain ⟨d, hd, ed⟩ := cell (i + 2) (by omega) hhi
  exact ⟨a, b, c, d, ha, hb, hc, hd, by simp only [interpolate_4_wrap, ea, eb, ec, ed]⟩

theorem interpolate_4_inside {K : Type} [Field K] (buf : List K) (i : Int) (f : K)
    (hlo : 1 ≤ i) (hhi : i + 2 < (buf.length : Int)) :
    ∃ a b c d,
      buf[(i - 1).toNat]? = some a ∧ buf[i.toNat]? = some b ∧
      buf[(i + 1).toNat]? = some c ∧ buf[(i + 2).toNat]? = some d ∧
      interpolate_4_safe buf i f = some (interpolate_4 f a b c d) ∧
      interpolate_4_wrap buf i f = some (interpolate_4 f a b c d) ∧
      interpolate_4_buffer buf i f = some (interpolate_4 f a b c d) := by
  obtain ⟨a, ha, ea⟩ := index_inside buf (i - 1) (by omega) (by omega)
  obtain ⟨b, hb, eb⟩ := index_inside buf i (by omega) (by omega)
  obtain ⟨c, hc, ec⟩ := index_inside buf (i + 1) (by omega) (by omega)
  obtain ⟨d, hd, ed⟩ := index_inside buf (i + 2) (by omega) (by omega)
  have w : ∀ j : Int, 0 ≤ j → j < (buf.length : Int) → wrap j 0 buf.length = j := by
    intro j h0 h1
    have : ¬ j < 0 := by omega
    simp [wrap_cases, this, h1]
  refine ⟨a, b, c, d, ha, hb, hc, hd, ?_, ?_, ?_⟩
  · simp only [interpolate_4_safe, wrap_safe_inside (i - 1) buf.length (by omega) (by omega),
      wrap_safe_inside i buf.length (by omega) (by omega),
      wrap_safe_inside (i + 1) buf.length (by omega) (by omega),
      wrap_safe_inside (i + 2) buf.length (by omega) (by omega), ea, eb, ec, ed]
  · simp only [interpolate_4_wrap, w (i - 1) (by omega) (by omega),
      w i (by omega) (by omega), w (i + 1) (by omega) (by omega),
      w (i + 2) (by omega) (by omega), ea, eb, ec, ed]
  · simp only [interpolate_4_buffer, ea, eb, ec, ed]

end Interpolation

namespace AudioRingBuffer

/-- C12, refuted as stated: in a full ring of eight cells with write index `0`, the
offset `3` lies strictly inside `[2, 6]`, the read position is `0 - 3 = -3`, and
`read_offset_smooth_raw` designates cell `-4`, outside the view, while the wrap
and safe policies read cells `4, 5, 6, 7` and return the sample of cell `5`. -/
theorem boundary_policies_differ :
    (AudioRingBuffer.mk [(10 : ℚ), 11, 12, 13, 14, 15, 16, 17] 0 8).read_offset_smooth_raw 3
      = none ∧
    (AudioRingBuffer.mk [(10 : ℚ), 11, 12, 13, 14, 15, 16, 17] 0 8).read_offset_smooth_wrap 3
      = some 15 ∧
    (AudioRingBuffer.mk [(10 : ℚ), 11, 12, 13, 14, 15, 16, 17] 0 8).read_offset_smooth_safe 3
      = some 15 := by
  have e : float_to_int (-3 : ℚ) = -3 := by
    have h := float_to_int_intCast (K := ℚ) (-3)
    norm_num at h ⊢
    exact h
  have w1 : wrap (-3 - 1) 0 (8 : Nat) = 4 := by decide
  have w2 : wrap (-3) 0 (8 : Nat) = 5 := by decide
  have w3 : wrap (-3 + 1) 0 (8 : Nat) = 6 := by decide
  have w4 : wrap (-3 + 2) 0 (8 : Nat) = 7 := by decide
  have s1 : wrap_safe (-3 - 1) 0 (8 : Nat) = 4 := by decide
  have s2 : wrap_safe (-3) 0 (8 : Nat) = 5 := by decide
  have s3 : wrap_safe (-3 + 1) 0 (8 : Nat) = 6 := by decide
  have s4 : wrap_safe (-3 + 2) 0 (8 : Nat) = 7 := by decide
  have c0 : BufferInterface.index [(10 : ℚ), 11, 12, 13, 14, 15, 16, 17] (-3 - 1) = none := rfl
  have c4 : BufferInterface.index [(10 : ℚ), 11, 12, 13, 14, 15, 16, 17] 4 = some 14 := rfl
  have c5 : BufferInterface.index [(10 : ℚ), 11, 12, 13, 14, 15, 16, 17] 5 = some 15 := rfl
  have c6 : BufferInterface.index [(10 : ℚ), 11, 12, 13, 14, 15, 16, 17] 6 = some 16 := rfl
  have c7 : BufferInterface.index [(10 : ℚ), 11, 12, 13, 14, 15, 16, 17] 7 = some 17 := rfl
  refine ⟨?_, ?_, ?_⟩
  · simp only [read_offset_smooth_raw, Nat.cast_zero, zero_sub, e, interpolate_4_buffer, c0]
  · simp only [read_offset_smooth_wrap, Nat.cast_zero, zero_sub, e, interpolate_4_wrap,
      List.length_cons, List.length_nil, w1, w2, w3, w4, c4, c5, c6, c7]
    norm_num [interpolate_4]
  · simp only [read_offset_smooth_safe, Nat.cast_zero, zero_sub, e, interpolate_4_safe,
      List.length_cons, List.length_nil, s1, s2, s3, s4, c4, c5, c6, c7]
    norm_num [interpolate_4]

/-- C12, amended. For every ring-buffer state with `write_index < logical_length`
and `logical_length = capacity`, and every fractional offset strictly inside
`[2, logical_length - 2]` that is at most `write_index - 1` (so that the read
position `write_index - offset` is at least `1`), `read_offset_smooth_safe`,
`read_offset_smooth_wrap` and `read_offset_smooth_raw` return identical results:
the 4-point interpolation of the cells around the read position. -/
theorem boundary_policies_agree {K : Type} [LinearOrderedField K] [FloorRing K]
    (rb : AudioRingBuffer K) (offset : K)
    (hwi : rb.write_index < rb.length) (hcap : rb.length = rb.buffer.length)
    (h2 : 2 < offset) (hL : offset < (rb.length : K) - 2)
    (hpos : offset ≤ (rb.write_index : K) - 1) :
    ∃ v, rb.read_offset_smooth_safe offset = some v ∧
      rb.read_offset_smooth_wrap offset = some v ∧
      rb.read_offset_smooth_raw offset = some v ∧
      ∃ a b c d,
        rb.buffer[(float_to_int ((rb.write_index : K) - offset) - 1).toNat]? = some a ∧
        rb.buffer[(float_to_int ((rb.write_index : K) - offset)).toNat]? = some b ∧
        rb.buffer[(float_to_int ((rb.write_index : K) - offset) + 1).toNat]? = some c ∧
        rb.buffer[(float_to_int ((rb.write_index : K) - offset) + 2).toNat]? = some d ∧
        v = interpolate_4 ((rb.write_index : K) - offset
              - (float_to_int ((rb.write_index : K) - offset) : K)) a b c d := by
  have _ := hL
  have hx1 : (1 : K) ≤ (rb.write_index : K) - offset := by linarith
  have hx0 : (0 : K) ≤ (rb.write_index : K) - offset := by linarith
  have hi : float_to_int ((rb.write_index : K) - offset)
      = ⌊(rb.write_index : K) - offset⌋ := by
    simp only [float_to_int, hx0, if_true]
  have hlo : 1 ≤ float_to_int ((rb.write_index : K) - offset) := by
    rw [hi]; exact Int.le_floor.mpr (by simpa using hx1)
  have hhi : float_to_int ((rb.write_index : K) - offset) + 2 < (rb.buffer.length : Int) := by
    have h3 : float_to_int ((rb.write_index : K) - offset) < (rb.write_index : Int) - 2 := by
      rw [hi]
      apply Int.floor_lt.mpr
      push_cast
      linarith
    omega
  obtain ⟨a, b, c, d, ha, hb, hc, hd, e1, e2, e3⟩ :=
    interpolate_4_inside rb.buffer _ ((rb.write_index : K) - offset
      - (float_to_int ((rb.write_index : K) - offset) : K)) hlo hhi
  exact ⟨_, e1, e2, e3, a, b, c, d, ha, hb, hc, hd, rfl⟩

/-- C12 amended, at an instance: a full ring of eight cells with write index `6`
and offset `5/2`. -/
theorem boundary_policies_agree_witness :
    ∃ v, (AudioRingBuffer.mk [(10 : ℚ), 11, 12, 13, 14, 15, 16, 17] 6 8).read_offset_smooth_safe
        (5 / 2) = some v ∧
      (AudioRingBuffer.mk [(10 : ℚ), 11, 12, 13, 14, 15, 16, 17] 6 8).read_offset_smooth_wrap
        (5 / 2) = some v ∧
      (AudioRingBuffer.mk [(10 : ℚ), 11, 12, 13, 14, 15, 16, 17] 6 8).read_offset_smooth_raw
        (5 / 2) = some v ∧
      ∃ a b c d,
        [(10 : ℚ), 11, 12, 13, 14, 15, 16, 17][(float_to_int (((6 : Nat) : ℚ) - 5 / 2)
          - 1).toNat]? = some a ∧
        [(10 : ℚ), 11, 12, 13, 14, 15, 16, 17][(float_to_int (((6 : Nat) : ℚ)
          - 5 / 2)).toNat]? = some b ∧
        [(10 : ℚ), 11, 12, 13, 14, 15, 16, 17][(float_to_int (((6 : Nat) : ℚ) - 5 / 2)
          + 1).toNat]? = some c ∧
        [(10 : ℚ), 11, 12, 13, 14, 15, 16, 17][(float_to_int (((6 : Nat) : ℚ) - 5 / 2)
          + 2).toNat]? = some d ∧
        v = interpolate_4 (((6 : Nat) : ℚ) - 5 / 2
              - (float_to_int (((6 : Nat) : ℚ) - 5 / 2) : ℚ)) a b c d :=
  boundary_policies_agree (AudioRingBuffer.mk [(10 : ℚ), 11, 12, 13, 14, 15, 16, 17] 6 8)
    (5 / 2) (by decide) (by decide) (by norm_num) (by norm_num) (by norm_num)

/-- C13, refuted as stated.  In a view of eight cells whose logical length was set
to `4`, the position `5/2` is inside `[0, length - 1]` (clamping it changes
nothing) and `read_at_smooth_wrap(5/2)` takes its neighbors `1, 2, 3, 4` from
cells `1, 2, 3, 4`: the neighbor `4` is cell `4`, not cell `4 mod 4 = 0`.
Likewise the offset `5/2` is inside `[2, length - 1]` and
`read_offset_smooth_wrap(5/2)` with the write index at `0` takes its neighbors
`-3, -2, -1, 0` from cells `5, 6, 7, 0` (modulo the capacity `8`), not from
cells `1, 2, 3, 0`. -/
theorem wrap_policy_not_modulo_length :
    ((AudioRingBuffer.new [(10 : ℚ), 11, 12, 13, 14, 15, 16, 17]).set_length 4).length = 4 ∧
    ((AudioRingBuffer.new [(10 : ℚ), 11, 12, 13, 14, 15, 16, 17]).set_length 4).write_index
      = 0 ∧
    idsp.clamp (5 / 2 : ℚ) 0 (4 - 1) = 5 / 2 ∧
    idsp.clamp (5 / 2 : ℚ) 2 (4 - 1) = 5 / 2 ∧
    ((AudioRingBuffer.new [(10 : ℚ), 11, 12, 13, 14, 15, 16, 17]).set_length 4).read_at_smooth_wrap
      (5 / 2) = some (interpolate_4 (1 / 2) 11 12 13 14) ∧
    [(10 : ℚ), 11, 12, 13, 14, 15, 16, 17][(((2 : Int) + 2) % 4).toNat]? = some 10 ∧
    interpolate_4 (1 / 2 : ℚ) 11 12 13 14 ≠ interpolate_4 (1 / 2 : ℚ) 11 12 13 10 ∧
    ((AudioRingBuffer.new [(10 : ℚ), 11, 12, 13, 14, 15, 16, 17]).set_length
      4).read_offset_smooth_wrap (5 / 2) = some (interpolate_4 (-1 / 2) 15 16 17 10) ∧
    [(10 : ℚ), 11, 12, 13, 14, 15, 16, 17][(((-2 : Int) - 1) % 4).toNat]? = some 11 ∧
    interpolate_4 (-1 / 2 : ℚ) 15 16 17 10 ≠ interpolate_4 (-1 / 2 : ℚ) 11 12 13 10 := by
  have e : float_to_int (5 / 2 : ℚ) = 2 :=
    float_to_int_eq _ 2 (by norm_num) (by norm_num) (by norm_num)
  have en : float_to_int (-(5 / 2) : ℚ) = -2 :=
    float_to_int_eq_neg _ (-2) (by norm_num) (by norm_num) (by norm_num)
  have w1 : wrap (2 - 1) 0 (8 : Nat) = 1 := by decide
  have w2 : wrap 2 0 (8 : Nat) = 2 := by decide
  have w3 : wrap (2 + 1) 0 (8 : Nat) = 3 := by decide
  have w4 : wrap (2 + 2) 0 (8 : Nat) = 4 := by decide
  have v1 : wrap (-2 - 1) 0 (8 : Nat) = 5 := by decide
  have v2 : wrap (-2) 0 (8 : Nat) = 6 := by decide
  have v3 : wrap (-2 + 1) 0 (8 : Nat) = 7 := by decide
  have v4 : wrap (-2 + 2) 0 (8 : Nat) = 0 := by decide
  have c0 : BufferInterface.index [(10 : ℚ), 11, 12, 13, 14, 15, 16, 17] 0 = some 10 := rfl
  have c1 : BufferInterface.index [(10 : ℚ), 11, 12, 13, 14, 15, 16, 17] 1 = some 11 := rfl
  have c2 : BufferInterface.index [(10 : ℚ), 11, 12, 13, 14, 15, 16, 17] 2 = some 12 := rfl
  have c3 : BufferInterface.index [(10 : ℚ), 11, 12, 13, 14, 15, 16, 17] 3 = some 13 := rfl
  have c4 : BufferInterface.index [(10 : ℚ), 11, 12, 13, 14, 15, 16, 17] 4 = some 14 := rfl
  have c5 : BufferInterface.index [(10 : ℚ), 11, 12, 13, 14, 15, 16, 17] 5 = some 15 := rfl
  have c6 : BufferInterface.index [(10 : ℚ), 11, 12, 13, 14, 15, 16, 17] 6 = some 16 := rfl
  have c7 : BufferInterface.index [(10 : ℚ), 11, 12, 13, 14, 15, 16, 17] 7 = some 17 := rfl
  refine ⟨rfl, rfl, ?_, ?_, ?_, rfl, ?_, ?_, rfl, ?_⟩
  · norm_num [idsp.clamp, idsp.min, idsp.max]
  · norm_num [idsp.clamp, idsp.min, idsp.max]
  · simp only [read_at_smooth_wrap, set_length, AudioRingBuffer.new, e, interpolate_4_wrap,
      List.length_cons, List.length_nil, w1, w2, w3, w4, c1, c2, c3, c4]
    norm_num
  · norm_num [interpolate_4]
  · simp only [read_offset_smooth_wrap, set_length, AudioRingBuffer.new, Nat.cast_zero,
      zero_sub, en, interpolate_4_wrap, List.length_cons, List.length_nil, v1, v2, v3, v4,
      c5, c6, c7, c0]
    norm_num
  · norm_num [interpolate_4]

/-- C13, amended.  With `write_index < logical_length <= capacity` and a view of at
least two cells, in `read_at_smooth_wrap` for every position in
`[0, logical_length - 1]` and in `read_offset_smooth_wrap` for every offset in
`[2, logical_length - 1]`, each of the four neighbor indices `i - 1 .. i + 2` is
resolved to the cell `index mod capacity`, and the result is the interpolation of
those four cells: circular indexing over the size of the view.  It is indexing
modulo the logical length when the logical length is the capacity. -/
theorem wrap_policy_modulo_capacity {K : Type} [LinearOrderedField K] [FloorRing K]
    (rb : AudioRingBuffer K) (pos offset : K)
    (hw : rb.write_index < rb.length) (hl : rb.length ≤ rb.buffer.length)
    (hc : 2 ≤ rb.buffer.length)
    (hp0 : 0 ≤ pos) (hp1 : pos ≤ (rb.length : K) - 1)
    (ho2 : 2 ≤ offset) (ho1 : offset ≤ (rb.length : K) - 1) :
    (∀ k : Int, -1 ≤ k → k ≤ 2 →
      wrap (float_to_int pos + k) 0 rb.buffer.length
        = (float_to_int pos + k) % (rb.buffer.length : Int) ∧
      (rb.length = rb.buffer.length →
        wrap (float_to_int pos + k) 0 rb.buffer.length
          = (float_to_int pos + k) % (rb.length : Int))) ∧
    (∃ a b c d,
      rb.buffer[((float_to_int pos - 1) % (rb.buffer.length : Int)).toNat]? = some a ∧
      rb.buffer[(float_to_int pos % (rb.buffer.length : Int)).toNat]? = some b ∧
      rb.buffer[((float_to_int pos + 1) % (rb.buffer.length : Int)).toNat]? = some c ∧
      rb.buffer[((float_to_int pos + 2) % (rb.buffer.length : Int)).toNat]? = some d ∧
      rb.read_at_smooth_wrap pos
        = some (interpolate_4 (pos - (float_to_int pos : K)) a b c d)) ∧
    (∀ k : Int, -1 ≤ k → k ≤ 2 →
      wrap (float_to_int ((rb.write_index : K) - offset) + k) 0 rb.buffer.length
        = (float_to_int ((rb.write_index : K) - offset) + k) % (rb.buffer.length : Int) ∧
      (rb.length = rb.buffer.length →
        wrap (float_to_int ((rb.write_index : K) - offset) + k) 0 rb.buffer.length
          = (float_to_int ((rb.write_index : K) - offset) + k) % (rb.length : Int))) ∧
    (∃ a b c d,
      rb.buffer[((float_to_int ((rb.write_index : K) - offset) - 1)
        % (rb.buffer.length : Int)).toNat]? = some a ∧
      rb.buffer[(float_to_int ((rb.write_index : K) - offset)
        % (rb.buffer.length : Int)).toNat]? = some b ∧
      rb.buffer[((float_to_int ((rb.write_index : K) - offset) + 1)
        % (rb.buffer.length : Int)).toNat]? = some c ∧
      rb.buffer[((float_to_int ((rb.write_index : K) - offset) + 2)
        % (rb.buffer.length : Int)).toNat]? = some d ∧
      rb.read_offset_smooth_wrap offset
        = some (interpolate_4 ((rb.write_index : K) - offset
            - (float_to_int ((rb.write_index : K) - offset) : K)) a b c d)) := by
  have hw1 : (rb.write_index : K) + 1 ≤ (rb.length : K) := by exact_mod_cast hw
  have hw0 : (0 : K) ≤ (rb.write_index : K) := Nat.cast_nonneg _
  obtain ⟨p1, p2⟩ := float_to_int_bounds pos 0 ((rb.length : Int) - 1)
    (by push_cast; linarith) (by push_cast; linarith)
  obtain ⟨t1, t2⟩ := float_to_int_bounds ((rb.write_index : K) - offset)
    (-(rb.length : Int) + 1) ((rb.length : Int) - 3)
    (by push_cast; linarith) (by push_cast; linarith)
  refine ⟨?_, ?_, ?_, ?_⟩
  · intro k k1 k2
    have e := wrap_eq_emod (float_to_int pos + k) rb.buffer.length (by omega) (by omega)
    refine ⟨e, ?_⟩
    intro hcap
    rw [e, hcap]
  · exact interpolate_4_wrap_cells rb.buffer (float_to_int pos) _ (by omega) (by omega)
  · intro k k1 k2
    have e := wrap_eq_emod (float_to_int ((rb.write_index : K) - offset) + k)
      rb.buffer.length (by omega) (by omega)
    refine ⟨e, ?_⟩
    intro hcap
    rw [e, hcap]
  · exact interpolate_4_wrap_cells rb.buffer _ _ (by omega) (by omega)

/-- C13 amended, at an instance: a view of eight cells with logical length `4` and
the write index at `0`, the position `5/2` (neighbors `1, 2, 3, 4`) and the offset
`5/2` (read position `-5/2`, neighbors `-3, -2, -1, 0`). -/
theorem wrap_policy_modulo_capacity_witness :
    (∀ k : Int, -1 ≤ k → k ≤ 2 →
      wrap (float_to_int (5 / 2 : ℚ) + k) 0
          (AudioRingBuffer.mk [(10 : ℚ), 11, 12, 13, 14, 15, 16, 17] 0 4).buffer.length
        = (float_to_int (5 / 2 : ℚ) + k)
          % ((AudioRingBuffer.mk [(10 : ℚ), 11, 12, 13, 14, 15, 16, 17] 0 4).buffer.length : Int) ∧
      ((AudioRingBuffer.mk [(10 : ℚ), 11, 12, 13, 14, 15, 16, 17] 0 4).length
          = (AudioRingBuffer.mk [(10 : ℚ), 11, 12, 13, 14, 15, 16, 17] 0 4).buffer.length →
        wrap (float_to_int (5 / 2 : ℚ) + k) 0
            (AudioRingBuffer.mk [(10 : ℚ), 11, 12, 13, 14, 15, 16, 17] 0 4).buffer.length
          = (float_to_int (5 / 2 : ℚ) + k)
            % ((AudioRingBuffer.mk [(10 : ℚ), 11, 12, 13, 14, 15, 16, 17] 0 4).length : Int))) ∧
    (∃ a b c d,
      (AudioRingBuffer.mk [(10 : ℚ), 11, 12, 13, 14, 15, 16, 17] 0 4).buffer[
        ((float_to_int (5 / 2 : ℚ) - 1)
          % ((AudioRingBuffer.mk [(10 : ℚ), 11, 12, 13, 14, 15, 16, 17] 0 4).buffer.length
              : Int)).toNat]? = some a ∧
      (AudioRingBuffer.mk [(10 : ℚ), 11, 12, 13, 14, 15, 16, 17] 0 4).buffer[
        (float_to_int (5 / 2 : ℚ)
          % ((AudioRingBuffer.mk [(10 : ℚ), 11, 12, 13, 14, 15, 16, 17] 0 4).buffer.length
              : Int)).toNat]? = some b ∧
      (AudioRingBuffer.mk [(10 : ℚ), 11, 12, 13, 14, 15, 16, 17] 0 4).buffer[
        ((float_to_int (5 / 2 : ℚ) + 1)
          % ((AudioRingBuffer.mk [(10 : ℚ), 11, 12, 13, 14, 15, 16, 17] 0 4).buffer.length
              : Int)).toNat]? = some c ∧
      (AudioRingBuffer.mk [(10 : ℚ), 11, 12, 13, 14, 15, 16, 17] 0 4).buffer[
        ((float_to_int (5 / 2 : ℚ) + 2)
          % ((AudioRingBuffer.mk [(10 : ℚ), 11, 12, 13, 14, 15, 16, 17] 0 4).buffer.length
              : Int)).toNat]? = some d ∧
      (AudioRingBuffer.mk [(10 : ℚ), 11, 12, 13, 14, 15, 16, 17] 0 4).read_at_smooth_wrap (5 / 2)
        = some (interpolate_4 (5 / 2 - (float_to_int (5 / 2 : ℚ) : ℚ)) a b c d)) ∧
    (∀ k : Int, -1 ≤ k → k ≤ 2 →
      wrap (float_to_int
          (((AudioRingBuffer.mk [(10 : ℚ), 11, 12, 13, 14, 15, 16, 17] 0 4).write_index : ℚ)
            - 5 / 2) + k) 0
          (AudioRingBuffer.mk [(10 : ℚ), 11, 12, 13, 14, 15, 16, 17] 0 4).buffer.length
        = (float_to_int
          (((AudioRingBuffer.mk [(10 : ℚ), 11, 12, 13, 14, 15, 16, 17] 0 4).write_index : ℚ)
            - 5 / 2) + k)
          % ((AudioRingBuffer.mk [(10 : ℚ), 11, 12, 13, 14, 15, 16, 17] 0 4).buffer.length : Int) ∧
      ((AudioRingBuffer.mk [(10 : ℚ), 11, 12, 13, 14, 15, 16, 17] 0 4).length
          = (AudioRingBuffer.mk [(10 : ℚ), 11, 12, 13, 14, 15, 16, 17] 0 4).buffer.length →
        wrap (float_to_int
            (((AudioRingBuffer.mk [(10 : ℚ), 11, 12, 13, 14, 15, 16, 17] 0 4).write_index : ℚ)
              - 5 / 2) + k) 0
            (AudioRingBuffer.mk [(10 : ℚ), 11, 12, 13, 14, 15, 16, 17] 0 4).buffer.length
          = (float_to_int
            (((AudioRingBuffer.mk [(10 : ℚ), 11, 12, 13, 14, 15, 16, 17] 0 4).write_index : ℚ)
              - 5 / 2) + k)
            % ((AudioRingBuffer.mk [(10 : ℚ), 11, 12, 13, 14, 15, 16, 17] 0 4).length : Int))) ∧
    (∃ a b c d,
      (AudioRingBuffer.mk [(10 : ℚ), 11, 12, 13, 14, 15, 16, 17] 0 4).buffer[
        ((float_to_int
          (((AudioRingBuffer.mk [(10 : ℚ), 11, 12, 13, 14, 15, 16, 17] 0 4).write_index : ℚ)
            - 5 / 2) - 1)
          % ((AudioRingBuffer.mk [(10 : ℚ), 11, 12, 13, 14, 15, 16, 17] 0 4).buffer.length
              : Int)).toNat]? = some a ∧
      (AudioRingBuffer.mk [(10 : ℚ), 11, 12, 13, 14, 15, 16, 17] 0 4).buffer[
        (float_to_int
          (((AudioRingBuffer.mk [(10 : ℚ), 11, 12, 13, 14, 15, 16, 17] 0 4).write_index : ℚ)
            - 5 / 2)
          % ((AudioRingBuffer.mk [(10 : ℚ), 11, 12, 13, 14, 15, 16, 17] 0 4).buffer.length
              : Int)).toNat]? = some b ∧
      (AudioRingBuffer.mk [(10 : ℚ), 11, 12, 13, 14, 15, 16, 17] 0 4).buffer[
        ((float_to_int
          (((AudioRingBuffer.mk [(10 : ℚ), 11, 12, 13, 14, 15, 16, 17] 0 4).write_index : ℚ)
            - 5 / 2) + 1)
          % ((AudioRingBuffer.mk [(10 : ℚ), 11, 12, 13, 14, 15, 16, 17] 0 4).buffer.length
              : Int)).toNat]? = some c ∧
      (AudioRingBuffer.mk [(10 : ℚ), 11, 12, 13, 14, 15, 16, 17] 0 4).buffer[
        ((float_to_int
          (((AudioRingBuffer.mk [(10 : ℚ), 11, 12, 13, 14, 15, 16, 17] 0 4).write_index : ℚ)
            - 5 / 2) + 2)
          % ((AudioRingBuffer.mk [(10 : ℚ), 11, 12, 13, 14, 15, 16, 17] 0 4).buffer.length
              : Int)).toNat]? = some d ∧
      (AudioRingBuffer.mk [(10 : ℚ), 11, 12, 13, 14, 15, 16, 17] 0 4).read_offset_smooth_wrap
          (5 / 2)
        = some (interpolate_4
            (((AudioRingBuffer.mk [(10 : ℚ), 11, 12, 13, 14, 15, 16, 17] 0 4).write_index : ℚ)
              - 5 / 2
            - (float_to_int
                (((AudioRingBuffer.mk [(10 : ℚ), 11, 12, 13, 14, 15, 16, 17] 0 4).write_index : ℚ)
                  - 5 / 2) : ℚ)) a b c d)) :=
  wrap_policy_modulo_capacity (AudioRingBuffer.mk [(10 : ℚ), 11, 12, 13, 14, 15, 16, 17] 0 4)
    (5 / 2) (5 / 2) (by decide) (by decide) (by decide) (by norm_num) (by norm_num)
    (by norm_num) (by norm_num)

end AudioRingBuffer

/-! ## Block processing -/

namespace AllpassProcessor

open AudioRingBuffer

variable {S : Type}

theorem set_at_length_append (pre : List S) (m y : S) (rest : List S) :
    (pre ++ m :: rest).set pre.length y = pre ++ y :: rest := by
  induction pre with
  | nil => rfl
  | cons p pre ih => simp [ih]

theorem processSeq_total [Add S] [Mul S] [Neg S] (ap : AllpassProcessor S) (xs : List S)
    (h : ap.delay.WellFormed) :
    ∃ ys ap1, ap.processSeq xs = some (ys, ap1) ∧ ys.length = xs.length := by
  obtain ⟨w, hw⟩ := tracks_of_wellFormed ap.delay h
  obtain ⟨ys, ap1, _, hs, _, _, _, hlen, _⟩ :=
    allpass_processSeq_tracks xs ap.delay.length _ w ap (by have := h.1; omega) (by omega) hw
  exact ⟨ys, ap1, hs, hlen⟩

theorem process_loop_eq [Add S] [Mul S] [Neg S] (xs : List S) :
    ∀ (ap ap1 : AllpassProcessor S) (ys pre mid post : List S),
      ap.processSeq xs = some (ys, ap1) → mid.length = xs.length →
      ap.process_loop xs pre.length (pre ++ mid ++ post) = some (pre ++ ys ++ post, ap1) := by
  induction xs with
  | nil =>
    intro ap ap1 ys pre mid post hs hm
    have hmid : mid = [] := List.length_eq_zero.mp hm
    simp only [processSeq, Option.some.injEq, Prod.mk.injEq] at hs
    obtain ⟨rfl, rfl⟩ := hs
    simp [process_loop, hmid]
  | cons x xs ih =>
    intro ap ap1 ys pre mid post hs hm
    cases mid with
    | nil => simp at hm
    | cons m mid =>
      simp only [processSeq, process] at hs
      cases hp : ap._process_sample x with
      | none => simp [hp] at hs
      | some r =>
        obtain ⟨y, ap2⟩ := r
        simp only [hp] at hs
        cases hq : ap2.processSeq xs with
        | none => simp [hq] at hs
        | some r2 =>
          obtain ⟨ys2, ap3⟩ := r2
          simp only [hq, Option.some.injEq, Prod.mk.injEq] at hs
          obtain ⟨rfl, rfl⟩ := hs
          have hlt : pre.length < (pre ++ m :: mid ++ post).length := by simp
          have hset : (pre ++ m :: mid ++ post).set pre.length y
              = (pre ++ [y]) ++ mid ++ post := by
            have := set_at_length_append pre m y (mid ++ post)
            simp [this]
          have hrec := ih ap2 ap3 ys2 (pre ++ [y]) mid post hq (by simpa using hm)
          simp only [List.length_append, List.length_singleton] at hrec
          simp only [process_loop, hp, hlt, if_true, hset, hrec]
          simp

/-- C15, refuted as stated: with an input view of two samples and an output view
of one cell, `process(input, output)` does not stop after `min(2, 1) = 1` sample;
its loop runs to `input.size()` and stores the second result to `output[1]`,
outside the output view, whereas one per-sample step would have produced `-2`. -/
theorem block_process_overruns_output :
    ((AllpassProcessor.new [(0 : Int)] 1).set_gain 2).process_block [1, 2] [0] = none ∧
    (((AllpassProcessor.new [(0 : Int)] 1).set_gain 2).processSeq [1]).map Prod.fst
      = some [-2] := by
  decide

/-- C15, amended.  `AllpassProcessor::process(input, output)` processes exactly
`input.size()` samples: when the output view is at least as long as the input
view, it writes `output[i]` for the `i` below `input.size()` only, each equal to
the per-sample `process` result applied in order, and advances the filter state
by exactly that many steps. -/
theorem block_process_length [Add S] [Mul S] [Neg S] (ap : AllpassProcessor S)
    (input output : List S) (hwf : ap.delay.WellFormed)
    (hlen : input.length ≤ output.length) :
    ∃ ys ap1, ap.processSeq input = some (ys, ap1) ∧ ys.length = input.length ∧
      ap.process_block input output = some (ys ++ output.drop input.length, ap1) := by
  obtain ⟨ys, ap1, hs, hl⟩ := processSeq_total ap input hwf
  refine ⟨ys, ap1, hs, hl, ?_⟩
  have h := process_loop_eq input ap ap1 ys [] (output.take input.length)
    (output.drop input.length) hs (by simp [hlen])
  simpa [process_block] using h

/-- C15 amended, at an instance: three input samples into an output view of five
cells. -/
theorem block_process_length_witness :
    ∃ ys ap1,
      ((AllpassProcessor.new [(0 : Int), 0] 1).set_gain 2).processSeq [1, 2, 3]
        = some (ys, ap1) ∧
      ys.length = [(1 : Int), 2, 3].length ∧
      ((AllpassProcessor.new [(0 : Int), 0] 1).set_gain 2).process_block [1, 2, 3]
          [9, 9, 9, 9, 9]
        = some (ys ++ [(9 : Int), 9, 9, 9, 9].drop [(1 : Int), 2, 3].length, ap1) :=
  block_process_length ((AllpassProcessor.new [(0 : Int), 0] 1).set_gain 2) [1, 2, 3]
    [9, 9, 9, 9, 9] (by decide) (by decide)

end AllpassProcessor

/-! ## Modulated processors -/

namespace ModulatedAllpassProcessor

/-- C17, refuted as stated: with capacity `8`, `sample_depth = 20` and an oscillator
value of `1` the modulation is `20 ≥ 0`; the single fold leaves `13`, above
`capacity - 1 = 7`, and the offset passed to the read is `8 - 13 = -5`, below `1`. -/
theorem modulation_fold_exceeds :
    (0 : ℚ) ≤ 1 * (((ModulatedAllpassProcessor.new
        (List.replicate 8 (0 : ℚ))).set_sample_depth 20).sample_depth) ∧
    ((ModulatedAllpassProcessor.new (List.replicate 8 (0 : ℚ))).set_sample_depth 20).delay.get_size
      = 8 ∧
    ((ModulatedAllpassProcessor.new (List.replicate 8 (0 : ℚ))).set_sample_depth 20).modulation 1
      = 13 ∧
    ¬ ((ModulatedAllpassProcessor.new (List.replicate 8 (0 : ℚ))).set_sample_depth 20).modulation 1
      ≤ ((8 - 1 : Nat) : ℚ) ∧
    ¬ (1 : ℚ) ≤ ((8 : Nat) : ℚ)
      - ((ModulatedAllpassProcessor.new (List.replicate 8 (0 : ℚ))).set_sample_depth
          20).modulation 1 := by
  norm_num [ModulatedAllpassProcessor.new, set_sample_depth, modulation,
    AudioRingBuffer.new, AudioRingBuffer.get_size]

/-- C17, amended.  In `ModulatedAllpassProcessor::process`, for every modulation
value `m = lfo * sample_depth` with `0 ≤ m ≤ 2 * (capacity - 1)`, the value used
after the fold is at most `capacity - 1` (and not negative), so the read offset
`capacity - m` passed to `read_offset_smooth_wrap` stays within `[1, capacity]`. -/
theorem modulation_fold_bound {K : Type} [LinearOrderedField K] [FloorRing K]
    (mp : ModulatedAllpassProcessor K) (lfo_out input : K)
    (hcap : 1 ≤ mp.delay.get_size)
    (h0 : 0 ≤ lfo_out * mp.sample_depth)
    (h1 : lfo_out * mp.sample_depth ≤ 2 * ((mp.delay.get_size - 1 : Nat) : K)) :
    0 ≤ mp.modulation lfo_out ∧
    mp.modulation lfo_out ≤ ((mp.delay.get_size - 1 : Nat) : K) ∧
    1 ≤ (mp.delay.get_size : K) - mp.modulation lfo_out ∧
    (mp.delay.get_size : K) - mp.modulation lfo_out ≤ (mp.delay.get_size : K) ∧
    mp.process lfo_out input =
      (mp.delay.read_offset_smooth_wrap
          ((mp.delay.get_size : K) - mp.modulation lfo_out)).bind
        (fun wnD => (mp.delay.write (input + mp.gain * wnD)).map
          (fun d => ((-mp.gain) * (input + mp.gain * wnD) + wnD, { mp with delay := d }))) := by
  have hc : ((mp.delay.get_size - 1 : Nat) : K) = (mp.delay.get_size : K) - 1 := by
    rw [Nat.cast_sub hcap, Nat.cast_one]
  have hb : 0 ≤ mp.modulation lfo_out ∧
      mp.modulation lfo_out ≤ ((mp.delay.get_size - 1 : Nat) : K) := by
    simp only [modulation]
    by_cases h : lfo_out * mp.sample_depth > ((mp.delay.get_size - 1 : Nat) : K)
    · rw [if_pos h]
      constructor <;> linarith
    · rw [if_neg h]
      exact ⟨h0, not_lt.mp h⟩
  refine ⟨hb.1, hb.2, by linarith [hb.2], by linarith [hb.1], ?_⟩
  simp only [process, _process_sample]
  cases mp.delay.read_offset_smooth_wrap ((mp.delay.get_size : K) - mp.modulation lfo_out) with
  | none => rfl
  | some wnD =>
    simp only [Option.bind]
    cases mp.delay.write (input + mp.gain * wnD) <;> rfl

/-- C17 amended, at an instance: capacity `8`, `sample_depth = 10` and an oscillator
value of `1`, which the fold takes from `10` to `3`. -/
theorem modulation_fold_bound_witness :
    0 ≤ (ModulatedAllpassProcessor.mk (AudioRingBuffer.new (List.replicate 8 (0 : ℚ)))
      (1 / 2) 10).modulation 1 ∧
    (ModulatedAllpassProcessor.mk (AudioRingBuffer.new (List.replicate 8 (0 : ℚ)))
      (1 / 2) 10).modulation 1 ≤ (((AudioRingBuffer.new (List.replicate 8 (0 : ℚ))).get_size
        - 1 : Nat) : ℚ) ∧
    1 ≤ ((AudioRingBuffer.new (List.replicate 8 (0 : ℚ))).get_size : ℚ)
      - (ModulatedAllpassProcessor.mk (AudioRingBuffer.new (List.replicate 8 (0 : ℚ)))
        (1 / 2) 10).modulation 1 ∧
    ((AudioRingBuffer.new (List.replicate 8 (0 : ℚ))).get_size : ℚ)
      - (ModulatedAllpassProcessor.mk (AudioRingBuffer.new (List.replicate 8 (0 : ℚ)))
        (1 / 2) 10).modulation 1 ≤ ((AudioRingBuffer.new (List.replicate 8 (0 : ℚ))).get_size : ℚ) ∧
    (ModulatedAllpassProcessor.mk (AudioRingBuffer.new (List.replicate 8 (0 : ℚ)))
      (1 / 2) 10).process 1 5 =
      ((AudioRingBuffer.new (List.replicate 8 (0 : ℚ))).read_offset_smooth_wrap
          (((AudioRingBuffer.new (List.replicate 8 (0 : ℚ))).get_size : ℚ)
            - (ModulatedAllpassProcessor.mk (AudioRingBuffer.new (List.replicate 8 (0 : ℚ)))
              (1 / 2) 10).modulation 1)).bind
        (fun wnD => ((AudioRingBuffer.new (List.replicate 8 (0 : ℚ))).write
            (5 + 1 / 2 * wnD)).map
          (fun d => ((-(1 / 2 : ℚ)) * (5 + 1 / 2 * wnD) + wnD,
            { (ModulatedAllpassProcessor.mk (AudioRingBuffer.new (List.replicate 8 (0 : ℚ)))
                (1 / 2) 10) with delay := d }))) :=
  modulation_fold_bound
    (ModulatedAllpassProcessor.mk (AudioRingBuffer.new (List.replicate 8 (0 : ℚ))) (1 / 2) 10)
    1 5 (by simp [AudioRingBuffer.new, AudioRingBuffer.get_size])
    (by norm_num) (by norm_num [AudioRingBuffer.new, AudioRingBuffer.get_size])

end ModulatedAllpassProcessor

namespace ModDelayProcessor

/-- C18. `ModDelayProcessor::process(x)` leaves the delay line exactly as
`AudioRingBuffer::write(x)` does: whenever the modulated read designates cells of
the view, the new delay state is that of `write(x)`, with `x` stored unchanged at
the old write index and the write index advanced by one (with wraparound); the
stored contents and the write index are the same for every modulation depth,
sample depth and oscillator value. -/
theorem mod_delay_writes_input {K : Type} [LinearOrderedField K] [FloorRing K]
    (mp : ModDelayProcessor K) (lfo_out input : K) :
    (mp.process lfo_out input).map (fun r => r.2.delay) =
      (mp.delay.read_offset_smooth_wrap
          ((mp.delay.get_size : K) - mp.modulation lfo_out)).bind
        (fun _ => mp.delay.write input) ∧
    (∀ y mp1, mp.process lfo_out input = some (y, mp1) →
      mp.delay.write input = some mp1.delay ∧
      mp1.delay.buffer = mp.delay.buffer.set mp.delay.write_index input ∧
      mp1.delay.write_index =
        (if mp.delay.write_index + 1 ≥ mp.delay.length then 0
          else mp.delay.write_index + 1) ∧
      mp1.delay.length = mp.delay.length ∧
      mp1.modulation_depth = mp.modulation_depth ∧
      mp1.sample_depth = mp.sample_depth) ∧
    (∀ md sd lfo2 y1 y2 m1 m2, mp.process lfo_out input = some (y1, m1) →
      (ModDelayProcessor.mk mp.delay md sd).process lfo2 input = some (y2, m2) →
      m2.delay = m1.delay) := by
  have key : ∀ (q : ModDelayProcessor K) (l y : K) (q1 : ModDelayProcessor K),
      q.process l input = some (y, q1) →
      q.delay.write input = some q1.delay ∧ q1.modulation_depth = q.modulation_depth ∧
        q1.sample_depth = q.sample_depth := by
    intro q l y q1 h
    simp only [process, _process_sample] at h
    cases hr : q.delay.read_offset_smooth_wrap ((q.delay.get_size : K) - q.modulation l) with
    | none => simp [hr] at h
    | some out =>
      cases hw : q.delay.write input with
      | none => simp [hr, hw] at h
      | some d =>
        simp only [hr, hw, Option.some.injEq, Prod.mk.injEq] at h
        obtain ⟨_, rfl⟩ := h
        exact ⟨rfl, rfl, rfl⟩
  refine ⟨?_, ?_, ?_⟩
  · simp only [process, _process_sample]
    cases mp.delay.read_offset_smooth_wrap ((mp.delay.get_size : K) - mp.modulation lfo_out) with
    | none => rfl
    | some out =>
      simp only [Option.bind]
      cases mp.delay.write input <;> rfl
  · intro y mp1 h
    obtain ⟨hw, hmd, hsd⟩ := key mp lfo_out y mp1 h
    have hin : mp.delay.write_index < mp.delay.buffer.length := by
      by_contra hc
      simp [AudioRingBuffer.write, hc] at hw
    rw [AudioRingBuffer.write_eq mp.delay input hin] at hw
    have e := Option.some.inj hw
    exact ⟨by rw [AudioRingBuffer.write_eq mp.delay input hin, e], by rw [← e], by rw [← e],
      by rw [← e], hmd, hsd⟩
  · intro md sd lfo2 y1 y2 m1 m2 h1 h2
    obtain ⟨hw1, _, _⟩ := key mp lfo_out y1 m1 h1
    obtain ⟨hw2, _, _⟩ := key (ModDelayProcessor.mk mp.delay md sd) lfo2 y2 m2 h2
    rw [hw1] at hw2
    exact (Option.some.inj hw2).symm

theorem mod_delay_example :
    (ModDelayProcessor.mk (AudioRingBuffer.mk [(10 : ℚ), 11, 12, 13, 14, 15, 16, 17] 6 8)
      1 2).process (1 / 2) 5 =
    some (17, ModDelayProcessor.mk
      (AudioRingBuffer.mk [(10 : ℚ), 11, 12, 13, 14, 15, 5, 17] 7 8) 1 2) := by
  have e : float_to_int (-1 : ℚ) = -1 := by
    have h := float_to_int_intCast (K := ℚ) (-1)
    norm_num at h ⊢
    exact h
  have hm : (ModDelayProcessor.mk (AudioRingBuffer.mk [(10 : ℚ), 11, 12, 13, 14, 15, 16, 17]
      6 8) 1 2).modulation (1 / 2) = 1 := by
    norm_num [modulation, AudioRingBuffer.get_size]
  have w1 : wrap (-1 - 1) 0 (8 : Nat) = 6 := by decide
  have w2 : wrap (-1) 0 (8 : Nat) = 7 := by decide
  have w3 : wrap (-1 + 1) 0 (8 : Nat) = 0 := by decide
  have w4 : wrap (-1 + 2) 0 (8 : Nat) = 1 := by decide
  have c6 : BufferInterface.index [(10 : ℚ), 11, 12, 13, 14, 15, 16, 17] 6 = some 16 := rfl
  have c7 : BufferInterface.index [(10 : ℚ), 11, 12, 13, 14, 15, 16, 17] 7 = some 17 := rfl
  have c0 : BufferInterface.index [(10 : ℚ), 11, 12, 13, 14, 15, 16, 17] 0 = some 10 := rfl
  have c1 : BufferInterface.index [(10 : ℚ), 11, 12, 13, 14, 15, 16, 17] 1 = some 11 := rfl
  have hr : (AudioRingBuffer.mk [(10 : ℚ), 11, 12, 13, 14, 15, 16, 17] 6 8).read_offset_smooth_wrap
      (((8 : Nat) : ℚ) - 1) = some 17 := by
    have hx : (((6 : Nat) : ℚ) - (((8 : Nat) : ℚ) - 1)) = -1 := by norm_num
    simp only [AudioRingBuffer.read_offset_smooth_wrap, hx, e, interpolate_4_wrap,
      List.length_cons, List.length_nil, w1, w2, w3, w4, c6, c7, c0, c1]
    norm_num [interpolate_4]
  have hw : (AudioRingBuffer.mk [(10 : ℚ), 11, 12, 13, 14, 15, 16, 17] 6 8).write 5
      = some (AudioRingBuffer.mk [(10 : ℚ), 11, 12, 13, 14, 15, 5, 17] 7 8) := by
    simp [AudioRingBuffer.write]
  have hs : (AudioRingBuffer.mk [(10 : ℚ), 11, 12, 13, 14, 15, 16, 17] 6 8).get_size = 8 := rfl
  simp only [process, _process_sample, hm, hs, hr, hw]

/-- C18, at an instance: a full ring of eight cells with write index `6`,
`sample_depth = 2`, `modulation_depth = 1`, an oscillator value of `1/2` and the
input `5`; the call returns, and the delay line is that of `write(5)`. -/
theorem mod_delay_writes_input_witness :
    (ModDelayProcessor.mk (AudioRingBuffer.mk [(10 : ℚ), 11, 12, 13, 14, 15, 16, 17] 6 8)
      1 2).process (1 / 2) 5 =
      some (17, ModDelayProcessor.mk
        (AudioRingBuffer.mk [(10 : ℚ), 11, 12, 13, 14, 15, 5, 17] 7 8) 1 2) ∧
    (AudioRingBuffer.mk [(10 : ℚ), 11, 12, 13, 14, 15, 16, 17] 6 8).write 5
      = some (AudioRingBuffer.mk [(10 : ℚ), 11, 12, 13, 14, 15, 5, 17] 7 8) ∧
    [(10 : ℚ), 11, 12, 13, 14, 15, 5, 17]
      = [(10 : ℚ), 11, 12, 13, 14, 15, 16, 17].set 6 5 ∧
    7 = (if 6 + 1 ≥ 8 then 0 else 6 + 1) ∧
    8 = 8 ∧ (1 : ℚ) = 1 ∧ (2 : ℚ) = 2 :=
  ⟨mod_delay_example,
    (mod_delay_writes_input
      (ModDelayProcessor.mk (AudioRingBuffer.mk [(10 : ℚ), 11, 12, 13, 14, 15, 16, 17] 6 8) 1 2)
      (1 / 2) 5).2.1 17 _ mod_delay_example⟩

end ModDelayProcessor

/-! ## Feedback delay network -/

namespace FDN_4

end FDN_4

/-! ## Elementary functions -/

/-- C21, evaluated on the code: at `SAMPLE_RATE = 44100` the capacity of
`SmallRoom`'s 24 ms left delay is `24 * (44100 / 1000) = 24 * 44 = 1056`,
the quotient being taken in integers first; the exact product is `1058.4`, more
than two samples away. -/
theorem small_room_capacity_truncated :
    SmallRoom.delay_l_capacity 44100 = 1056 ∧
    (24 : ℚ) * 44100 / 1000 = 10584 / 10 ∧
    (2 : ℚ) < 24 * 44100 / 1000 - (SmallRoom.delay_l_capacity 44100 : ℚ) := by
  have h : SmallRoom.delay_l_capacity 44100 = 1056 := by decide
  rw [h]
  norm_num

/-- C22, evaluated on the code: `wrap(-50, -6, 9)` adds the width `15` once and
returns `-35`, which is below `lo = -6`; the value of `[-6, 9)` congruent to `-50`
modulo `15`, which the test expects, is `-5`, what `wrap_safe` returns. -/
theorem wrap_folds_once :
    wrap (-50) (-6) 9 = -35 ∧
    ¬ (-6 ≤ wrap (-50) (-6) 9) ∧
    wrap_safe (-50) (-6) 9 = -5 ∧
    wrap 49 (-6) 9 = 34 ∧
    ¬ (wrap 49 (-6) 9 < 9) := by
  decide

/-- C27. For all `x` and `lo ≤ hi`, `clamp(x, lo, hi) = max(min(x, hi), lo)` lies in
`[lo, hi]`, equals `x` exactly when `lo ≤ x ≤ hi`, equals `lo` when `x < lo` and
`hi` when `x > hi`; `min(a, b)` and `max(a, b)` are the smaller and the larger
argument. -/
theorem clamp_min_max_spec {T : Type} [LinearOrder T] (x lo hi a b : T) (h : lo ≤ hi) :
    idsp.clamp x lo hi = idsp.max (idsp.min x hi) lo ∧
    lo ≤ idsp.clamp x lo hi ∧ idsp.clamp x lo hi ≤ hi ∧
    (idsp.clamp x lo hi = x ↔ lo ≤ x ∧ x ≤ hi) ∧
    (x < lo → idsp.clamp x lo hi = lo) ∧
    (hi < x → idsp.clamp x lo hi = hi) ∧
    idsp.min a b = Min.min a b ∧ idsp.max a b = Max.max a b ∧
    (idsp.min a b = a ∨ idsp.min a b = b) ∧ idsp.min a b ≤ a ∧ idsp.min a b ≤ b ∧
    (idsp.max a b = a ∨ idsp.max a b = b) ∧ a ≤ idsp.max a b ∧ b ≤ idsp.max a b := by
  have hmin : ∀ u v : T, idsp.min u v = Min.min u v := by
    intro u v
    unfold idsp.min
    split
    · next h1 => exact (min_eq_left (le_of_lt h1)).symm
    · next h1 => exact (min_eq_right (not_lt.mp h1)).symm
  have hmax : ∀ u v : T, idsp.max u v = Max.max u v := by
    intro u v
    unfold idsp.max
    split
    · next h1 => exact (max_eq_left (le_of_lt h1)).symm
    · next h1 => exact (max_eq_right (not_lt.mp h1)).symm
  have hc : idsp.clamp x lo hi = Max.max (Min.min x hi) lo := by
    unfold idsp.clamp
    rw [hmin, hmax]
  refine ⟨rfl, ?_, ?_, ?_, ?_, ?_, hmin a b, hmax a b, ?_, ?_, ?_, ?_, ?_, ?_⟩
  · rw [hc]; exact le_max_right _ _
  · rw [hc]; exact max_le (min_le_right _ _) h
  · rw [hc]
    constructor
    · intro e
      constructor
      · rw [← e]; exact le_max_right _ _
      · have h1 : Max.max (Min.min x hi) lo ≤ hi := max_le (min_le_right _ _) h
        rw [e] at h1; exact h1
    · rintro ⟨h1, h2⟩
      rw [min_eq_left h2, max_eq_left h1]
  · intro h1
    rw [hc, min_eq_left (le_trans (le_of_lt h1) h), max_eq_right (le_of_lt h1)]
  · intro h1
    rw [hc, min_eq_right (le_of_lt h1), max_eq_left h]
  · rw [hmin]; exact min_choice a b
  · rw [hmin]; exact min_le_left a b
  · rw [hmin]; exact min_le_right a b
  · rw [hmax]; exact max_choice a b
  · rw [hmax]; exact le_max_left a b
  · rw [hmax]; exact le_max_right a b

/-- C27, at the values of the library's test: `clamp(14, -10, 10)` with
`min(-3, -7)` and `max(-3, -7)`. -/
theorem clamp_min_max_spec_witness :
    idsp.clamp (14 : Int) (-10) 10 = idsp.max (idsp.min (14 : Int) 10) (-10) ∧
    (-10 : Int) ≤ idsp.clamp (14 : Int) (-10) 10 ∧ idsp.clamp (14 : Int) (-10) 10 ≤ 10 ∧
    (idsp.clamp (14 : Int) (-10) 10 = 14 ↔ (-10 : Int) ≤ 14 ∧ (14 : Int) ≤ 10) ∧
    ((14 : Int) < -10 → idsp.clamp (14 : Int) (-10) 10 = -10) ∧
    ((10 : Int) < 14 → idsp.clamp (14 : Int) (-10) 10 = 10) ∧
    idsp.min (-3 : Int) (-7) = Min.min (-3 : Int) (-7) ∧
    idsp.max (-3 : Int) (-7) = Max.max (-3 : Int) (-7) ∧
    (idsp.min (-3 : Int) (-7) = -3 ∨ idsp.min (-3 : Int) (-7) = -7) ∧
    idsp.min (-3 : Int) (-7) ≤ -3 ∧ idsp.min (-3 : Int) (-7) ≤ -7 ∧
    (idsp.max (-3 : Int) (-7) = -3 ∨ idsp.max (-3 : Int) (-7) = -7) ∧
    (-3 : Int) ≤ idsp.max (-3 : Int) (-7) ∧ (-7 : Int) ≤ idsp.max (-3 : Int) (-7) :=
  clamp_min_max_spec (14 : Int) (-10) 10 (-3) (-7) (by decide)

/-- C28. `rescale` is the affine range map: for `xMin ≠ xMax` it is
`yMin + ((x - xMin) * (yMax - yMin)) / (xMax - xMin)`, with truncating division
at integers; it maps `xMin` to `yMin` and `xMax` to `yMax`, also for inverted
output ranges, and extrapolates without clamping outside `[xMin, xMax]`
(`rescale(25, 0, 20, 10, 50) = 60`). -/
theorem rescale_spec {K : Type} [Field K] (x xMin xMax yMin yMax : K)
    (i iMin iMax jMin jMax : Int) (h : xMin ≠ xMax) (hi : iMin ≠ iMax) :
    rescale x xMin xMax yMin yMax = yMin + ((x - xMin) * (yMax - yMin)) / (xMax - xMin) ∧
    rescale xMin xMin xMax yMin yMax = yMin ∧
    rescale xMax xMin xMax yMin yMax = yMax ∧
    rescale_int i iMin iMax jMin jMax
      = jMin + ((i - iMin) * (jMax - jMin)).tdiv (iMax - iMin) ∧
    rescale_int iMin iMin iMax jMin jMax = jMin ∧
    rescale_int iMax iMin iMax jMin jMax = jMax ∧
    rescale_int 2 0 10 0 20 = 4 ∧
    rescale_int 25 0 20 10 50 = 60 ∧
    rescale_int 5 0 20 50 10 = 40 := by
  have hx : xMax - xMin ≠ 0 := sub_ne_zero.mpr (Ne.symm h)
  have hd : iMax - iMin ≠ 0 := sub_ne_zero.mpr (Ne.symm hi)
  refine ⟨rfl, ?_, ?_, rfl, ?_, ?_, by decide, by decide, by decide⟩
  · simp [rescale]
  · unfold rescale
    rw [mul_div_assoc, mul_comm, div_mul_cancel₀ _ hx]
    ring
  · simp [rescale_int]
  · unfold rescale_int
    rw [Int.mul_tdiv_cancel_left _ hd]
    ring

/-- C28, at the values of the library's test for floating types:
`rescale(0.25, 0, 1, 1, 0)`, an inverted range, with the integer ranges
`[0, 20]` and `[10, 50]`. -/
theorem rescale_spec_witness :
    rescale (1 / 4 : ℚ) 0 1 1 0 = 1 + ((1 / 4 - 0) * (0 - 1)) / (1 - 0) ∧
    rescale (0 : ℚ) 0 1 1 0 = 1 ∧
    rescale (1 : ℚ) 0 1 1 0 = 0 ∧
    rescale_int 25 0 20 10 50 = 10 + ((25 - 0) * (50 - 10 : Int)).tdiv (20 - 0) ∧
    rescale_int 0 0 20 10 50 = 10 ∧
    rescale_int 20 0 20 10 50 = 50 ∧
    rescale_int 2 0 10 0 20 = 4 ∧
    rescale_int 25 0 20 10 50 = 60 ∧
    rescale_int 5 0 20 50 10 = 40 :=
  rescale_spec (1 / 4 : ℚ) 0 1 1 0 25 0 20 10 50 (by norm_num) (by decide)

/-! ## Flag -/

namespace Flag

theorem momentary_processSeq (ins : List Bool) (f0 : Flag)
    (h : f0.behaviour = Flag.Behaviour.Momentary) :
    (f0.processSeq ins).behaviour = Flag.Behaviour.Momentary ∧
    (f0.processSeq ins).state = ins.getLast?.getD f0.state := by
  induction ins using List.reverseRecOn with
  | nil => exact ⟨h, rfl⟩
  | append_singleton l a ih =>
    have e : f0.processSeq (l ++ [a]) = (f0.processSeq l).process a := by
      simp [processSeq, List.foldl_append]
    rw [e, List.getLast?_concat]
    simp [process, ih.1, _process_momentary]

/-- C23. Starting from a default-constructed (Momentary) `Flag`, after the call
`process(input)` that follows any sequence `ins` of earlier calls, with `prev` the
input of the call before (`false` at the first call): `is_high() = input`,
`is_rising() = input && !prev`, `is_falling() = !input && prev`,
`has_changed() = (input != prev)`; `is_rising` and `is_falling` are never both
true and `has_changed = is_rising || is_falling`. -/
theorem momentary_edge_detection (ins : List Bool) (input : Bool) :
    ((Flag.default.processSeq ins).process input).is_high = input ∧
    ((Flag.default.processSeq ins).process input).is_rising
      = (input && !(ins.getLast?.getD false)) ∧
    ((Flag.default.processSeq ins).process input).is_falling
      = (!input && ins.getLast?.getD false) ∧
    ((Flag.default.processSeq ins).process input).has_changed
      = (input != ins.getLast?.getD false) ∧
    ¬ (((Flag.default.processSeq ins).process input).is_rising = true ∧
       ((Flag.default.processSeq ins).process input).is_falling = true) ∧
    ((Flag.default.processSeq ins).process input).has_changed
      = (((Flag.default.processSeq ins).process input).is_rising ||
         ((Flag.default.processSeq ins).process input).is_falling) := by
  obtain ⟨hb, hs⟩ := momentary_processSeq ins Flag.default rfl
  have h0 : Flag.default.state = false := rfl
  rw [h0] at hs
  have e : (Flag.default.processSeq ins).process input
      = { Flag.default.processSeq ins with
          prev_state := ins.getLast?.getD false, state := input, prev_input := input } := by
    simp [process, hb, _process_momentary, hs]
  rw [e]
  simp only [is_high, is_rising, is_falling, has_changed]
  cases input <;> cases ins.getLast?.getD false <;> simp

end Flag

/-! ## Parameter -/

namespace Parameter

theorem process_output_held (p : Parameter) (v : Nat) :
    (p.process v).2.output = (p.process v).2.processors.value ∧
    (p.process v).2.processors.threshold = p.processors.threshold := by
  unfold process ChangeThreshold.process
  split <;> simp

theorem processSeq_output_held (vs : List Nat) (p : Parameter)
    (h : p.output = p.processors.value) :
    (p.processSeq vs).2.output = (p.processSeq vs).2.processors.value ∧
    (p.processSeq vs).2.processors.threshold = p.processors.threshold := by
  induction vs generalizing p with
  | nil => exact ⟨h, rfl⟩
  | cons v vs ih =>
    have h1 := process_output_held p v
    have h2 := ih (p.process v).2 h1.1
    simp only [processSeq]
    exact ⟨h2.1, h2.2.trans h1.2⟩

/-- C24. For a `Parameter<int, uint16_t, ChangeThreshold<int>>` with threshold `t`
constructed with held value `0`, after any sequence `vs` of earlier calls the held
value is the last output (`0` before the first call), and `process(v)` outputs `v`
and then holds `v` when `|v - held| >= t`, and otherwise outputs the held value and
keeps it; `get_output()` returns that output and `has_changed()` is true exactly
when the output differs from the output of the call before.  The test sequence
`50, 55, 42, 75` with `t = 10` gives `50, 50, 50, 75`. -/
theorem threshold_hysteresis (t : Int) (vs : List Nat) (v : Nat) (hv : v < 65536) :
    (((Parameter.new (ChangeThreshold.new t)).processSeq vs).2.processors.value
      = ((Parameter.new (ChangeThreshold.new t)).processSeq vs).2.get_output) ∧
    (vs = [] → ((Parameter.new (ChangeThreshold.new t)).processSeq vs).2.get_output = 0) ∧
    (|(v : Int) - ((Parameter.new (ChangeThreshold.new t)).processSeq vs).2.get_output| ≥ t →
      ((((Parameter.new (ChangeThreshold.new t)).processSeq vs).2.process v).1 = v ∧
       (((Parameter.new (ChangeThreshold.new t)).processSeq vs).2.process v).2.processors.value
          = v)) ∧
    (¬ |(v : Int) - ((Parameter.new (ChangeThreshold.new t)).processSeq vs).2.get_output| ≥ t →
      ((((Parameter.new (ChangeThreshold.new t)).processSeq vs).2.process v).1
          = ((Parameter.new (ChangeThreshold.new t)).processSeq vs).2.get_output ∧
       (((Parameter.new (ChangeThreshold.new t)).processSeq vs).2.process v).2.processors.value
          = ((Parameter.new (ChangeThreshold.new t)).processSeq vs).2.get_output)) ∧
    ((((Parameter.new (ChangeThreshold.new t)).processSeq vs).2.process v).2.get_output
      = (((Parameter.new (ChangeThreshold.new t)).processSeq vs).2.process v).1) ∧
    ((((Parameter.new (ChangeThreshold.new t)).processSeq vs).2.process v).2.has_changed = true ↔
      (((Parameter.new (ChangeThreshold.new t)).processSeq vs).2.process v).1
        ≠ ((Parameter.new (ChangeThreshold.new t)).processSeq vs).2.get_output) ∧
    ((Parameter.new (ChangeThreshold.new 10)).processSeq [50, 55, 42, 75]).1
      = [50, 50, 50, 75] := by
  obtain ⟨ho, ht⟩ := processSeq_output_held vs (Parameter.new (ChangeThreshold.new t)) rfl
  have ht2 : ((Parameter.new (ChangeThreshold.new t)).processSeq vs).2.processors.threshold = t :=
    ht
  have hnil : vs = [] →
      ((Parameter.new (ChangeThreshold.new t)).processSeq vs).2.get_output = 0 := by
    intro h
    subst h
    rfl
  generalize ((Parameter.new (ChangeThreshold.new t)).processSeq vs).2 = p at ho ht2 hnil
  have hm : ((v % 65536 : Nat) : Int) = (v : Int) := by
    rw [Nat.mod_eq_of_lt hv]
  refine ⟨ho.symm, hnil, ?_, ?_, rfl, ?_, by decide⟩
  · intro h
    simp only [get_output] at h
    rw [ho, ← ht2] at h
    simp only [process, ChangeThreshold.process, hm, if_pos h, and_self]
  · intro h
    simp only [get_output] at h ⊢
    rw [ho, ← ht2] at h
    simp only [process, ChangeThreshold.process, hm, if_neg h, and_self, ho]
  · simp [has_changed, process, get_output]

/-- C24, at the second call of the test: after `process(50)` with `t = 10`, the
call `process(55)`. -/
theorem threshold_hysteresis_witness :
    (((Parameter.new (ChangeThreshold.new 10)).processSeq [50]).2.processors.value
      = ((Parameter.new (ChangeThreshold.new 10)).processSeq [50]).2.get_output) ∧
    (([50] : List Nat) = [] →
      ((Parameter.new (ChangeThreshold.new 10)).processSeq [50]).2.get_output = 0) ∧
    (|((55 : Nat) : Int) - ((Parameter.new (ChangeThreshold.new 10)).processSeq [50]).2.get_output|
        ≥ 10 →
      ((((Parameter.new (ChangeThreshold.new 10)).processSeq [50]).2.process 55).1 = (55 : Nat) ∧
       (((Parameter.new (ChangeThreshold.new 10)).processSeq [50]).2.process 55).2.processors.value
          = (55 : Nat))) ∧
    (¬ |((55 : Nat) : Int) - ((Parameter.new (ChangeThreshold.new 10)).processSeq [50]).2.get_output|
        ≥ 10 →
      ((((Parameter.new (ChangeThreshold.new 10)).processSeq [50]).2.process 55).1
          = ((Parameter.new (ChangeThreshold.new 10)).processSeq [50]).2.get_output ∧
       (((Parameter.new (ChangeThreshold.new 10)).processSeq [50]).2.process 55).2.processors.value
          = ((Parameter.new (ChangeThreshold.new 10)).processSeq [50]).2.get_output)) ∧
    ((((Parameter.new (ChangeThreshold.new 10)).processSeq [50]).2.process 55).2.get_output
      = (((Parameter.new (ChangeThreshold.new 10)).processSeq [50]).2.process 55).1) ∧
    ((((Parameter.new (ChangeThreshold.new 10)).processSeq [50]).2.process 55).2.has_changed = true ↔
      (((Parameter.new (ChangeThreshold.new 10)).processSeq [50]).2.process 55).1
        ≠ ((Parameter.new (ChangeThreshold.new 10)).processSeq [50]).2.get_output) ∧
    ((Parameter.new (ChangeThreshold.new 10)).processSeq [50, 55, 42, 75]).1
      = [50, 50, 50, 75] :=
  threshold_hysteresis 10 [50] 55 (by decide)

end Parameter

/-! ## LookupTable : reads -/

namespace LookupTable

/-- C26, on the code: for every table of `S >= 1` entries, `read(1.0)`, at the
upper end of the documented range `[0:1]`, computes `ind = S - 1` and accesses
`_table[S]`, which is no entry of the table; `read_clamp(index)` clamps the
normalised index to `[0, 1]` and calls the same `read`, so it accesses `_table[S]`
for every index `>= 1`.  The overload `read_clamp(index, fraction)` clamps both
table indices and stays inside. -/
theorem read_upper_end_outside {K : Type} [LinearOrderedField K] [FloorRing K]
    (table : List K) (x : K) (fraction : K) (hS : 1 ≤ table.length) (hx : 1 ≤ x) :
    float_to_int ((1 : K) * ((table.length - 1 : Nat) : K)) + 1 = (table.length : Int) ∧
    entry table (float_to_int ((1 : K) * ((table.length - 1 : Nat) : K)) + 1) = none ∧
    read table 1 = none ∧
    read_clamp table x = none ∧
    (read_clamp_parts table ((table.length : Int) - 1) fraction).isSome = true := by
  have e : float_to_int ((1 : K) * ((table.length - 1 : Nat) : K))
      = ((table.length - 1 : Nat) : Int) := by
    rw [one_mul]
    have h := float_to_int_intCast (K := K) ((table.length - 1 : Nat) : Int)
    rwa [Int.cast_natCast] at h
  have hent : entry table (((table.length - 1 : Nat) : Int) + 1) = none := by
    unfold entry
    rw [if_neg (by omega)]
    apply List.getElem?_eq_none
    omega
  have hread : read table 1 = none := by
    unfold read
    simp only [e]
    unfold read_parts
    rw [hent]
    cases entry table ((table.length - 1 : Nat) : Int) <;> rfl
  have hc : idsp.clamp x 0 1 = 1 := by
    unfold idsp.clamp idsp.min idsp.max
    rw [if_neg (not_lt.mpr hx), if_pos (by norm_num)]
  have hlast : idsp.clamp ((table.length : Int) - 1) 0 ((table.length : Int) - 1)
      = (table.length : Int) - 1 := by
    unfold idsp.clamp idsp.min idsp.max
    split <;> split <;> omega
  have hlast1 : idsp.clamp ((table.length : Int) - 1 + 1) 0 ((table.length : Int) - 1)
      = (table.length : Int) - 1 := by
    unfold idsp.clamp idsp.min idsp.max
    split <;> split <;> omega
  have hin : ∃ a, entry table ((table.length : Int) - 1) = some a := by
    unfold entry
    rw [if_neg (by omega)]
    have hlt : ((table.length : Int) - 1).toNat < table.length := by omega
    exact ⟨_, List.getElem?_eq_getElem hlt⟩
  refine ⟨?_, ?_, hread, ?_, ?_⟩
  · rw [e]; omega
  · rw [e]; exact hent
  · unfold read_clamp
    rw [hc]
    exact hread
  · obtain ⟨a, ha⟩ := hin
    unfold read_clamp_parts
    rw [hlast, hlast1, ha]
    rfl

/-- C26, on a table of four entries: `read(1.0)` and `read_clamp(7.0)` access
`_table[4]`. -/
theorem read_upper_end_outside_witness :
    float_to_int ((1 : ℚ) * ((([10, 11, 12, 13] : List ℚ).length - 1 : Nat) : ℚ)) + 1
      = ((([10, 11, 12, 13] : List ℚ).length : Nat) : Int) ∧
    entry ([10, 11, 12, 13] : List ℚ)
      (float_to_int ((1 : ℚ) * ((([10, 11, 12, 13] : List ℚ).length - 1 : Nat) : ℚ)) + 1)
      = none ∧
    read ([10, 11, 12, 13] : List ℚ) 1 = none ∧
    read_clamp ([10, 11, 12, 13] : List ℚ) 7 = none ∧
    (read_clamp_parts ([10, 11, 12, 13] : List ℚ)
      (((([10, 11, 12, 13] : List ℚ).length : Nat) : Int) - 1) (1 / 2)).isSome = true :=
  read_upper_end_outside [10, 11, 12, 13] 7 (1 / 2) (by decide) (by norm_num)

end LookupTable

/-! ## LookupTable : generation -/

namespace LookupTable

theorem generate_loop_spec {K A : Type} [Field K] (S : Nat) (generator : K → A → K × A)
    (data0 : A) :
    ∀ (n i : Nat) (data : A) (table : List K),
      data = data_after S generator data0 i → i + n ≤ table.length →
      (generate_loop S generator n i data table).2 = data_after S generator data0 (i + n) ∧
      (generate_loop S generator n i data table).1.length = table.length ∧
      ∀ j, (generate_loop S generator n i data table).1[j]?
        = if i ≤ j ∧ j < i + n then
            some (generator ((j : K) / ((S - 1 : Nat) : K)) (data_after S generator data0 j)).1
          else table[j]? := by
  intro n
  induction n with
  | zero =>
    intro i data table hd _
    refine ⟨hd, rfl, ?_⟩
    intro j
    rw [if_neg (by omega)]
    rfl
  | succ n ih =>
    intro i data table hd hlen
    subst hd
    have h := ih (i + 1)
      (generator ((i : K) / ((S - 1 : Nat) : K)) (data_after S generator data0 i)).2
      (table.set i
        (generator ((i : K) / ((S - 1 : Nat) : K)) (data_after S generator data0 i)).1)
      rfl (by rw [List.length_set]; omega)
    obtain ⟨h1, h2, h3⟩ := h
    simp only [generate_loop]
    refine ⟨?_, ?_, ?_⟩
    · rw [h1]
      congr 1
      omega
    · rw [h2, List.length_set]
    · intro j
      rw [h3 j]
      by_cases hj : j = i
      · subst hj
        rw [if_neg (by omega), if_pos (by omega), List.getElem?_set_self (by omega)]
      · by_cases hin : i + 1 ≤ j ∧ j < i + 1 + n
        · rw [if_pos hin, if_pos (by omega)]
        · rw [if_neg hin, if_neg (by omega), List.getElem?_set_ne (Ne.symm hj)]

theorem data_after_wrapper {K : Type} [Field K] (S : Nat) (g : K → K) (i : Nat) :
    data_after S _generator_wrapper g i = g := by
  induction i with
  | zero => rfl
  | succ i ih => simpa [data_after, _generator_wrapper] using ih

theorem data_after_log {K : Type} [Field K] (S : Nat) (g : K → K) (i : Nat) :
    data_after S (fun (arg : K) (log : List K) => (g arg, log ++ [arg])) [] i
      = (List.range i).map (fun k => (k : K) / ((S - 1 : Nat) : K)) := by
  induction i with
  | zero => rfl
  | succ i ih => simp [data_after, ih, List.range_succ]

/-- C25. For every table size `S >= 2` and every generator, also one with side
effects on the data it is passed (`data_after i` is the content of that data after
`i` calls), the constructor leaves a table of `S` entries with
`table[i] = generator(i / (S - 1), data)` evaluated on the data left by the calls for
the indices below `i`, and the data left by all `S` calls; a generator that records
its arguments has recorded exactly `0/(S-1), 1/(S-1), ..., (S-1)/(S-1)`, in this
order; for a generator `g` without data `table[i] = g(i / (S - 1))`, the front of the
table is `g(0)` and its back is `g(1)`.  The content of the table before the
constructor runs (`raw`) does not matter. -/
theorem generation_spec {K A : Type} [Field K] [CharZero K] (S : Nat) (raw : List K)
    (generator : K → A → K × A) (data : A) (g : K → K) (hS : 2 ≤ S)
    (hraw : raw.length = S) :
    (new S raw generator data).1.length = S ∧
    (∀ i, i < S → (new S raw generator data).1[i]?
      = some (generator ((i : K) / ((S - 1 : Nat) : K)) (data_after S generator data i)).1) ∧
    (new S raw generator data).2 = data_after S generator data S ∧
    (new S raw (fun (arg : K) (log : List K) => (g arg, log ++ [arg])) []).2
      = (List.range S).map (fun k => (k : K) / ((S - 1 : Nat) : K)) ∧
    (new_pure S raw g).length = S ∧
    (∀ i, i < S → (new_pure S raw g)[i]? = some (g ((i : K) / ((S - 1 : Nat) : K)))) ∧
    (new_pure S raw g).head? = some (g 0) ∧
    (new_pure S raw g).getLast? = some (g 1) := by
  have hspec : ∀ (B : Type) (gen : K → B → K × B) (d : B),
      (new S raw gen d).2 = data_after S gen d S ∧
      (new S raw gen d).1.length = S ∧
      ∀ i, i < S → (new S raw gen d).1[i]?
        = some (gen ((i : K) / ((S - 1 : Nat) : K)) (data_after S gen d i)).1 := by
    intro B gen d
    obtain ⟨h1, h2, h3⟩ := generate_loop_spec S gen d S 0 d raw rfl (by omega)
    refine ⟨?_, ?_, ?_⟩
    · unfold new
      rw [h1, Nat.zero_add]
    · unfold new
      rw [h2, hraw]
    · intro i hi
      unfold new
      rw [h3 i, if_pos (by omega)]
  obtain ⟨a1, a2, a3⟩ := hspec A generator data
  obtain ⟨b1, _, _⟩ := hspec (List K) (fun (arg : K) (log : List K) => (g arg, log ++ [arg])) []
  obtain ⟨_, c2, c3⟩ := hspec (K → K) _generator_wrapper g
  have hpure : ∀ i, i < S → (new_pure S raw g)[i]? = some (g ((i : K) / ((S - 1 : Nat) : K))) := by
    intro i hi
    unfold new_pure
    rw [c3 i hi, data_after_wrapper]
    rfl
  have hlen : (new_pure S raw g).length = S := c2
  have hne : ((S - 1 : Nat) : K) ≠ 0 := by
    have h : S - 1 ≠ 0 := by omega
    exact_mod_cast h
  refine ⟨a2, a3, a1, ?_, hlen, hpure, ?_, ?_⟩
  · rw [b1, data_after_log]
  · have h0 := hpure 0 (by omega)
    rw [Nat.cast_zero, zero_div] at h0
    rw [List.head?_eq_getElem?]
    exact h0
  · have h1 := hpure (S - 1) (by omega)
    rw [div_self hne] at h1
    rw [List.getLast?_eq_getElem?, hlen]
    exact h1

/-- C25, for the inverter of the library's test on a table of five entries, and a
generator that adds the value of its data and increments it. -/
theorem generation_spec_witness :
    (new 5 [7, 7, 7, 7, 7] (fun (x : ℚ) (d : ℚ) => (x + d, d + 1)) 0).1.length = 5 ∧
    (∀ i : Nat, i < 5 → (new 5 [7, 7, 7, 7, 7] (fun (x : ℚ) (d : ℚ) => (x + d, d + 1)) 0).1[i]?
      = some ((fun (x : ℚ) (d : ℚ) => (x + d, d + 1)) ((i : ℚ) / ((5 - 1 : Nat) : ℚ))
          (data_after 5 (fun (x : ℚ) (d : ℚ) => (x + d, d + 1)) 0 i)).1) ∧
    (new 5 [7, 7, 7, 7, 7] (fun (x : ℚ) (d : ℚ) => (x + d, d + 1)) 0).2
      = data_after 5 (fun (x : ℚ) (d : ℚ) => (x + d, d + 1)) 0 5 ∧
    (new 5 [7, 7, 7, 7, 7] (fun (arg : ℚ) (log : List ℚ) =>
        ((fun (x : ℚ) => 1 - x) arg, log ++ [arg])) []).2
      = (List.range 5).map (fun k => (k : ℚ) / ((5 - 1 : Nat) : ℚ)) ∧
    (new_pure 5 [7, 7, 7, 7, 7] (fun (x : ℚ) => 1 - x)).length = 5 ∧
    (∀ i : Nat, i < 5 → (new_pure 5 [7, 7, 7, 7, 7] (fun (x : ℚ) => 1 - x))[i]?
      = some ((fun (x : ℚ) => 1 - x) ((i : ℚ) / ((5 - 1 : Nat) : ℚ)))) ∧
    (new_pure 5 [7, 7, 7, 7, 7] (fun (x : ℚ) => 1 - x)).head?
      = some ((fun (x : ℚ) => 1 - x) 0) ∧
    (new_pure 5 [7, 7, 7, 7, 7] (fun (x : ℚ) => 1 - x)).getLast?
      = some ((fun (x : ℚ) => 1 - x) 1) :=
  generation_spec 5 [7, 7, 7, 7, 7] (fun (x : ℚ) (d : ℚ) => (x + d, d + 1)) 0
    (fun (x : ℚ) => 1 - x) (by decide) (by decide)

end LookupTable

/-! ## Energy balance of the plain allpass -/

namespace AllpassProcessor

theorem sum_map_set {R : Type} [CommRing R] (f : R → R) :
    ∀ (l : List R) (i : Nat) (r v : R), l[i]? = some r →
      ((l.set i v).map f).sum = (l.map f).sum - f r + f v
  | [], i, r, v, h => by simp at h
  | a :: l, 0, r, v, h => by
    simp only [List.getElem?_cons_zero, Option.some.injEq] at h
    subst h
    simp only [List.set_cons_zero, List.map_cons, List.sum_cons]
    ring
  | a :: l, i + 1, r, v, h => by
    simp only [List.getElem?_cons_succ] at h
    simp only [List.set_cons_succ, List.map_cons, List.sum_cons, sum_map_set f l i r v h]
    ring

theorem energy_step {R : Type} [CommRing R] (ap ap1 : AllpassProcessor R) (x y : R)
    (h : ap.process x = some (y, ap1)) :
    x ^ 2 - y ^ 2 = (1 - ap.gain ^ 2) * (ap1.stored_energy - ap.stored_energy) ∧
    ap1.gain = ap.gain ∧ ap1.delay.buffer.length = ap.delay.buffer.length := by
  simp only [process, _process_sample] at h
  cases hr : ap.delay.read with
  | none => simp [hr] at h
  | some r =>
    rw [hr] at h
    have hlt : ap.delay.write_index < ap.delay.buffer.length := by
      by_contra hn
      rw [AudioRingBuffer.read, List.getElem?_eq_none (by omega)] at hr
      cases hr
    simp only [AudioRingBuffer.write_eq _ _ hlt, Option.some.injEq, Prod.mk.injEq] at h
    obtain ⟨rfl, rfl⟩ := h
    refine ⟨?_, rfl, by simp⟩
    simp only [stored_energy]
    rw [sum_map_set _ _ _ r _ hr]
    ring

theorem energy_processSeq {R : Type} [CommRing R] (xs : List R) :
    ∀ (ap ap1 : AllpassProcessor R) (ys : List R), ap.processSeq xs = some (ys, ap1) →
      (xs.map (fun v => v ^ 2)).sum - (ys.map (fun v => v ^ 2)).sum
        = (1 - ap.gain ^ 2) * (ap1.stored_energy - ap.stored_energy) ∧
      ap1.gain = ap.gain ∧ ap1.delay.buffer.length = ap.delay.buffer.length := by
  induction xs with
  | nil =>
    intro ap ap1 ys h
    simp only [processSeq, Option.some.injEq, Prod.mk.injEq] at h
    obtain ⟨rfl, rfl⟩ := h
    simp
  | cons x xs ih =>
    intro ap ap1 ys h
    simp only [processSeq] at h
    cases hp : ap.process x with
    | none => simp [hp] at h
    | some r =>
      obtain ⟨y, ap2⟩ := r
      simp only [hp] at h
      cases hq : ap2.processSeq xs with
      | none => simp [hq] at h
      | some q =>
        obtain ⟨zs, ap3⟩ := q
        simp only [hq, Option.some.injEq, Prod.mk.injEq] at h
        obtain ⟨rfl, rfl⟩ := h
        obtain ⟨e1, g1, l1⟩ := energy_step ap ap2 x y hp
        obtain ⟨e2, g2, l2⟩ := ih ap2 ap3 zs hq
        refine ⟨?_, g2.trans g1, l2.trans l1⟩
        simp only [List.map_cons, List.sum_cons]
        rw [g1] at e2
        linear_combination e1 + e2

theorem stored_energy_nonneg {R : Type} [LinearOrderedCommRing R] (ap : AllpassProcessor R) :
    0 ≤ ap.stored_energy := by
  unfold stored_energy
  apply List.sum_nonneg
  intro v hv
  obtain ⟨a, _, rfl⟩ := List.mem_map.mp hv
  exact sq_nonneg a

/-- C30. For every gain `g`, every length `D >= 1` and every input sequence `xs`
(of any length `N`), the plain allpass started from zero state runs through `xs`,
its delay line holds `D` samples afterwards, and
`sum x[n]^2 - sum y[n]^2 = (1 - g^2) * (sum of the squares of these D samples)`;
hence for `|g| <= 1` the cumulative output energy is at most the cumulative input
energy. -/
theorem energy_balance {R : Type} [LinearOrderedCommRing R] (g half : R) (D : Nat)
    (hD : 1 ≤ D) (xs : List R) :
    ∃ ys ap1,
      ((AllpassProcessor.new (List.replicate D (0 : R)) half).set_gain g).processSeq xs
        = some (ys, ap1) ∧
      ys.length = xs.length ∧
      ap1.delay.buffer.length = D ∧
      (xs.map (fun v => v ^ 2)).sum - (ys.map (fun v => v ^ 2)).sum
        = (1 - g ^ 2) * ap1.stored_energy ∧
      (|g| ≤ 1 → (ys.map (fun v => v ^ 2)).sum ≤ (xs.map (fun v => v ^ 2)).sum) := by
  obtain ⟨ys, ap1, _, hs, _, _, _, hlen, _⟩ :=
    allpass_processSeq_tracks xs D D _ _ (by omega) (Nat.le_refl D)
      (allpass_tracks_new_zero D half g)
  obtain ⟨e, _, l⟩ := energy_processSeq xs _ ap1 ys hs
  have h0 : ((AllpassProcessor.new (List.replicate D (0 : R)) half).set_gain g).stored_energy
      = 0 := by
    simp [stored_energy, AllpassProcessor.new, set_gain, AudioRingBuffer.new]
  have hg : ((AllpassProcessor.new (List.replicate D (0 : R)) half).set_gain g).gain = g := rfl
  have hl : ((AllpassProcessor.new (List.replicate D (0 : R)) half).set_gain g).delay.buffer.length
      = D := by
    simp [AllpassProcessor.new, set_gain, AudioRingBuffer.new]
  rw [h0, hg, sub_zero] at e
  refine ⟨ys, ap1, hs, hlen, l.trans hl, e, ?_⟩
  intro habs
  have hg2 : g ^ 2 ≤ 1 := by
    have h1 := (sq_le_one_iff_abs_le_one g).mpr habs
    exact h1
  have hnn := stored_energy_nonneg ap1
  have hprod : 0 ≤ (1 - g ^ 2) * ap1.stored_energy :=
    mul_nonneg (sub_nonneg.mpr hg2) hnn
  rw [← e] at hprod
  exact sub_nonneg.mp hprod

/-- C30, at an instance: length `2`, gain `1/2`, five input samples. -/
theorem energy_balance_witness :
    1 ≤ 2 ∧
    ∃ ys ap1,
      ((AllpassProcessor.new (List.replicate 2 (0 : ℚ)) (1 / 2)).set_gain (1 / 2)).processSeq
        [1, -2, 3, 0, 4] = some (ys, ap1) ∧
      ys.length = ([1, -2, 3, 0, 4] : List ℚ).length ∧
      ap1.delay.buffer.length = 2 ∧
      (([1, -2, 3, 0, 4] : List ℚ).map (fun v => v ^ 2)).sum - (ys.map (fun v => v ^ 2)).sum
        = (1 - (1 / 2 : ℚ) ^ 2) * ap1.stored_energy ∧
      (|(1 / 2 : ℚ)| ≤ 1 →
        (ys.map (fun v => v ^ 2)).sum ≤ (([1, -2, 3, 0, 4] : List ℚ).map (fun v => v ^ 2)).sum) :=
  ⟨by decide, energy_balance (1 / 2 : ℚ) (1 / 2) 2 (by decide) [1, -2, 3, 0, 4]⟩

end AllpassProcessor

/-! ## Gain zero -/

namespace NestedAllpassProcessor

open AudioRingBuffer

/-- C29. A plain `AllpassProcessor` of length `D >= 1` with gain `0` is a pure
`D`-sample delay: from zero state its `n`-th output is `0` for `n < D` and
`x[n - D]` after; and a `NestedAllpassProcessor` with inner gain `0`, outer gain
`g`, outer length `Do` and inner length `Di` produces, from zero state and for
every input sequence, the output sequence of a plain `AllpassProcessor` with gain
`g` and length `Do + Di`. -/
theorem gain_zero_pure_delay {R : Type} [CommRing R] (g half : R) (D Do Di : Nat)
    (hD : 1 ≤ D) (hDo : 1 ≤ Do) (hDi : 1 ≤ Di) (xs : List R) :
    (∃ zs ap0,
      ((AllpassProcessor.new (List.replicate D (0 : R)) half).set_gain 0).processSeq xs
        = some (zs, ap0) ∧
      zs.length = xs.length ∧
      ∀ n, n < xs.length → zs[n]? = if n < D then some 0 else xs[n - D]?) ∧
    (∃ ys np ap,
      ((NestedAllpassProcessor.new (List.replicate Do (0 : R)) (List.replicate Di 0)
        half).set_gain g 0).processSeq xs = some (ys, np) ∧
      ((AllpassProcessor.new (List.replicate (Do + Di) (0 : R)) half).set_gain g).processSeq xs
        = some (ys, ap)) := by
  refine ⟨?_, zero_inner_stage_run g half Do Di hDo hDi xs⟩
  obtain ⟨zs, ap0, w, hs, _, _, hag, hlen, hval⟩ :=
    AllpassProcessor.allpass_processSeq_tracks xs D D _ _ (by omega) (Nat.le_refl D)
      (AllpassProcessor.allpass_tracks_new_zero D half (0 : R))
  have hg : ((AllpassProcessor.new (List.replicate D (0 : R)) half).set_gain 0).gain = 0 := rfl
  rw [hg] at hval
  refine ⟨zs, ap0, hs, hlen, ?_⟩
  intro n hn
  obtain ⟨x, _, _, hy⟩ := hval n hn
  have e : D + n - D = n := by omega
  rw [e, neg_zero, zero_mul, zero_add] at hy
  rw [hy]
  by_cases h1 : n < D
  · rw [if_pos h1, hag n h1]
  · rw [if_neg h1]
    obtain ⟨x1, hx1, hw1, _⟩ := hval (n - D) (by omega)
    have e1 : D + (n - D) = n := by omega
    rw [e1, zero_mul, add_zero] at hw1
    rw [hw1, hx1]

/-- C29, at an instance: a delay of `2` samples, and outer length `2`, inner
length `1`, outer gain `3`. -/
theorem gain_zero_pure_delay_witness :
    1 ≤ 2 ∧ 1 ≤ 2 ∧ 1 ≤ 1 ∧
    (∃ zs ap0,
      ((AllpassProcessor.new (List.replicate 2 (0 : Int)) 1).set_gain 0).processSeq
        [1, 0, 2, 0, 0, 1, 4] = some (zs, ap0) ∧
      zs.length = ([1, 0, 2, 0, 0, 1, 4] : List Int).length ∧
      ∀ n, n < ([1, 0, 2, 0, 0, 1, 4] : List Int).length →
        zs[n]? = if n < 2 then some 0 else ([1, 0, 2, 0, 0, 1, 4] : List Int)[n - 2]?) ∧
    (∃ ys np ap,
      ((NestedAllpassProcessor.new (List.replicate 2 (0 : Int)) (List.replicate 1 0)
        1).set_gain 3 0).processSeq [1, 0, 2, 0, 0, 1, 4] = some (ys, np) ∧
      ((AllpassProcessor.new (List.replicate (2 + 1) (0 : Int)) 1).set_gain 3).processSeq
        [1, 0, 2, 0, 0, 1, 4] = some (ys, ap)) :=
  ⟨by decide, by decide, by decide,
    gain_zero_pure_delay 3 1 2 2 1 (by decide) (by decide) (by decide) [1, 0, 2, 0, 0, 1, 4]⟩

end NestedAllpassProcessor

/-! ## Interpolation away from the boundary -/

/-- C34. For every buffer of size `n >= 4`, every index `i` with
`1 <= i <= n - 3` and every fraction `f`, the four cells `buf[i-1]`, `buf[i]`,
`buf[i+1]`, `buf[i+2]` exist and `interpolate_4`, `interpolate_4_wrap` and
`interpolate_4_safe` all return the 4-point interpolation of these cells at `f`. -/
theorem policies_agree_inside {K : Type} [Field K] (buf : List K) (i : Nat) (f : K)
    (hn : 4 ≤ buf.length) (h1 : 1 ≤ i) (h2 : i ≤ buf.length - 3) :
    ∃ a b c d,
      buf[i - 1]? = some a ∧ buf[i]? = some b ∧ buf[i + 1]? = some c ∧
      buf[i + 2]? = some d ∧
      interpolate_4_buffer buf i f = some (interpolate_4 f a b c d) ∧
      interpolate_4_wrap buf i f = some (interpolate_4 f a b c d) ∧
      interpolate_4_safe buf i f = some (interpolate_4 f a b c d) := by
  obtain ⟨a, b, c, d, ha, hb, hc, hd, hs, hw, hr⟩ :=
    interpolate_4_inside buf (i : Int) f (by omega) (by omega)
  have e1 : ((i : Int) - 1).toNat = i - 1 := by omega
  have e2 : ((i : Int)).toNat = i := by omega
  have e3 : ((i : Int) + 1).toNat = i + 1 := by omega
  have e4 : ((i : Int) + 2).toNat = i + 2 := by omega
  rw [e1] at ha
  rw [e2] at hb
  rw [e3] at hc
  rw [e4] at hd
  exact ⟨a, b, c, d, ha, hb, hc, hd, hr, hw, hs⟩

/-- C34, on a buffer of six cells at index `2`. -/
theorem policies_agree_inside_witness :
    ∃ a b c d,
      ([10, 11, 12, 13, 14, 15] : List ℚ)[2 - 1]? = some a ∧
      ([10, 11, 12, 13, 14, 15] : List ℚ)[2]? = some b ∧
      ([10, 11, 12, 13, 14, 15] : List ℚ)[2 + 1]? = some c ∧
      ([10, 11, 12, 13, 14, 15] : List ℚ)[2 + 2]? = some d ∧
      interpolate_4_buffer ([10, 11, 12, 13, 14, 15] : List ℚ) (2 : Nat) (1 / 3)
        = some (interpolate_4 (1 / 3) a b c d) ∧
      interpolate_4_wrap ([10, 11, 12, 13, 14, 15] : List ℚ) (2 : Nat) (1 / 3)
        = some (interpolate_4 (1 / 3) a b c d) ∧
      interpolate_4_safe ([10, 11, 12, 13, 14, 15] : List ℚ) (2 : Nat) (1 / 3)
        = some (interpolate_4 (1 / 3) a b c d) :=
  policies_agree_inside [10, 11, 12, 13, 14, 15] 2 (1 / 3) (by decide) (by decide) (by decide)

namespace AudioRingBuffer

/-- C36, evaluated on the code: `set_write_index` discards the value of
`min<size_t>(index, (length - 1))`.  On a buffer of four cells
`set_write_index(7)` leaves the write index `7`, not `min(7, 3) = 3`; the
invariant `write_index < length` is lost and the next `read()` and `write()`
designate cell `7`, outside the view. -/
theorem set_write_index_not_clamped :
    ((AudioRingBuffer.new [(10 : Int), 11, 12, 13]).set_write_index 7).write_index = 7 ∧
    idsp.min 7 ((AudioRingBuffer.new [(10 : Int), 11, 12, 13]).length - 1) = 3 ∧
    ¬ ((AudioRingBuffer.new [(10 : Int), 11, 12, 13]).set_write_index 7).WellFormed ∧
    ((AudioRingBuffer.new [(10 : Int), 11, 12, 13]).set_write_index 7).read = none ∧
    ((AudioRingBuffer.new [(10 : Int), 11, 12, 13]).set_write_index 7).write 5 = none ∧
    ((AudioRingBuffer.new [(10 : Int), 11, 12, 13]).set_write_index 4).write_index = 4 := by
  decide

variable {K : Type} [LinearOrderedField K] [FloorRing K]

/-- C37. In exact arithmetic `interpolate_4(0, a, b, c, d) = b` and
`interpolate_4(1, a, b, c, d) = c`, so the segment between `b` and `c` ends where
the next one, between `c` and `d`, starts; and an interpolated read at an integral
position `p` with its four cells inside the view returns the stored sample
`buf[p]`, under each of the three boundary policies. -/
theorem interpolation_through_samples (a b c d e : K) (rb : AudioRingBuffer K) (p : Nat)
    (hp : 1 ≤ p) (hq : p + 2 < rb.buffer.length) :
    interpolate_4 0 a b c d = b ∧
    interpolate_4 1 a b c d = c ∧
    interpolate_4 1 a b c d = interpolate_4 0 b c d e ∧
    (∃ v, rb.buffer[p]? = some v ∧
      rb.read_at_smooth_raw (p : K) = some v ∧
      rb.read_at_smooth_wrap (p : K) = some v ∧
      rb.read_at_smooth_safe (p : K) = some v) := by
  have h0 : ∀ a b c d : K, interpolate_4 0 a b c d = b := by
    intro a b c d
    simp [interpolate_4]
  have h1 : ∀ a b c d : K, interpolate_4 1 a b c d = c := by
    intro a b c d
    simp [interpolate_4]
  refine ⟨h0 a b c d, h1 a b c d, by rw [h0, h1], ?_⟩
  have e : float_to_int ((p : Nat) : K) = (p : Int) := by
    have h := float_to_int_intCast (K := K) (p : Int)
    rwa [Int.cast_natCast] at h
  obtain ⟨a1, b1, c1, d1, _, hb, _, _, hs, hw, hr⟩ :=
    interpolate_4_inside rb.buffer (p : Int) (0 : K) (by omega) (by omega)
  have e2 : ((p : Int)).toNat = p := by omega
  rw [e2] at hb
  rw [h0] at hs hw hr
  refine ⟨b1, hb, ?_, ?_, ?_⟩
  · simp only [read_at_smooth_raw, e, Int.cast_natCast, sub_self]
    exact hr
  · simp only [read_at_smooth_wrap, e, Int.cast_natCast, sub_self]
    exact hw
  · simp only [read_at_smooth_safe, e, Int.cast_natCast, sub_self]
    exact hs

/-- C37, on a buffer of six cells at position `2`. -/
theorem interpolation_through_samples_witness :
    interpolate_4 0 (1 : ℚ) 2 4 8 = 2 ∧
    interpolate_4 1 (1 : ℚ) 2 4 8 = 4 ∧
    interpolate_4 1 (1 : ℚ) 2 4 8 = interpolate_4 0 2 4 8 16 ∧
    (∃ v, (AudioRingBuffer.mk [(10 : ℚ), 11, 12, 13, 14, 15] 0 6).buffer[2]? = some v ∧
      (AudioRingBuffer.mk [(10 : ℚ), 11, 12, 13, 14, 15] 0 6).read_at_smooth_raw ((2 : Nat) : ℚ)
        = some v ∧
      (AudioRingBuffer.mk [(10 : ℚ), 11, 12, 13, 14, 15] 0 6).read_at_smooth_wrap ((2 : Nat) : ℚ)
        = some v ∧
      (AudioRingBuffer.mk [(10 : ℚ), 11, 12, 13, 14, 15] 0 6).read_at_smooth_safe ((2 : Nat) : ℚ)
        = some v) :=
  interpolation_through_samples 1 2 4 8 16 (AudioRingBuffer.mk [(10 : ℚ), 11, 12, 13, 14, 15] 0 6)
    2 (by decide) (by decide)

end AudioRingBuffer

namespace FDN_4

/-- C38. Two calls of `FDN_4::process` from the same state that differ only in
`in_r` return the same outputs `(out_l, out_r)` and leave the same next state: the
body of `process` never reads `in_r`.  On the sample state the call succeeds. -/
theorem right_input_ignored {K : Type} [Field K] (fdn : FDN_4 K) (in_l in_r in_r2 : K) :
    fdn.process in_l in_r = fdn.process in_l in_r2 ∧
    (sample_state.process 1 2).isSome = true ∧
    sample_state.process 1 2 = sample_state.process 1 (-7) :=
  ⟨rfl, rfl, rfl⟩

end FDN_4

/-! ## Dattorro output taps -/

theorem to_int_of_range (z : Int) (h1 : -2147483648 ≤ z) (h2 : z < 2147483648) :
    to_int z = z := by
  unfold to_int
  omega

theorem to_int_add_wrap (z : Int) (h1 : -2147483648 ≤ z) (h2 : z < 2147483648) :
    to_int (z + 4294967296) = z := by
  unfold to_int
  omega

theorem to_size_t_of_neg (z : Int) (h1 : -4294967296 ≤ z) (h2 : z < 0) :
    (to_size_t z : Int) = z + 4294967296 := by
  unfold to_size_t
  omega

theorem to_size_t_of_nonneg (z : Int) (h1 : 0 ≤ z) (h2 : z < 4294967296) :
    to_size_t z = z.toNat := by
  unfold to_size_t
  omega

namespace AudioRingBuffer

theorem read_offset_inside {S : Type} (rb : AudioRingBuffer S) (offset : Nat)
    (hw : rb.write_index < rb.length) (hl : rb.length ≤ rb.buffer.length)
    (hsz : rb.length < 2147483648) (ho : offset ≤ rb.length - 1) :
    rb.read_offset_pos offset
      = (if offset ≤ rb.write_index then (rb.write_index : Int) - offset
         else (rb.write_index : Int) + rb.length - offset) ∧
    0 ≤ rb.read_offset_pos offset ∧ rb.read_offset_pos offset < rb.length ∧
    ∃ v, rb.read_offset offset = some v := by
  have hwI : to_int (rb.write_index : Int) = rb.write_index :=
    to_int_of_range _ (by omega) (by omega)
  have hoI : to_int (offset : Int) = offset := to_int_of_range _ (by omega) (by omega)
  have hlI : to_int (rb.length : Int) = rb.length := to_int_of_range _ (by omega) (by omega)
  have hp : to_int ((rb.write_index : Int) - offset) = (rb.write_index : Int) - offset :=
    to_int_of_range _ (by omega) (by omega)
  have hpos : rb.read_offset_pos offset
      = (if offset ≤ rb.write_index then (rb.write_index : Int) - offset
         else (rb.write_index : Int) + rb.length - offset) := by
    simp only [read_offset_pos, hwI, hoI, hp, hlI]
    by_cases hc : offset ≤ rb.write_index
    · rw [if_pos hc, if_neg (by omega), if_neg (by omega)]
    · rw [if_neg hc, if_pos (by omega), to_size_t_of_neg _ (by omega) (by omega)]
      have e : (rb.write_index : Int) - offset + 4294967296 + rb.length
          = ((rb.write_index : Int) + rb.length - offset) + 4294967296 := by ring
      rw [e, to_int_add_wrap _ (by omega) (by omega)]
  have h0 : 0 ≤ rb.read_offset_pos offset := by
    rw [hpos]; split <;> omega
  have h1 : rb.read_offset_pos offset < rb.length := by
    rw [hpos]; split <;> omega
  refine ⟨hpos, h0, h1, ?_⟩
  have h2 : rb.read_offset_pos offset < 4294967296 := lt_trans h1 (by omega)
  have hlt : to_size_t (rb.read_offset_pos offset) < rb.buffer.length := by
    rw [to_size_t_of_nonneg _ h0 h2]
    clear hpos hwI hoI hlI hp h2
    generalize rb.read_offset_pos offset = z at h0 h1 ⊢
    omega
  unfold read_offset
  exact ⟨_, List.getElem?_eq_getElem hlt⟩

end AudioRingBuffer

namespace DattorroPlate

/-- C39. For `SAMPLE_RATE = 44100` and `SAMPLE_RATE = 48000`, each of the fourteen
tap offsets passed to `read_offset` in `DattorroPlate::_process` is at most
`capacity - 1` of the delay line it reads (with at least `250` samples to spare),
so `min(offset, length - 1)` is the offset itself; and on every delay line of that
capacity with its write index in range the tap reads the cell at
`write_index - offset`, taken modulo the capacity, which is inside the view. -/
theorem taps_inside_delay_lines {S : Type} (SAMPLE_RATE : Nat) (t : Nat × Nat)
    (rb : AudioRingBuffer S) (ap : AllpassProcessor S)
    (hsr : SAMPLE_RATE = 44100 ∨ SAMPLE_RATE = 48000) (ht : t ∈ taps SAMPLE_RATE)
    (hlen : rb.length = t.2) (hcap : rb.buffer.length = t.2)
    (hw : rb.write_index < rb.length) (hap : ap.delay = rb) :
    taps 44100 =
      [(393, 6240), (4390, 6240), (2384, 2663), (2947, 4640), (2938, 6589), (276, 3939),
       (1574, 5504), (520, 6589), (5355, 6589), (1812, 3939), (3947, 5504), (3116, 6240),
       (494, 2663), (178, 4640)] ∧
    taps 48000 =
      [(428, 6792), (4790, 6792), (2601, 2899), (3215, 5051), (3205, 7172), (301, 4287),
       (1717, 5991), (568, 7172), (5842, 7172), (1977, 4287), (4305, 5991), (3400, 6792),
       (539, 2899), (194, 5051)] ∧
    t.1 ≤ t.2 - 1 ∧ t.1 + 250 ≤ t.2 ∧
    idsp.min t.1 (rb.length - 1) = t.1 ∧
    rb.read_offset_pos t.1
      = (if t.1 ≤ rb.write_index then (rb.write_index : Int) - t.1
         else (rb.write_index : Int) + rb.length - t.1) ∧
    0 ≤ rb.read_offset_pos t.1 ∧ rb.read_offset_pos t.1 < rb.length ∧
    (∃ v, rb.read_offset t.1 = some v ∧ ap.read_offset t.1 = some v) := by
  have e1 : taps 44100 =
      [(393, 6240), (4390, 6240), (2384, 2663), (2947, 4640), (2938, 6589), (276, 3939),
       (1574, 5504), (520, 6589), (5355, 6589), (1812, 3939), (3947, 5504), (3116, 6240),
       (494, 2663), (178, 4640)] := by decide
  have e2 : taps 48000 =
      [(428, 6792), (4790, 6792), (2601, 2899), (3215, 5051), (3205, 7172), (301, 4287),
       (1717, 5991), (568, 7172), (5842, 7172), (1977, 4287), (4305, 5991), (3400, 6792),
       (539, 2899), (194, 5051)] := by decide
  have hb : t.1 + 250 ≤ t.2 ∧ t.2 < 8000 := by
    rcases hsr with h | h
    · rw [h, e1] at ht
      simp only [List.mem_cons, List.mem_singleton, List.not_mem_nil, or_false] at ht
      rcases ht with h | h | h | h | h | h | h | h | h | h | h | h | h | h <;>
        (rw [h]; decide)
    · rw [h, e2] at ht
      simp only [List.mem_cons, List.mem_singleton, List.not_mem_nil, or_false] at ht
      rcases ht with h | h | h | h | h | h | h | h | h | h | h | h | h | h <;>
        (rw [h]; decide)
  obtain ⟨hb1, hb2⟩ := hb
  obtain ⟨p1, p2, p3, v, hv⟩ :=
    rb.read_offset_inside t.1 hw (by omega) (by omega) (by omega)
  refine ⟨e1, e2, by omega, hb1, ?_, p1, p2, p3, v, hv, ?_⟩
  · unfold idsp.min
    split <;> omega
  · rw [AllpassProcessor.read_offset, hap]
    exact hv

/-- C39, at the third tap at `44100` Hz (`54.195` ms into the delay of `allpass_A`,
the tap with the least room) on a zeroed delay line of `2663` cells. -/
theorem taps_inside_delay_lines_witness :
    taps 44100 =
      [(393, 6240), (4390, 6240), (2384, 2663), (2947, 4640), (2938, 6589), (276, 3939),
       (1574, 5504), (520, 6589), (5355, 6589), (1812, 3939), (3947, 5504), (3116, 6240),
       (494, 2663), (178, 4640)] ∧
    taps 48000 =
      [(428, 6792), (4790, 6792), (2601, 2899), (3215, 5051), (3205, 7172), (301, 4287),
       (1717, 5991), (568, 7172), (5842, 7172), (1977, 4287), (4305, 5991), (3400, 6792),
       (539, 2899), (194, 5051)] ∧
    ((2384, 2663) : Nat × Nat).1 ≤ ((2384, 2663) : Nat × Nat).2 - 1 ∧
    ((2384, 2663) : Nat × Nat).1 + 250 ≤ ((2384, 2663) : Nat × Nat).2 ∧
    idsp.min ((2384, 2663) : Nat × Nat).1
      ((AudioRingBuffer.mk (List.replicate 2663 (0 : Int)) 5 2663).length - 1)
      = ((2384, 2663) : Nat × Nat).1 ∧
    (AudioRingBuffer.mk (List.replicate 2663 (0 : Int)) 5 2663).read_offset_pos
        ((2384, 2663) : Nat × Nat).1
      = (if ((2384, 2663) : Nat × Nat).1
            ≤ (AudioRingBuffer.mk (List.replicate 2663 (0 : Int)) 5 2663).write_index then
          ((AudioRingBuffer.mk (List.replicate 2663 (0 : Int)) 5 2663).write_index : Int)
            - ((2384, 2663) : Nat × Nat).1
         else ((AudioRingBuffer.mk (List.replicate 2663 (0 : Int)) 5 2663).write_index : Int)
            + (AudioRingBuffer.mk (List.replicate 2663 (0 : Int)) 5 2663).length
            - ((2384, 2663) : Nat × Nat).1) ∧
    0 ≤ (AudioRingBuffer.mk (List.replicate 2663 (0 : Int)) 5 2663).read_offset_pos
        ((2384, 2663) : Nat × Nat).1 ∧
    (AudioRingBuffer.mk (List.replicate 2663 (0 : Int)) 5 2663).read_offset_pos
        ((2384, 2663) : Nat × Nat).1
      < (AudioRingBuffer.mk (List.replicate 2663 (0 : Int)) 5 2663).length ∧
    (∃ v, (AudioRingBuffer.mk (List.replicate 2663 (0 : Int)) 5 2663).read_offset
        ((2384, 2663) : Nat × Nat).1 = some v ∧
      (AllpassProcessor.mk (AudioRingBuffer.mk (List.replicate 2663 (0 : Int)) 5 2663)
        1).read_offset ((2384, 2663) : Nat × Nat).1 = some v) :=
  taps_inside_delay_lines 44100 (2384, 2663)
    (AudioRingBuffer.mk (List.replicate 2663 (0 : Int)) 5 2663)
    (AllpassProcessor.mk (AudioRingBuffer.mk (List.replicate 2663 (0 : Int)) 5 2663) 1)
    (Or.inl rfl) (by decide) rfl (List.length_replicate 2663 0) (by decide) rfl

end DattorroPlate

/-! ## The safe policy -/

theorem wrap_safe_range (x lo hi : Int) (h : lo < hi) :
    lo ≤ wrap_safe x lo hi ∧ wrap_safe x lo hi < hi ∧ (hi - lo) ∣ (wrap_safe x lo hi - x) := by
  obtain ⟨r, hrdef⟩ : ∃ r, r = hi - lo := ⟨_, rfl⟩
  have hr : 0 < r := by omega
  unfold wrap_safe
  simp only []
  rw [← hrdef]
  by_cases hx : x < lo
  · rw [if_pos hx]
    have hq : (lo - x).tdiv r = (lo - x) / r := Int.tdiv_eq_ediv (by omega) (by omega)
    rw [hq]
    have hm := Int.ediv_add_emod (lo - x) r
    have hm0 := Int.emod_nonneg (lo - x) (ne_of_gt hr)
    have hm1 := Int.emod_lt_of_pos (lo - x) hr
    generalize (lo - x) / r = q at hm ⊢
    generalize (lo - x) % r = m at hm hm0 hm1
    have e : x + r * (q + 1) - lo = r - m := by
      have : r * (q + 1) = r * q + r := by ring
      omega
    rw [e, Int.tmod_eq_emod (by omega) (by omega)]
    have k0 := Int.emod_nonneg (r - m) (ne_of_gt hr)
    have k1 := Int.emod_lt_of_pos (r - m) hr
    have k2 := Int.ediv_add_emod (r - m) r
    refine ⟨by omega, by omega, ⟨q + 1 - (r - m) / r, ?_⟩⟩
    have : r * (q + 1 - (r - m) / r) = r * q + r - r * ((r - m) / r) := by ring
    omega
  · rw [if_neg hx, Int.tmod_eq_emod (by omega) (by omega)]
    have k0 := Int.emod_nonneg (x - lo) (ne_of_gt hr)
    have k1 := Int.emod_lt_of_pos (x - lo) hr
    have k2 := Int.ediv_add_emod (x - lo) r
    refine ⟨by omega, by omega, ⟨-((x - lo) / r), ?_⟩⟩
    have : r * (-((x - lo) / r)) = -(r * ((x - lo) / r)) := by ring
    omega

/-- C35. For all signed integers `x` and `lo < hi`, `wrap_safe(x, lo, hi)` lies in
`[lo, hi)` and differs from `x` by a multiple of `hi - lo`; consequently, on a
buffer of at least one cell, each of the four indices that `interpolate_4_safe`
resolves, for every integer index however far out of range, designates a cell of
the buffer and the function returns the interpolation of these four cells. -/
theorem safe_policy_folds {K : Type} [Field K] (x lo hi : Int) (buf : List K) (i : Int)
    (f : K) (h : lo < hi) (hb : 1 ≤ buf.length) :
    lo ≤ wrap_safe x lo hi ∧ wrap_safe x lo hi < hi ∧
    (hi - lo) ∣ (wrap_safe x lo hi - x) ∧
    (∀ k : Int, 0 ≤ wrap_safe (i + k) 0 buf.length ∧
      wrap_safe (i + k) 0 buf.length < buf.length) ∧
    ∃ a b c d,
      buf[(wrap_safe (i - 1) 0 buf.length).toNat]? = some a ∧
      buf[(wrap_safe i 0 buf.length).toNat]? = some b ∧
      buf[(wrap_safe (i + 1) 0 buf.length).toNat]? = some c ∧
      buf[(wrap_safe (i + 2) 0 buf.length).toNat]? = some d ∧
      interpolate_4_safe buf i f = some (interpolate_4 f a b c d) := by
  obtain ⟨r1, r2, r3⟩ := wrap_safe_range x lo hi h
  have hn : (0 : Int) < (buf.length : Int) := by omega
  have hk : ∀ j : Int, 0 ≤ wrap_safe j 0 buf.length ∧
      wrap_safe j 0 buf.length < buf.length := by
    intro j
    obtain ⟨a1, a2, _⟩ := wrap_safe_range j 0 buf.length hn
    exact ⟨a1, a2⟩
  obtain ⟨a, ha, ea⟩ := index_inside buf _ (hk (i - 1)).1 (hk (i - 1)).2
  obtain ⟨b, hb1, eb⟩ := index_inside buf _ (hk i).1 (hk i).2
  obtain ⟨c, hc, ec⟩ := index_inside buf _ (hk (i + 1)).1 (hk (i + 1)).2
  obtain ⟨d, hd, ed⟩ := index_inside buf _ (hk (i + 2)).1 (hk (i + 2)).2
  refine ⟨r1, r2, r3, fun k => hk (i + k), a, b, c, d, ha, hb1, hc, hd, ?_⟩
  simp only [interpolate_4_safe, ea, eb, ec, ed]

/-- C35, at the point where the single wrap fails: `wrap_safe(-50, -6, 9)`, and the
index `-50` on a buffer of four cells. -/
theorem safe_policy_folds_witness :
    (-6 : Int) ≤ wrap_safe (-50) (-6) 9 ∧ wrap_safe (-50) (-6) 9 < 9 ∧
    ((9 : Int) - (-6)) ∣ (wrap_safe (-50) (-6) 9 - (-50)) ∧
    (∀ k : Int, 0 ≤ wrap_safe (-50 + k) 0 ([10, 11, 12, 13] : List ℚ).length ∧
      wrap_safe (-50 + k) 0 ([10, 11, 12, 13] : List ℚ).length
        < ([10, 11, 12, 13] : List ℚ).length) ∧
    ∃ a b c d,
      ([10, 11, 12, 13] : List ℚ)[(wrap_safe (-50 - 1) 0
          ([10, 11, 12, 13] : List ℚ).length).toNat]? = some a ∧
      ([10, 11, 12, 13] : List ℚ)[(wrap_safe (-50) 0
          ([10, 11, 12, 13] : List ℚ).length).toNat]? = some b ∧
      ([10, 11, 12, 13] : List ℚ)[(wrap_safe (-50 + 1) 0
          ([10, 11, 12, 13] : List ℚ).length).toNat]? = some c ∧
      ([10, 11, 12, 13] : List ℚ)[(wrap_safe (-50 + 2) 0
          ([10, 11, 12, 13] : List ℚ).length).toNat]? = some d ∧
      interpolate_4_safe ([10, 11, 12, 13] : List ℚ) (-50) (1 / 2)
        = some (interpolate_4 (1 / 2) a b c d) :=
  safe_policy_folds (-50) (-6) 9 [10, 11, 12, 13] (-50) (1 / 2) (by decide) (by decide)

/-! ## Offset reads -/

namespace AudioRingBuffer

variable {K : Type} [LinearOrderedField K] [FloorRing K]

/-- C32. For every ring buffer with `write_index < logical_length <= capacity` and
every fractional offset in `[2, logical_length - 1]`, each of the four neighbor
indices that `read_offset_smooth_wrap` resolves (the wrap of `read_index + k` for
`k = -1, 0, 1, 2`) lies in `[0, capacity)`, and the read returns the interpolation
of four cells of the view. -/
theorem wrapped_taps_in_bounds (rb : AudioRingBuffer K) (offset : K)
    (hw : rb.write_index < rb.length) (hl : rb.length ≤ rb.buffer.length)
    (h2 : 2 ≤ offset) (h3 : offset ≤ (rb.length : K) - 1) :
    (∀ k : Int, -1 ≤ k → k ≤ 2 →
      0 ≤ wrap (float_to_int ((rb.write_index : K) - offset) + k) 0 rb.buffer.length ∧
      wrap (float_to_int ((rb.write_index : K) - offset) + k) 0 rb.buffer.length
        < rb.buffer.length) ∧
    ∃ a b c d,
      rb.read_offset_smooth_wrap offset
        = some (interpolate_4
            (((rb.write_index : K) - offset)
              - (float_to_int ((rb.write_index : K) - offset) : K)) a b c d) := by
  have hw1 : (rb.write_index : K) + 1 ≤ (rb.length : K) := by exact_mod_cast hw
  have hw0 : (0 : K) ≤ (rb.write_index : K) := Nat.cast_nonneg _
  obtain ⟨t1, t2⟩ := float_to_int_bounds ((rb.write_index : K) - offset)
    (-(rb.length : Int) + 1) ((rb.length : Int) - 3)
    (by push_cast; linarith) (by push_cast; linarith)
  have hn : (0 : Int) < (rb.buffer.length : Int) := by omega
  refine ⟨?_, ?_⟩
  · intro k k1 k2
    rw [wrap_eq_emod _ _ (by omega) (by omega)]
    exact ⟨Int.emod_nonneg _ (ne_of_gt hn), Int.emod_lt_of_pos _ hn⟩
  · obtain ⟨a, b, c, d, _, _, _, _, hr⟩ :=
      interpolate_4_wrap_cells rb.buffer (float_to_int ((rb.write_index : K) - offset))
        (((rb.write_index : K) - offset)
          - (float_to_int ((rb.write_index : K) - offset) : K)) (by omega) (by omega)
    exact ⟨a, b, c, d, hr⟩

/-- C32, on a buffer of six cells with the write index at `0` and the offset `5/2`. -/
theorem wrapped_taps_in_bounds_witness :
    (∀ k : Int, -1 ≤ k → k ≤ 2 →
      0 ≤ wrap (float_to_int
          (((AudioRingBuffer.mk [(10 : ℚ), 11, 12, 13, 14, 15] 0 6).write_index : ℚ) - 5 / 2) + k)
          0 (AudioRingBuffer.mk [(10 : ℚ), 11, 12, 13, 14, 15] 0 6).buffer.length ∧
      wrap (float_to_int
          (((AudioRingBuffer.mk [(10 : ℚ), 11, 12, 13, 14, 15] 0 6).write_index : ℚ) - 5 / 2) + k)
          0 (AudioRingBuffer.mk [(10 : ℚ), 11, 12, 13, 14, 15] 0 6).buffer.length
        < (AudioRingBuffer.mk [(10 : ℚ), 11, 12, 13, 14, 15] 0 6).buffer.length) ∧
    ∃ a b c d,
      (AudioRingBuffer.mk [(10 : ℚ), 11, 12, 13, 14, 15] 0 6).read_offset_smooth_wrap (5 / 2)
        = some (interpolate_4
            ((((AudioRingBuffer.mk [(10 : ℚ), 11, 12, 13, 14, 15] 0 6).write_index : ℚ) - 5 / 2)
              - (float_to_int
                  (((AudioRingBuffer.mk [(10 : ℚ), 11, 12, 13, 14, 15] 0 6).write_index : ℚ)
                    - 5 / 2) : ℚ)) a b c d) :=
  wrapped_taps_in_bounds (AudioRingBuffer.mk [(10 : ℚ), 11, 12, 13, 14, 15] 0 6) (5 / 2)
    (by decide) (by decide) (by norm_num) (by norm_num)

end AudioRingBuffer

namespace AudioRingBuffer

variable {K : Type} [LinearOrderedField K] [FloorRing K]

/-- C33, counterexample. On a buffer of six cells with the write index at `0`, the
offset `5/2` (inside `[2, length - 1]`) gives the read position `-5/2`; the index
handed to the interpolator is `-2`, not `floor(-5/2) = -3`, and the fraction is
`-1/2`, outside `[0, 1)`. -/
theorem offset_index_is_not_floor :
    float_to_int (((AudioRingBuffer.mk [(10 : ℚ), 11, 12, 13, 14, 15] 0 6).write_index : ℚ)
      - 5 / 2) = -2 ∧
    ⌊((AudioRingBuffer.mk [(10 : ℚ), 11, 12, 13, 14, 15] 0 6).write_index : ℚ) - 5 / 2⌋ = -3 ∧
    (((AudioRingBuffer.mk [(10 : ℚ), 11, 12, 13, 14, 15] 0 6).write_index : ℚ) - 5 / 2)
      - ((-2 : Int) : ℚ) = -1 / 2 ∧
    (AudioRingBuffer.mk [(10 : ℚ), 11, 12, 13, 14, 15] 0 6).read_offset_smooth_wrap (5 / 2)
      = interpolate_4_wrap [(10 : ℚ), 11, 12, 13, 14, 15] (-2) (-1 / 2) ∧
    (AudioRingBuffer.mk [(10 : ℚ), 11, 12, 13, 14, 15] 0 6).read_offset_smooth_safe (5 / 2)
      = interpolate_4_safe [(10 : ℚ), 11, 12, 13, 14, 15] (-2) (-1 / 2) ∧
    (AudioRingBuffer.mk [(10 : ℚ), 11, 12, 13, 14, 15] 0 6).read_offset_smooth_raw (5 / 2)
      = interpolate_4_buffer [(10 : ℚ), 11, 12, 13, 14, 15] (-2) (-1 / 2) := by
  have e : float_to_int (((0 : Nat) : ℚ) - 5 / 2) = -2 :=
    float_to_int_eq_neg _ (-2) (by norm_num) (by norm_num) (by norm_num)
  have ef : ⌊((0 : Nat) : ℚ) - 5 / 2⌋ = -3 := by
    rw [Int.floor_eq_iff]
    constructor <;> norm_num
  have efr : (((0 : Nat) : ℚ) - 5 / 2) - ((-2 : Int) : ℚ) = -1 / 2 := by norm_num
  refine ⟨e, ef, efr, ?_, ?_, ?_⟩
  · simp only [read_offset_smooth_wrap, e, efr]
  · simp only [read_offset_smooth_safe, e, efr]
  · simp only [read_offset_smooth_raw, e, efr]

/-- C33, amended. In `read_offset_smooth_safe`, `_wrap` and `_raw`, for every state
with `write_index < logical_length` and every offset in `[2, logical_length - 1]`,
the integer index handed to the interpolator is `write_index - offset` truncated
toward zero: when `write_index - offset >= 0` the interpolator is called with the
index `floor(write_index - offset)` and a fraction in `[0, 1)`; when
`write_index - offset < 0` it is called with the index `ceil(write_index - offset)`
and a fraction in `(-1, 0]`. -/
theorem offset_index_truncates (rb : AudioRingBuffer K) (offset : K)
    (hw : rb.write_index < rb.length) (h2 : 2 ≤ offset)
    (h3 : offset ≤ (rb.length : K) - 1) :
    (offset ≤ (rb.write_index : K) →
      0 ≤ ((rb.write_index : K) - offset) - (⌊(rb.write_index : K) - offset⌋ : K) ∧
      ((rb.write_index : K) - offset) - (⌊(rb.write_index : K) - offset⌋ : K) < 1 ∧
      rb.read_offset_smooth_safe offset
        = interpolate_4_safe rb.buffer ⌊(rb.write_index : K) - offset⌋
            (((rb.write_index : K) - offset) - (⌊(rb.write_index : K) - offset⌋ : K)) ∧
      rb.read_offset_smooth_wrap offset
        = interpolate_4_wrap rb.buffer ⌊(rb.write_index : K) - offset⌋
            (((rb.write_index : K) - offset) - (⌊(rb.write_index : K) - offset⌋ : K)) ∧
      rb.read_offset_smooth_raw offset
        = interpolate_4_buffer rb.buffer ⌊(rb.write_index : K) - offset⌋
            (((rb.write_index : K) - offset) - (⌊(rb.write_index : K) - offset⌋ : K))) ∧
    ((rb.write_index : K) < offset →
      -1 < ((rb.write_index : K) - offset) - (⌈(rb.write_index : K) - offset⌉ : K) ∧
      ((rb.write_index : K) - offset) - (⌈(rb.write_index : K) - offset⌉ : K) ≤ 0 ∧
      rb.read_offset_smooth_safe offset
        = interpolate_4_safe rb.buffer ⌈(rb.write_index : K) - offset⌉
            (((rb.write_index : K) - offset) - (⌈(rb.write_index : K) - offset⌉ : K)) ∧
      rb.read_offset_smooth_wrap offset
        = interpolate_4_wrap rb.buffer ⌈(rb.write_index : K) - offset⌉
            (((rb.write_index : K) - offset) - (⌈(rb.write_index : K) - offset⌉ : K)) ∧
      rb.read_offset_smooth_raw offset
        = interpolate_4_buffer rb.buffer ⌈(rb.write_index : K) - offset⌉
            (((rb.write_index : K) - offset) - (⌈(rb.write_index : K) - offset⌉ : K))) := by
  have _ := hw
  have _ := h2
  have _ := h3
  refine ⟨?_, ?_⟩
  · intro h
    have h0 : 0 ≤ (rb.write_index : K) - offset := sub_nonneg.mpr h
    have e : float_to_int ((rb.write_index : K) - offset)
        = ⌊(rb.write_index : K) - offset⌋ := by
      simp only [float_to_int, h0, if_true]
    have a := Int.floor_le ((rb.write_index : K) - offset)
    have b := Int.lt_floor_add_one ((rb.write_index : K) - offset)
    refine ⟨by linarith, by linarith, ?_, ?_, ?_⟩
    · simp only [read_offset_smooth_safe, e]
    · simp only [read_offset_smooth_wrap, e]
    · simp only [read_offset_smooth_raw, e]
  · intro h
    have h0 : ¬ 0 ≤ (rb.write_index : K) - offset := by
      intro h1
      exact absurd h (not_lt.mpr (sub_nonneg.mp h1))
    have e : float_to_int ((rb.write_index : K) - offset)
        = ⌈(rb.write_index : K) - offset⌉ := by
      simp only [float_to_int, h0, if_false]
    have a := Int.le_ceil ((rb.write_index : K) - offset)
    have b := Int.ceil_lt_add_one ((rb.write_index : K) - offset)
    refine ⟨by linarith, by linarith, ?_, ?_, ?_⟩
    · simp only [read_offset_smooth_safe, e]
    · simp only [read_offset_smooth_wrap, e]
    · simp only [read_offset_smooth_raw, e]

/-- C33 amended, on a buffer of six cells with the write index at `1` and the
offset `5/2`: the read position is `-3/2`, the index `ceil(-3/2) = -1` and the
fraction `-1/2`. -/
theorem offset_index_truncates_witness :
    ((5 / 2 : ℚ) ≤ ((AudioRingBuffer.mk [(10 : ℚ), 11, 12, 13, 14, 15] 1 6).write_index : ℚ) →
      0 ≤ (((AudioRingBuffer.mk [(10 : ℚ), 11, 12, 13, 14, 15] 1 6).write_index : ℚ) - 5 / 2)
          - (⌊((AudioRingBuffer.mk [(10 : ℚ), 11, 12, 13, 14, 15] 1 6).write_index : ℚ)
              - 5 / 2⌋ : ℚ) ∧
      (((AudioRingBuffer.mk [(10 : ℚ), 11, 12, 13, 14, 15] 1 6).write_index : ℚ) - 5 / 2)
          - (⌊((AudioRingBuffer.mk [(10 : ℚ), 11, 12, 13, 14, 15] 1 6).write_index : ℚ)
              - 5 / 2⌋ : ℚ) < 1 ∧
      (AudioRingBuffer.mk [(10 : ℚ), 11, 12, 13, 14, 15] 1 6).read_offset_smooth_safe (5 / 2)
        = interpolate_4_safe (AudioRingBuffer.mk [(10 : ℚ), 11, 12, 13, 14, 15] 1 6).buffer
            ⌊((AudioRingBuffer.mk [(10 : ℚ), 11, 12, 13, 14, 15] 1 6).write_index : ℚ) - 5 / 2⌋
            ((((AudioRingBuffer.mk [(10 : ℚ), 11, 12, 13, 14, 15] 1 6).write_index : ℚ) - 5 / 2)
              - (⌊((AudioRingBuffer.mk [(10 : ℚ), 11, 12, 13, 14, 15] 1 6).write_index : ℚ)
                  - 5 / 2⌋ : ℚ)) ∧
      (AudioRingBuffer.mk [(10 : ℚ), 11, 12, 13, 14, 15] 1 6).read_offset_smooth_wrap (5 / 2)
        = interpolate_4_wrap (AudioRingBuffer.mk [(10 : ℚ), 11, 12, 13, 14, 15] 1 6).buffer
            ⌊((AudioRingBuffer.mk [(10 : ℚ), 11, 12, 13, 14, 15] 1 6).write_index : ℚ) - 5 / 2⌋
            ((((AudioRingBuffer.mk [(10 : ℚ), 11, 12, 13, 14, 15] 1 6).write_index : ℚ) - 5 / 2)
              - (⌊((AudioRingBuffer.mk [(10 : ℚ), 11, 12, 13, 14, 15] 1 6).write_index : ℚ)
                  - 5 / 2⌋ : ℚ)) ∧
      (AudioRingBuffer.mk [(10 : ℚ), 11, 12, 13, 14, 15] 1 6).read_offset_smooth_raw (5 / 2)
        = interpolate_4_buffer (AudioRingBuffer.mk [(10 : ℚ), 11, 12, 13, 14, 15] 1 6).buffer
            ⌊((AudioRingBuffer.mk [(10 : ℚ), 11, 12, 13, 14, 15] 1 6).write_index : ℚ) - 5 / 2⌋
            ((((AudioRingBuffer.mk [(10 : ℚ), 11, 12, 13, 14, 15] 1 6).write_index : ℚ) - 5 / 2)
              - (⌊((AudioRingBuffer.mk [(10 : ℚ), 11, 12, 13, 14, 15] 1 6).write_index : ℚ)
                  - 5 / 2⌋ : ℚ))) ∧
    (((AudioRingBuffer.mk [(10 : ℚ), 11, 12, 13, 14, 15] 1 6).write_index : ℚ) < 5 / 2 →
      -1 < (((AudioRingBuffer.mk [(10 : ℚ), 11, 12, 13, 14, 15] 1 6).write_index : ℚ) - 5 / 2)
          - (⌈((AudioRingBuffer.mk [(10 : ℚ), 11, 12, 13, 14, 15] 1 6).write_index : ℚ)
              - 5 / 2⌉ : ℚ) ∧
      (((AudioRingBuffer.mk [(10 : ℚ), 11, 12, 13, 14, 15] 1 6).write_index : ℚ) - 5 / 2)
          - (⌈((AudioRingBuffer.mk [(10 : ℚ), 11, 12, 13, 14, 15] 1 6).write_index : ℚ)
              - 5 / 2⌉ : ℚ) ≤ 0 ∧
      (AudioRingBuffer.mk [(10 : ℚ), 11, 12, 13, 14, 15] 1 6).read_offset_smooth_safe (5 / 2)
        = interpolate_4_safe (AudioRingBuffer.mk [(10 : ℚ), 11, 12, 13, 14, 15] 1 6).buffer
            ⌈((AudioRingBuffer.mk [(10 : ℚ), 11, 12, 13, 14, 15] 1 6).write_index : ℚ) - 5 / 2⌉
            ((((AudioRingBuffer.mk [(10 : ℚ), 11, 12, 13, 14, 15] 1 6).write_index : ℚ) - 5 / 2)
              - (⌈((AudioRingBuffer.mk [(10 : ℚ), 11, 12, 13, 14, 15] 1 6).write_index : ℚ)
                  - 5 / 2⌉ : ℚ)) ∧
      (AudioRingBuffer.mk [(10 : ℚ), 11, 12, 13, 14, 15] 1 6).read_offset_smooth_wrap (5 / 2)
        = interpolate_4_wrap (AudioRingBuffer.mk [(10 : ℚ), 11, 12, 13, 14, 15] 1 6).buffer
            ⌈((AudioRingBuffer.mk [(10 : ℚ), 11, 12, 13, 14, 15] 1 6).write_index : ℚ) - 5 / 2⌉
            ((((AudioRingBuffer.mk [(10 : ℚ), 11, 12, 13, 14, 15] 1 6).write_index : ℚ) - 5 / 2)
              - (⌈((AudioRingBuffer.mk [(10 : ℚ), 11, 12, 13, 14, 15] 1 6).write_index : ℚ)
                  - 5 / 2⌉ : ℚ)) ∧
      (AudioRingBuffer.mk [(10 : ℚ), 11, 12, 13, 14, 15] 1 6).read_offset_smooth_raw (5 / 2)
        = interpolate_4_buffer (AudioRingBuffer.mk [(10 : ℚ), 11, 12, 13, 14, 15] 1 6).buffer
            ⌈((AudioRingBuffer.mk [(10 : ℚ), 11, 12, 13, 14, 15] 1 6).write_index : ℚ) - 5 / 2⌉
            ((((AudioRingBuffer.mk [(10 : ℚ), 11, 12, 13, 14, 15] 1 6).write_index : ℚ) - 5 / 2)
              - (⌈((AudioRingBuffer.mk [(10 : ℚ), 11, 12, 13, 14, 15] 1 6).write_index : ℚ)
                  - 5 / 2⌉ : ℚ))) :=
  offset_index_truncates (AudioRingBuffer.mk [(10 : ℚ), 11, 12, 13, 14, 15] 1 6) (5 / 2)
    (by decide) (by norm_num) (by norm_num)

end AudioRingBuffer

namespace ModulatedAllpassProcessor

variable {K : Type} [LinearOrderedField K] [FloorRing K]

/-- C31, on the code: at the first call after construction, for every buffer,
every oscillator output and every input, the modulation is `0` (the depth is
`0`), the offset passed to `read_offset_smooth_wrap` is the capacity `N`, the read
position is `0 - N`, and the lower neighbor `wrap(-N - 1, 0, N)` is `-1`: the
read designates a cell before the view. -/
theorem first_call_reads_outside (buf : List K) (lfo_out input : K) :
    (ModulatedAllpassProcessor.new buf).modulation lfo_out = 0 ∧
    float_to_int (((ModulatedAllpassProcessor.new buf).delay.write_index : K)
      - (((ModulatedAllpassProcessor.new buf).delay.get_size : K) - 0))
      = -(buf.length : Int) ∧
    wrap (-(buf.length : Int) - 1) 0 buf.length = -1 ∧
    BufferInterface.index buf (wrap (-(buf.length : Int) - 1) 0 buf.length) = none ∧
    (ModulatedAllpassProcessor.new buf).delay.read_offset_smooth_wrap
      (((ModulatedAllpassProcessor.new buf).delay.get_size : K) - 0) = none ∧
    (ModulatedAllpassProcessor.new buf).process lfo_out input = none := by
  have hm : (ModulatedAllpassProcessor.new buf).modulation lfo_out = 0 := by
    simp only [modulation, ModulatedAllpassProcessor.new, mul_zero]
    rw [if_neg (not_lt.mpr (Nat.cast_nonneg _))]
  have hx : (((ModulatedAllpassProcessor.new buf).delay.write_index : Nat) : K)
      - (((ModulatedAllpassProcessor.new buf).delay.get_size : K) - 0)
      = ((-(buf.length : Int) : Int) : K) := by
    simp [ModulatedAllpassProcessor.new, AudioRingBuffer.new, AudioRingBuffer.get_size]
  have hf : float_to_int (((ModulatedAllpassProcessor.new buf).delay.write_index : K)
      - (((ModulatedAllpassProcessor.new buf).delay.get_size : K) - 0))
      = -(buf.length : Int) := by
    rw [hx]
    exact float_to_int_intCast _
  have hwr : wrap (-(buf.length : Int) - 1) 0 buf.length = -1 := by
    rw [wrap_cases, if_pos (by omega)]
    omega
  have hidx : BufferInterface.index buf (wrap (-(buf.length : Int) - 1) 0 buf.length)
      = none := by
    rw [hwr]
    rfl
  have hread : (ModulatedAllpassProcessor.new buf).delay.read_offset_smooth_wrap
      (((ModulatedAllpassProcessor.new buf).delay.get_size : K) - 0) = none := by
    simp only [AudioRingBuffer.read_offset_smooth_wrap, hf, interpolate_4_wrap]
    have hb : (ModulatedAllpassProcessor.new buf).delay.buffer = buf := rfl
    rw [hb, hidx]
  refine ⟨hm, hf, hwr, hidx, hread, ?_⟩
  simp only [process, _process_sample, hm, hread]

end ModulatedAllpassProcessor

/-! ## The generic ring buffer is a FIFO -/

namespace RingBuffer

variable {T : Type}

theorem holds_new (S : Nat) (dflt : T) : Holds S [] 0 (RingBuffer.new S dflt) := by
  refine ⟨by simp [RingBuffer.new], by simp [RingBuffer.new], by simp [RingBuffer.new],
    Nat.le_refl _, by simp, ?_⟩
  intro k _ hk
  simp at hk

theorem holds_write {S m : Nat} {ws : List T} {rb : RingBuffer T} (h : Holds S ws m rb)
    (hfill : ws.length - m + 1 ≤ S - 1) (v : T) :
    ∃ rb1, rb.write v = some rb1 ∧ Holds S (ws ++ [v]) m rb1 := by
  obtain ⟨hlen, hwp, hrp, hmn, _, hcells⟩ := h
  have hS : 0 < S := by omega
  have hlt : rb._write_pos < rb._data.length := by
    rw [hwp, hlen]
    exact Nat.mod_lt _ hS
  have hw : rb.write v = some
      { _data := rb._data.set rb._write_pos v
        _write_pos := (rb._write_pos + 1) % rb._data.length
        _read_pos := rb._read_pos } := by
    simp only [write, hlt, if_true]
  refine ⟨_, hw, ?_, ?_, hrp, ?_, ?_, ?_⟩
  · simp only [List.length_set]
    exact hlen
  · simp only [List.length_append, List.length_singleton]
    rw [hwp, hlen, Nat.mod_add_mod]
  · simp only [List.length_append, List.length_singleton]
    omega
  · simp only [List.length_append, List.length_singleton]
    omega
  · intro k hk1 hk2
    simp only [List.length_append, List.length_singleton] at hk2
    by_cases hk : k = ws.length
    · subst hk
      simp only []
      rw [hwp, List.getElem?_set_self (by rw [hlen]; exact Nat.mod_lt _ hS),
        List.getElem?_append_right (Nat.le_refl _)]
      simp
    · have hne : ws.length % S ≠ k % S :=
        Ne.symm (mod_ne_of_close k ws.length S (by omega) (by omega))
      simp only []
      rw [hwp, List.getElem?_set_ne hne, hcells k hk1 (by omega),
        List.getElem?_append_left (by omega)]

theorem holds_read {S m : Nat} {ws : List T} {rb : RingBuffer T} (h : Holds S ws m rb)
    (hm : m < ws.length) :
    ∃ v rb1, rb.read = some (v, rb1) ∧ ws[m]? = some v ∧ Holds S ws (m + 1) rb1 := by
  obtain ⟨hlen, hwp, hrp, _, hfill, hcells⟩ := h
  have hv : rb._data[rb._read_pos]? = some ws[m] := by
    rw [hrp, hcells m (Nat.le_refl _) hm]
    exact List.getElem?_eq_getElem hm
  have hr : rb.read = some (ws[m],
      { _data := rb._data
        _write_pos := rb._write_pos
        _read_pos := (rb._read_pos + 1) % rb._data.length }) := by
    simp only [read, hv]
  refine ⟨_, _, hr, List.getElem?_eq_getElem hm, hlen, hwp, ?_, by omega, by omega, ?_⟩
  · simp only []
    rw [hrp, hlen, Nat.mod_add_mod]
  · intro k hk1 hk2
    exact hcells k (by omega) hk2

theorem run_holds (S : Nat) (ops : List (Op T)) :
    ∀ (ws : List T) (m : Nat) (rb : RingBuffer T), Holds S ws m rb →
      Admissible S (ws.length - m) ops →
      ∃ outs rb1, rb.run ops = some (outs, rb1) ∧
        outs = ((ws ++ written ops).drop m).take (reads ops) ∧
        Holds S (ws ++ written ops) (m + reads ops) rb1 := by
  induction ops with
  | nil =>
    intro ws m rb h _
    refine ⟨[], rb, rfl, by simp [reads], ?_⟩
    simpa [written, reads] using h
  | cons op ops ih =>
    intro ws m rb h hadm
    cases op with
    | write v =>
      simp only [Admissible] at hadm
      obtain ⟨h1, h2⟩ := hadm
      obtain ⟨rb1, hw, hh⟩ := holds_write h h1 v
      have hmn : m ≤ ws.length := h.2.2.2.1
      have e : (ws ++ [v]).length - m = ws.length - m + 1 := by
        simp only [List.length_append, List.length_singleton]
        omega
      obtain ⟨outs, rb2, hs, ho, hh2⟩ := ih (ws ++ [v]) m rb1 hh (by rw [e]; exact h2)
      have ea : ws ++ written (Op.write v :: ops) = ws ++ [v] ++ written ops := by
        simp [written]
      refine ⟨outs, rb2, by simp only [run, hw, hs], ?_, ?_⟩
      · rw [ea]; exact ho
      · rw [ea]; exact hh2
    | read =>
      simp only [Admissible] at hadm
      obtain ⟨h1, h2⟩ := hadm
      have hm : m < ws.length := by omega
      obtain ⟨v, rb1, hr, hv, hh⟩ := holds_read h hm
      have e : ws.length - (m + 1) = ws.length - m - 1 := by omega
      obtain ⟨outs, rb2, hs, ho, hh2⟩ := ih ws (m + 1) rb1 hh (by rw [e]; exact h2)
      have hlt : m < (ws ++ written ops).length := by
        simp only [List.length_append]
        omega
      have hget : (ws ++ written ops)[m] = v := by
        have h3 : (ws ++ written ops)[m]? = some v := by
          rw [List.getElem?_append_left hm]; exact hv
        rw [List.getElem?_eq_getElem hlt] at h3
        exact Option.some.inj h3
      have er : m + reads (Op.read :: ops) = m + 1 + reads ops := by
        simp only [reads]
        omega
      refine ⟨v :: outs, rb2, by simp only [run, hr, hs], ?_, ?_⟩
      · simp only [written, reads]
        rw [List.drop_eq_getElem_cons hlt, List.take_succ_cons, hget, ho]
      · rw [er]
        simpa [written] using hh2

theorem holds_data_available {S m : Nat} {ws : List T} {rb : RingBuffer T}
    (h : Holds S ws m rb) (hS : 1 ≤ S) : rb.data_available = ws.length - m := by
  obtain ⟨hlen, hwp, hrp, hmn, hfill, _⟩ := h
  have hr : m % S < S := Nat.mod_lt _ (by omega)
  have hn : ws.length % S = (m % S + (ws.length - m)) % S := by
    rw [Nat.mod_add_mod]
    congr 1
    omega
  have hcase : ws.length % S = m % S + (ws.length - m) ∨
      (S ≤ m % S + (ws.length - m) ∧ ws.length % S = m % S + (ws.length - m) - S) := by
    by_cases hc : m % S + (ws.length - m) < S
    · left
      rw [hn, Nat.mod_eq_of_lt hc]
    · right
      refine ⟨by omega, ?_⟩
      rw [hn, Nat.mod_eq_sub_mod (by omega), Nat.mod_eq_of_lt (by omega)]
  unfold data_available
  rw [hwp, hrp, hlen]
  generalize ws.length % S = a at hcase ⊢
  generalize m % S = r at hcase hr ⊢
  generalize ws.length - m = d at hcase hfill ⊢
  split
  · omega
  · split <;> omega

theorem holds_peek_offset {S m : Nat} {ws : List T} {rb : RingBuffer T}
    (h : Holds S ws m rb) (j : Nat) (hj : j < ws.length - m) :
    rb.peek_offset j = ws[m + j]? := by
  obtain ⟨hlen, _, hrp, _, _, hcells⟩ := h
  unfold peek_offset
  rw [hrp, hlen, Nat.mod_add_mod]
  exact hcells (m + j) (by omega) (by omega)

/-- C40. A `RingBuffer<T, S>` is a FIFO: for every interleaving of writes and reads
from the constructed state in which reads never outnumber writes and the number of
unread elements never exceeds `S - 1`, every call succeeds inside the array; after
the `n` writes and `m` reads of the interleaving the reads have returned the first
`m` written values in order (the `k`-th read returns the `k`-th written value),
`data_available() = n - m`, `peek(j)` for `j < n - m` returns the `(m + j + 1)`-th
written value and `peek()` the `(m + 1)`-th.  The two `peek` members are `const`:
they return a value and no state. -/
theorem fifo_order (S : Nat) (dflt : T) (ops : List (Op T)) (hS : 1 ≤ S)
    (h : Admissible S 0 ops) :
    ∃ outs rb, (RingBuffer.new S dflt).run ops = some (outs, rb) ∧
      reads ops ≤ (written ops).length ∧
      outs = (written ops).take (reads ops) ∧
      (∀ k, k < reads ops → ∃ v, (written ops)[k]? = some v ∧ outs[k]? = some v) ∧
      rb.data_available = (written ops).length - reads ops ∧
      (∀ j, j < (written ops).length - reads ops →
        ∃ v, (written ops)[reads ops + j]? = some v ∧ rb.peek_offset j = some v) ∧
      (reads ops < (written ops).length →
        ∃ v, (written ops)[reads ops]? = some v ∧ rb.peek = some v) := by
  obtain ⟨outs, rb, hs, ho, hh⟩ :=
    run_holds S ops [] 0 (RingBuffer.new S dflt) (holds_new S dflt) (by simpa using h)
  simp only [List.nil_append, List.drop_zero, Nat.zero_add] at ho hh
  have hmn : reads ops ≤ (written ops).length := hh.2.2.2.1
  refine ⟨outs, rb, hs, hmn, ho, ?_, holds_data_available hh hS, ?_, ?_⟩
  · intro k hk
    have hlt : k < (written ops).length := by omega
    refine ⟨(written ops)[k], List.getElem?_eq_getElem hlt, ?_⟩
    rw [ho, List.getElem?_take_of_lt hk]
    exact List.getElem?_eq_getElem hlt
  · intro j hj
    have hlt : reads ops + j < (written ops).length := by omega
    refine ⟨(written ops)[reads ops + j], List.getElem?_eq_getElem hlt, ?_⟩
    rw [holds_peek_offset hh j hj]
    exact List.getElem?_eq_getElem hlt
  · intro hlt
    refine ⟨(written ops)[reads ops], List.getElem?_eq_getElem hlt, ?_⟩
    have hp := holds_peek_offset hh 0 (by omega)
    have hrp : rb._read_pos < rb._data.length := by
      rw [hh.2.2.1, hh.1]
      exact Nat.mod_lt _ (by omega)
    have e : rb.peek = rb.peek_offset 0 := by
      simp only [peek, peek_offset, Nat.add_zero, Nat.mod_eq_of_lt hrp]
    rw [e, hp, Nat.add_zero]
    exact List.getElem?_eq_getElem hlt

/-- C40, on a buffer of size `4`: three writes, two reads, two writes, a read. -/
theorem fifo_order_witness :
    ∃ outs rb,
      (RingBuffer.new 4 (0 : Int)).run
        [Op.write 5, Op.write 6, Op.write 7, Op.read, Op.read, Op.write 8, Op.write 9, Op.read]
        = some (outs, rb) ∧
      reads [Op.write (5 : Int), Op.write 6, Op.write 7, Op.read, Op.read, Op.write 8,
          Op.write 9, Op.read]
        ≤ (written [Op.write (5 : Int), Op.write 6, Op.write 7, Op.read, Op.read, Op.write 8,
          Op.write 9, Op.read]).length ∧
      outs = (written [Op.write (5 : Int), Op.write 6, Op.write 7, Op.read, Op.read,
          Op.write 8, Op.write 9, Op.read]).take
        (reads [Op.write (5 : Int), Op.write 6, Op.write 7, Op.read, Op.read, Op.write 8,
          Op.write 9, Op.read]) ∧
      (∀ k, k < reads [Op.write (5 : Int), Op.write 6, Op.write 7, Op.read, Op.read,
          Op.write 8, Op.write 9, Op.read] →
        ∃ v, (written [Op.write (5 : Int), Op.write 6, Op.write 7, Op.read, Op.read,
          Op.write 8, Op.write 9, Op.read])[k]? = some v ∧ outs[k]? = some v) ∧
      rb.data_available
        = (written [Op.write (5 : Int), Op.write 6, Op.write 7, Op.read, Op.read, Op.write 8,
            Op.write 9, Op.read]).length
          - reads [Op.write (5 : Int), Op.write 6, Op.write 7, Op.read, Op.read, Op.write 8,
            Op.write 9, Op.read] ∧
      (∀ j, j < (written [Op.write (5 : Int), Op.write 6, Op.write 7, Op.read, Op.read,
            Op.write 8, Op.write 9, Op.read]).length
          - reads [Op.write (5 : Int), Op.write 6, Op.write 7, Op.read, Op.read, Op.write 8,
            Op.write 9, Op.read] →
        ∃ v, (written [Op.write (5 : Int), Op.write 6, Op.write 7, Op.read, Op.read,
            Op.write 8, Op.write 9, Op.read])[reads [Op.write (5 : Int), Op.write 6,
            Op.write 7, Op.read, Op.read, Op.write 8, Op.write 9, Op.read] + j]? = some v ∧
          rb.peek_offset j = some v) ∧
      (reads [Op.write (5 : Int), Op.write 6, Op.write 7, Op.read, Op.read, Op.write 8,
            Op.write 9, Op.read]
          < (written [Op.write (5 : Int), Op.write 6, Op.write 7, Op.read, Op.read,
            Op.write 8, Op.write 9, Op.read]).length →
        ∃ v, (written [Op.write (5 : Int), Op.write 6, Op.write 7, Op.read, Op.read,
            Op.write 8, Op.write 9, Op.read])[reads [Op.write (5 : Int), Op.write 6,
            Op.write 7, Op.read, Op.read, Op.write 8, Op.write 9, Op.read]]? = some v ∧
          rb.peek = some v) :=
  fifo_order 4 (0 : Int)
    [Op.write 5, Op.write 6, Op.write 7, Op.read, Op.read, Op.write 8, Op.write 9, Op.read]
    (by decide) (by simp [Admissible])

end RingBuffer

/-! ## Magnitude invariance of the plain allpass -/

namespace AllpassProcessor

theorem cells_bounded_step {R : Type} [LinearOrderedCommRing R] (ap ap1 : AllpassProcessor R)
    (x y B : R) (h : ap.process x = some (y, ap1))
    (hb : ∀ v ∈ ap.delay.buffer, |v| ≤ B) (hx : |x| + |ap.gain| * B ≤ B) :
    ∀ v ∈ ap1.delay.buffer, |v| ≤ B := by
  simp only [process, _process_sample] at h
  cases hr : ap.delay.read with
  | none => simp [hr] at h
  | some r =>
    rw [hr] at h
    have hlt : ap.delay.write_index < ap.delay.buffer.length := by
      by_contra hn
      rw [AudioRingBuffer.read, List.getElem?_eq_none (by omega)] at hr
      cases hr
    simp only [AudioRingBuffer.write_eq _ _ hlt, Option.some.injEq, Prod.mk.injEq] at h
    obtain ⟨_, rfl⟩ := h
    intro v hv
    rcases List.mem_or_eq_of_mem_set hv with h1 | h1
    · exact hb v h1
    · have hrb : |r| ≤ B := hb r (List.getElem?_mem hr)
      have h2 : |ap.gain * r| ≤ |ap.gain| * B := by
        rw [abs_mul]
        exact mul_le_mul_of_nonneg_left hrb (abs_nonneg _)
      rw [h1]
      calc |x + ap.gain * r| ≤ |x| + |ap.gain * r| := abs_add _ _
        _ ≤ |x| + |ap.gain| * B := by linarith
        _ ≤ B := hx

theorem cells_bounded_processSeq {R : Type} [LinearOrderedCommRing R] (B : R) (xs : List R) :
    ∀ (ap ap1 : AllpassProcessor R) (ys : List R), ap.processSeq xs = some (ys, ap1) →
      (∀ v ∈ ap.delay.buffer, |v| ≤ B) → (∀ x ∈ xs, |x| + |ap.gain| * B ≤ B) →
      ∀ v ∈ ap1.delay.buffer, |v| ≤ B := by
  induction xs with
  | nil =>
    intro ap ap1 ys h hb _
    simp only [processSeq, Option.some.injEq, Prod.mk.injEq] at h
    obtain ⟨_, rfl⟩ := h
    exact hb
  | cons x xs ih =>
    intro ap ap1 ys h hb hx
    simp only [processSeq] at h
    cases hp : ap.process x with
    | none => simp [hp] at h
    | some r =>
      obtain ⟨y, ap2⟩ := r
      simp only [hp] at h
      cases hq : ap2.processSeq xs with
      | none => simp [hq] at h
      | some q =>
        obtain ⟨zs, ap3⟩ := q
        simp only [hq, Option.some.injEq, Prod.mk.injEq] at h
        obtain ⟨_, rfl⟩ := h
        have hg : ap2.gain = ap.gain := (energy_step ap ap2 x y hp).2.1
        have hb2 := cells_bounded_step ap ap2 x y B hp hb (hx x (List.mem_cons_self x xs))
        refine ih ap2 ap3 zs hq hb2 ?_
        intro x1 hx1
        rw [hg]
        exact hx x1 (List.mem_cons_of_mem x hx1)

theorem stored_energy_le {R : Type} [LinearOrderedCommRing R] (ap : AllpassProcessor R) (B : R)
    (hb : ∀ v ∈ ap.delay.buffer, |v| ≤ B) :
    ap.stored_energy ≤ (ap.delay.buffer.length : R) * B ^ 2 := by
  unfold stored_energy
  have h := List.sum_le_card_nsmul (ap.delay.buffer.map (fun v => v ^ 2)) (B ^ 2) (by
    intro u hu
    obtain ⟨v, hv, rfl⟩ := List.mem_map.mp hu
    have h1 := abs_le.mp (hb v hv)
    exact sq_le_sq' h1.1 h1.2)
  rw [List.length_map, nsmul_eq_mul] at h
  exact h

theorem energy_gap_bounded {K : Type} [LinearOrderedField K] (g half M : K) (D : Nat)
    (hD : 1 ≤ D) (hg : |g| < 1) (xs : List K) (hM : ∀ x ∈ xs, |x| ≤ M) (hM0 : 0 ≤ M) :
    ∃ ap1,
      ((AllpassProcessor.new (List.replicate D (0 : K)) half).set_gain g).processSeq xs
        = some (((AllpassProcessor.new (List.replicate D (0 : K)) half).set_gain g).outputs xs,
            ap1) ∧
      (((AllpassProcessor.new (List.replicate D (0 : K)) half).set_gain g).outputs xs).length
        = xs.length ∧
      0 ≤ energy xs
          - energy (((AllpassProcessor.new (List.replicate D (0 : K)) half).set_gain g).outputs xs) ∧
      energy xs
          - energy (((AllpassProcessor.new (List.replicate D (0 : K)) half).set_gain g).outputs xs)
        ≤ (1 - g ^ 2) * ((D : K) * (M / (1 - |g|)) ^ 2) := by
  obtain ⟨ys, ap1, _, hs, _, _, _, hlen, _⟩ :=
    allpass_processSeq_tracks xs D D _ _ (by omega) (Nat.le_refl D)
      (allpass_tracks_new_zero D half g)
  have hout : ((AllpassProcessor.new (List.replicate D (0 : K)) half).set_gain g).outputs xs
      = ys := by
    simp only [outputs, hs]
  obtain ⟨e, _, l⟩ := energy_processSeq xs _ ap1 ys hs
  have h0 : ((AllpassProcessor.new (List.replicate D (0 : K)) half).set_gain g).stored_energy
      = 0 := by
    simp [stored_energy, AllpassProcessor.new, set_gain, AudioRingBuffer.new]
  have hgain : ((AllpassProcessor.new (List.replicate D (0 : K)) half).set_gain g).gain = g :=
    rfl
  have hl : ((AllpassProcessor.new (List.replicate D (0 : K)) half).set_gain g).delay.buffer
      = List.replicate D 0 := rfl
  rw [h0, hgain, sub_zero] at e
  have hpos : 0 < 1 - |g| := by linarith
  have hB0 : 0 ≤ M / (1 - |g|) := div_nonneg hM0 (le_of_lt hpos)
  have hBM : M / (1 - |g|) * (1 - |g|) = M := div_mul_cancel₀ M (ne_of_gt hpos)
  have hcells : ∀ v ∈ ap1.delay.buffer, |v| ≤ M / (1 - |g|) := by
    refine cells_bounded_processSeq (M / (1 - |g|)) xs _ ap1 ys hs ?_ ?_
    · intro v hv
      rw [hl] at hv
      rw [List.eq_of_mem_replicate hv, abs_zero]
      exact hB0
    · intro x hx
      rw [hgain]
      have := hM x hx
      nlinarith
  have hE := stored_energy_le ap1 _ hcells
  rw [l, hl, List.length_replicate] at hE
  have hg2 : 0 ≤ 1 - g ^ 2 := by
    have := (sq_lt_one_iff_abs_lt_one g).mpr hg
    linarith
  have hnn := stored_energy_nonneg ap1
  rw [hout]
  refine ⟨ap1, hs, hlen, ?_, ?_⟩
  · show 0 ≤ (xs.map (fun v => v ^ 2)).sum - (ys.map (fun v => v ^ 2)).sum
    rw [e]
    exact mul_nonneg hg2 hnn
  · show (xs.map (fun v => v ^ 2)).sum - (ys.map (fun v => v ^ 2)).sum ≤ _
    rw [e]
    exact mul_le_mul_of_nonneg_left hE hg2

theorem sqrt_sub_sqrt_le (a b : ℝ) (hb : 0 ≤ b) (hab : b ≤ a) :
    Real.sqrt a - Real.sqrt b ≤ Real.sqrt (a - b) := by
  rw [sub_le_iff_le_add]
  apply Real.sqrt_le_iff.mpr
  refine ⟨add_nonneg (Real.sqrt_nonneg _) (Real.sqrt_nonneg _), ?_⟩
  have h1 := Real.sq_sqrt (sub_nonneg.mpr hab)
  have h2 := Real.sq_sqrt hb
  nlinarith [mul_nonneg (Real.sqrt_nonneg (a - b)) (Real.sqrt_nonneg b)]

theorem energy_nonneg {R : Type} [LinearOrderedCommRing R] (xs : List R) : 0 ≤ energy xs := by
  unfold energy
  apply List.sum_nonneg
  intro v hv
  obtain ⟨a, _, rfl⟩ := List.mem_map.mp hv
  exact sq_nonneg a

/-- C20. For a plain `AllpassProcessor` of any length `D >= 1` with `|gain| < 1`,
driven from zero state by a sinusoid `A * sin(ω n + φ)` of any amplitude, frequency
and phase: every run succeeds; over the first `N` samples the input energy exceeds
the output energy by at most `(1 - g^2) * D * (|A| / (1 - |g|))^2`, a bound that does
not grow with `N`; hence the difference of the mean squares of input and output over
`N` samples tends to `0`, and so does the difference of their RMS values: in the
steady state the output RMS equals the input RMS, at every frequency. -/
theorem magnitude_invariance (g half A ω φ : ℝ) (D : Nat) (hD : 1 ≤ D) (hg : |g| < 1) :
    (∀ N : Nat, ∃ ap1,
      ((AllpassProcessor.new (List.replicate D (0 : ℝ)) half).set_gain g).processSeq
          (samples (fun n : Nat => A * Real.sin (ω * (n : ℝ) + φ)) N)
        = some (((AllpassProcessor.new (List.replicate D (0 : ℝ)) half).set_gain g).outputs
            (samples (fun n : Nat => A * Real.sin (ω * (n : ℝ) + φ)) N), ap1) ∧
      (((AllpassProcessor.new (List.replicate D (0 : ℝ)) half).set_gain g).outputs
          (samples (fun n : Nat => A * Real.sin (ω * (n : ℝ) + φ)) N)).length = N) ∧
    (∀ N : Nat,
      0 ≤ energy (samples (fun n : Nat => A * Real.sin (ω * (n : ℝ) + φ)) N)
          - energy (((AllpassProcessor.new (List.replicate D (0 : ℝ)) half).set_gain g).outputs
              (samples (fun n : Nat => A * Real.sin (ω * (n : ℝ) + φ)) N)) ∧
      energy (samples (fun n : Nat => A * Real.sin (ω * (n : ℝ) + φ)) N)
          - energy (((AllpassProcessor.new (List.replicate D (0 : ℝ)) half).set_gain g).outputs
              (samples (fun n : Nat => A * Real.sin (ω * (n : ℝ) + φ)) N))
        ≤ (1 - g ^ 2) * (((D : Nat) : ℝ) * (|A| / (1 - |g|)) ^ 2)) ∧
    Filter.Tendsto
      (fun N : Nat =>
        energy (samples (fun n : Nat => A * Real.sin (ω * (n : ℝ) + φ)) N) / (N : ℝ)
          - energy (((AllpassProcessor.new (List.replicate D (0 : ℝ)) half).set_gain g).outputs
              (samples (fun n : Nat => A * Real.sin (ω * (n : ℝ) + φ)) N)) / (N : ℝ))
      Filter.atTop (nhds 0) ∧
    Filter.Tendsto
      (fun N : Nat =>
        Real.sqrt (energy (samples (fun n : Nat => A * Real.sin (ω * (n : ℝ) + φ)) N) / (N : ℝ))
          - Real.sqrt (energy (((AllpassProcessor.new (List.replicate D (0 : ℝ)) half).set_gain g).outputs
              (samples (fun n : Nat => A * Real.sin (ω * (n : ℝ) + φ)) N)) / (N : ℝ)))
      Filter.atTop (nhds 0) := by
  have hlen : ∀ N : Nat,
      (samples (fun n : Nat => A * Real.sin (ω * (n : ℝ) + φ)) N).length = N := by
    intro N
    simp [samples]
  have hbound : ∀ N : Nat, ∀ v ∈ samples (fun n : Nat => A * Real.sin (ω * (n : ℝ) + φ)) N,
      |v| ≤ |A| := by
    intro N v hv
    obtain ⟨n, _, rfl⟩ := List.mem_map.mp hv
    rw [abs_mul]
    have h1 := Real.abs_sin_le_one (ω * (n : ℝ) + φ)
    have h2 := abs_nonneg A
    nlinarith
  have key := fun N : Nat =>
    energy_gap_bounded g half |A| D hD hg
      (samples (fun n : Nat => A * Real.sin (ω * (n : ℝ) + φ)) N) (hbound N) (abs_nonneg A)
  have hgap : ∀ N : Nat,
      0 ≤ energy (samples (fun n : Nat => A * Real.sin (ω * (n : ℝ) + φ)) N)
          - energy (((AllpassProcessor.new (List.replicate D (0 : ℝ)) half).set_gain g).outputs
              (samples (fun n : Nat => A * Real.sin (ω * (n : ℝ) + φ)) N)) ∧
      energy (samples (fun n : Nat => A * Real.sin (ω * (n : ℝ) + φ)) N)
          - energy (((AllpassProcessor.new (List.replicate D (0 : ℝ)) half).set_gain g).outputs
              (samples (fun n : Nat => A * Real.sin (ω * (n : ℝ) + φ)) N))
        ≤ (1 - g ^ 2) * (((D : Nat) : ℝ) * (|A| / (1 - |g|)) ^ 2) := by
    intro N
    obtain ⟨_, _, _, h1, h2⟩ := key N
    exact ⟨h1, h2⟩
  refine ⟨?_, hgap, ?_, ?_⟩
  · intro N
    obtain ⟨ap1, h1, h2, _, _⟩ := key N
    exact ⟨ap1, h1, by rw [h2, hlen]⟩
  · refine squeeze_zero (g := fun N : Nat =>
        ((1 - g ^ 2) * (((D : Nat) : ℝ) * (|A| / (1 - |g|)) ^ 2)) / (N : ℝ)) ?_ ?_
      (tendsto_const_div_atTop_nhds_zero_nat _)
    · intro N
      rw [← sub_div]
      exact div_nonneg (hgap N).1 (Nat.cast_nonneg N)
    · intro N
      rw [← sub_div]
      exact div_le_div_of_nonneg_right (hgap N).2 (Nat.cast_nonneg N)
  · have hlim : Filter.Tendsto (fun N : Nat =>
        Real.sqrt (((1 - g ^ 2) * (((D : Nat) : ℝ) * (|A| / (1 - |g|)) ^ 2)) / (N : ℝ)))
        Filter.atTop (nhds 0) := by
      have h := (tendsto_const_div_atTop_nhds_zero_nat
        ((1 - g ^ 2) * (((D : Nat) : ℝ) * (|A| / (1 - |g|)) ^ 2))).sqrt
      rwa [Real.sqrt_zero] at h
    refine squeeze_zero ?_ ?_ hlim
    · intro N
      have hle : energy (((AllpassProcessor.new (List.replicate D (0 : ℝ)) half).set_gain
            g).outputs (samples (fun n : Nat => A * Real.sin (ω * (n : ℝ) + φ)) N)) / (N : ℝ)
          ≤ energy (samples (fun n : Nat => A * Real.sin (ω * (n : ℝ) + φ)) N) / (N : ℝ) :=
        div_le_div_of_nonneg_right (by linarith [(hgap N).1]) (Nat.cast_nonneg N)
      exact sub_nonneg.mpr (Real.sqrt_le_sqrt hle)
    · intro N
      have hle : energy (((AllpassProcessor.new (List.replicate D (0 : ℝ)) half).set_gain
            g).outputs (samples (fun n : Nat => A * Real.sin (ω * (n : ℝ) + φ)) N)) / (N : ℝ)
          ≤ energy (samples (fun n : Nat => A * Real.sin (ω * (n : ℝ) + φ)) N) / (N : ℝ) :=
        div_le_div_of_nonneg_right (by linarith [(hgap N).1]) (Nat.cast_nonneg N)
      have hb0 : 0 ≤ energy (((AllpassProcessor.new (List.replicate D (0 : ℝ)) half).set_gain
            g).outputs (samples (fun n : Nat => A * Real.sin (ω * (n : ℝ) + φ)) N)) / (N : ℝ) :=
        div_nonneg (energy_nonneg _) (Nat.cast_nonneg N)
      refine le_trans (sqrt_sub_sqrt_le _ _ hb0 hle) (Real.sqrt_le_sqrt ?_)
      rw [← sub_div]
      exact div_le_div_of_nonneg_right (hgap N).2 (Nat.cast_nonneg N)

/-- C20, at the allpass of the specification's example (length `50`, gain `1/2`),
driven by `sin(n / 10)`. -/
theorem magnitude_invariance_witness :
    (∀ N : Nat, ∃ ap1,
      ((AllpassProcessor.new (List.replicate 50 (0 : ℝ)) (1 / 2 : ℝ)).set_gain (1 / 2 : ℝ)).processSeq
          (samples (fun n : Nat => (1 : ℝ) * Real.sin ((1 / 10 : ℝ) * (n : ℝ) + (0 : ℝ))) N)
        = some (((AllpassProcessor.new (List.replicate 50 (0 : ℝ)) (1 / 2 : ℝ)).set_gain (1 / 2 : ℝ)).outputs
            (samples (fun n : Nat => (1 : ℝ) * Real.sin ((1 / 10 : ℝ) * (n : ℝ) + (0 : ℝ))) N), ap1) ∧
      (((AllpassProcessor.new (List.replicate 50 (0 : ℝ)) (1 / 2 : ℝ)).set_gain (1 / 2 : ℝ)).outputs
          (samples (fun n : Nat => (1 : ℝ) * Real.sin ((1 / 10 : ℝ) * (n : ℝ) + (0 : ℝ))) N)).length = N) ∧
    (∀ N : Nat,
      0 ≤ energy (samples (fun n : Nat => (1 : ℝ) * Real.sin ((1 / 10 : ℝ) * (n : ℝ) + (0 : ℝ))) N)
          - energy (((AllpassProcessor.new (List.replicate 50 (0 : ℝ)) (1 / 2 : ℝ)).set_gain (1 / 2 : ℝ)).outputs
              (samples (fun n : Nat => (1 : ℝ) * Real.sin ((1 / 10 : ℝ) * (n : ℝ) + (0 : ℝ))) N)) ∧
      energy (samples (fun n : Nat => (1 : ℝ) * Real.sin ((1 / 10 : ℝ) * (n : ℝ) + (0 : ℝ))) N)
          - energy (((AllpassProcessor.new (List.replicate 50 (0 : ℝ)) (1 / 2 : ℝ)).set_gain (1 / 2 : ℝ)).outputs
              (samples (fun n : Nat => (1 : ℝ) * Real.sin ((1 / 10 : ℝ) * (n : ℝ) + (0 : ℝ))) N))
        ≤ (1 - (1 / 2 : ℝ) ^ 2) * (((50 : Nat) : ℝ) * (|(1 : ℝ)| / (1 - |(1 / 2 : ℝ)|)) ^ 2)) ∧
    Filter.Tendsto
      (fun N : Nat =>
        energy (samples (fun n : Nat => (1 : ℝ) * Real.sin ((1 / 10 : ℝ) * (n : ℝ) + (0 : ℝ))) N) / (N : ℝ)
          - energy (((AllpassProcessor.new (List.replicate 50 (0 : ℝ)) (1 / 2 : ℝ)).set_gain (1 / 2 : ℝ)).outputs
              (samples (fun n : Nat => (1 : ℝ) * Real.sin ((1 / 10 : ℝ) * (n : ℝ) + (0 : ℝ))) N)) / (N : ℝ))
      Filter.atTop (nhds 0) ∧
    Filter.Tendsto
      (fun N : Nat =>
        Real.sqrt (energy (samples (fun n : Nat => (1 : ℝ) * Real.sin ((1 / 10 : ℝ) * (n : ℝ) + (0 : ℝ))) N) / (N : ℝ))
          - Real.sqrt (energy (((AllpassProcessor.new (List.replicate 50 (0 : ℝ)) (1 / 2 : ℝ)).set_gain (1 / 2 : ℝ)).outputs
              (samples (fun n : Nat => (1 : ℝ) * Real.sin ((1 / 10 : ℝ) * (n : ℝ) + (0 : ℝ))) N)) / (N : ℝ)))
      Filter.atTop (nhds 0) :=
  magnitude_invariance (1 / 2) (1 / 2) 1 (1 / 10) 0 50 (by decide)
    (by rw [abs_lt]; constructor <;> norm_num)

end AllpassProcessor

end idsp
